import Mathlib

/-! # nausicaa: a markup-to-Go view generator

A shallow embedding of `nausicaa.go` and a verification development over it.

Conventions of the embedding.

* Go strings and byte slices are `String`s (the inputs are taken to be valid
  UTF-8, so a rune is a `Char`).
* The tokenizer of `golang.org/x/net/html` is an external collaborator: a file
  is the list of tokens that `z.Next()` yields before `io.EOF`.
* `bytes.Buffer`s that receive generated Go code are lists of `Line`s, one
  constructor per `fmt.Fprintf` / `fmt.Fprint` call of the source; `Line.render`
  gives the bytes written by that call.
* Go maps are association lists; the order in which `range` visits a map is
  chosen by the environment.
* Library functions that the generator calls (`path/filepath`, `unicode`,
  `strconv.Quote` behind the `%q` verb, `go/format`) and the table `webapiNames`
  are fields of `Env`.
* A Go function that returns `error` returns an `Outcome`; the state it mutates
  through pointers is passed in and returned.
-/

namespace Nausicaa

/-! ## Tokens, errors, outcomes -/

/-- A token of `html.Tokenizer`: its type, and what `z.TagName()`, `z.TagAttr()`
and `z.Text()` give for it.  `ErrorToken` stands for an error other than
`io.EOF`; reaching the end of the list is `ErrorToken` with `io.EOF`. -/
inductive Token where
  | ErrorToken (err : String)
  | TextToken (text : String)
  | StartTagToken (tagName : String) (attrs : List (String × String))
  | EndTagToken (tagName : String)
  | SelfClosingTagToken (tagName : String) (attrs : List (String × String))
  | CommentToken (text : String)
  | DoctypeToken (text : String)
  deriving DecidableEq, Repr

/-- The causes wrapped in the `Err` field of `Error`, one constructor per
`fmt.Errorf` / `errors.New` call of the source. -/
inductive Cause where
  /-- Go: `fmt.Errorf("cycle in include paths (%s)", strings.Join(cycle, " -> "))` -/
  | cycle (cycle : List String)
  /-- Go: `fmt.Errorf("tokenize HTML: %w", z.Err())` -/
  | tokenize (err : String)
  /-- Go: `errors.New("cannot find <style> text")` -/
  | noStyleText
  /-- Go: `errDisallowedRefName(ref, reason)` -/
  | disallowedRefName (ref reason : String)
  /-- Go: `errRepeatedRefName(ref, prevTagName)` -/
  | repeatedRefName (ref prevTagName : String)
  /-- Go: `fmt.Errorf("<include> specifies invalid attribute %q", k)` -/
  | invalidAttribute (k : String)
  /-- Go: `errors.New("missing required \"path\" attribute in <include>")` -/
  | missingPath
  deriving DecidableEq, Repr

/-- The text of a cause (`quote` is the `%q` verb). -/
def Cause.message (quote : String → String) : Cause → String
  | .cycle names => "cycle in include paths (" ++ " -> ".intercalate names ++ ")"
  | .tokenize err => "tokenize HTML: " ++ err
  | .noStyleText => "cannot find <style> text"
  | .disallowedRefName ref reason =>
      "ref name " ++ quote ref ++ " disallowed (" ++ reason ++ ")"
  | .repeatedRefName ref prevTagName =>
      "ref name " ++ quote ref ++ " present multiple times (previous occurence in <"
        ++ prevTagName ++ ">)"
  | .invalidAttribute k => "<include> specifies invalid attribute " ++ quote k
  | .missingPath => "missing required \"path\" attribute in <include>"

/-- A non-nil Go `error` value that the generator can return: the package's own
`Error` struct, or the `*fs.PathError` of a failed `os.Open`, which
`generateOneFile` returns as it is. -/
inductive GoError where
  | Error (Path : String) (Err : Cause)
  | PathError (Op Path : String)
  deriving DecidableEq, Repr

/-- How a call ends: it returns a nil error, returns a non-nil error, panics at
run time, or (in the embedding only) exhausts the recursion fuel. -/
inductive Outcome where
  | nil
  | error (e : GoError)
  | panicked
  | outOfFuel
  deriving DecidableEq, Repr

/-! ## Generated code -/

/-- One write to a code buffer. -/
inductive Line where
  /-- Go: `viewsHeaderTpl.Execute(&g.viewsBuf, g.opts.Package)` -/
  | header (pkg : String)
  /-- Go: `"func %s() *%s {\n"` -/
  | funcOpen (funcName typeName : String)
  /-- Go: `"const %s = %q\n"` -/
  | constString (strName text : String)
  /-- Go: `"%s.SetTextContent(&%s)\n"` -/
  | setTextContent (parentVar strName : String)
  /-- Go: `"%s := _document.CreateElement(%q, nil)\n"` -/
  | createElement (varName tagName : String)
  /-- Go: `"%s.SetAttribute(%q, %q)\n"` -/
  | setAttribute (varName k v : String)
  /-- Go: `"%s := %s()\n"` -/
  | construct (varName constructorFuncName : String)
  /-- Go: `"for _, r := range %s.roots {\n"` -/
  | forRoots (varName : String)
  /-- Go: `"%s.AppendChild(&r.Node)\n"` -/
  | appendChildRoot (parentVar : String)
  /-- Go: `"}\n"` -/
  | forClose
  /-- Go: `"%s.AppendChild(&%s.Node)\n"` -/
  | appendChild (parentVar varName : String)
  /-- Go: `"return &%s{\n"` -/
  | returnOpen (typeName : String)
  /-- Go: `"%s: %s(%s),\n"` -/
  | fieldInitFromJS (k f varName : String)
  /-- Go: `"%s: %s,\n"` -/
  | fieldInit (k varName : String)
  /-- Go: `"roots: []*dom.Element{%s},\n"` with `strings.Join(roots, ", ")` -/
  | rootsInit (roots : List String)
  /-- Go: `"}"` -/
  | returnClose
  /-- Go: `"\n}\n\n"` -/
  | funcClose
  /-- Go: `"// source: %s\n"` -/
  | sourceComment (path : String)
  /-- Go: `"type %s struct {\n"` -/
  | typeOpen (typeName : String)
  /-- Go: `"%s %s\n"` -/
  | field (k typeName : String)
  /-- Go: `"roots []*dom.Element\n"` -/
  | rootsField
  /-- Go: `"}\n\n"` -/
  | typeClose
  deriving DecidableEq, Repr

/-- The constant `viewsHeader`, with the package name filled in. -/
def viewsHeader (pkg : String) : String :=
  "package " ++ pkg ++ "\n\n// Code generated by nausicaa. DO NOT EDIT.\n\n" ++
  "import (\n\t\"github.com/gowebapi/webapi\"\n\t\"github.com/gowebapi/webapi/dom\"\n" ++
  "\t\"github.com/gowebapi/webapi/html\"\n\t\"github.com/gowebapi/webapi/html/canvas\"\n" ++
  "\t\"github.com/gowebapi/webapi/html/media\"\n)\n\n" ++
  "type (\n\t_ *webapi.Document // prevent unused import errors\n\t_ *dom.Element\n" ++
  "\t_ *html.HTMLDivElement\n\t_ *canvas.HTMLCanvasElement\n\t_ *media.HTMLAudioElement\n)\n\n" ++
  "var (\n\t_document = webapi.GetDocument()\n)\n"

/-- The bytes of one write (`quote` is the `%q` verb). -/
def Line.render (quote : String → String) : Line → String
  | .header pkg => viewsHeader pkg
  | .funcOpen funcName typeName => "func " ++ funcName ++ "() *" ++ typeName ++ " \x7b\n"
  | .constString strName text => "const " ++ strName ++ " = " ++ quote text ++ "\n"
  | .setTextContent parentVar strName => parentVar ++ ".SetTextContent(&" ++ strName ++ ")\n"
  | .createElement varName tagName =>
      varName ++ " := _document.CreateElement(" ++ quote tagName ++ ", nil)\n"
  | .setAttribute varName k v =>
      varName ++ ".SetAttribute(" ++ quote k ++ ", " ++ quote v ++ ")\n"
  | .construct varName ctor => varName ++ " := " ++ ctor ++ "()\n"
  | .forRoots varName => "for _, r := range " ++ varName ++ ".roots \x7b\n"
  | .appendChildRoot parentVar => parentVar ++ ".AppendChild(&r.Node)\n"
  | .forClose => "\x7d\n"
  | .appendChild parentVar varName => parentVar ++ ".AppendChild(&" ++ varName ++ ".Node)\n"
  | .returnOpen typeName => "return &" ++ typeName ++ "\x7b\n"
  | .fieldInitFromJS k f varName => k ++ ": " ++ f ++ "(" ++ varName ++ "),\n"
  | .fieldInit k varName => k ++ ": " ++ varName ++ ",\n"
  | .rootsInit roots => "roots: []*dom.Element\x7b" ++ ", ".intercalate roots ++ "\x7d,\n"
  | .returnClose => "\x7d"
  | .funcClose => "\n\x7d\n\n"
  | .sourceComment path => "// source: " ++ path ++ "\n"
  | .typeOpen typeName => "type " ++ typeName ++ " struct \x7b\n"
  | .field k typeName => k ++ " " ++ typeName ++ "\n"
  | .rootsField => "roots []*dom.Element\n"
  | .typeClose => "\x7d\n\n"

/-- The contents of a code buffer. -/
def renderLines (quote : String → String) (buf : List Line) : String :=
  String.join (buf.map (Line.render quote))

/-! ## Go maps -/

/-- Go: `m[k]` with the comma-ok form. -/
def mapGet {α : Type} : List (String × α) → String → Option α
  | [], _ => none
  | (k, v) :: rest, key => if k = key then some v else mapGet rest key

/-- Go: `m[k] = v`. -/
def mapSet {α : Type} : List (String × α) → String → α → List (String × α)
  | [], key, val => [(key, val)]
  | (k, v) :: rest, key, val =>
      if k = key then (k, val) :: rest else (k, v) :: mapSet rest key val

/-- Go: `m[k] = struct{}{}` on a `map[string]struct{}`, kept as its list of keys. -/
def setAdd (m : List String) (v : String) : List String :=
  if v ∈ m then m else m ++ [v]

/-! ## stack -/

structure tagAndVarName where
  TagName : String
  VarName : String
  deriving DecidableEq, Repr

structure stack where
  s : List tagAndVarName
  deriving DecidableEq, Repr

def stack.push (st : stack) (v : tagAndVarName) : stack :=
  { s := st.s ++ [v] }

/-- Go: `stack.pop`; `none` is the index-out-of-range panic of `st.s[len(st.s)-1]`
on an empty stack. -/
def stack.pop (st : stack) : Option (tagAndVarName × stack) :=
  match st.s.getLast? with
  | none => none
  | some v => some (v, { s := st.s.dropLast })

def stack.len (st : stack) : Nat :=
  st.s.length

def stack.peek (st : stack) : Option tagAndVarName :=
  if st.len = 0 then none else st.s.getLast?

/-! ## orderedSet -/

structure orderedSet where
  m : List String
  s : List String
  deriving DecidableEq, Repr

def newOrderedSet : orderedSet :=
  { m := [], s := [] }

def orderedSet.has (o : orderedSet) (v : String) : Bool :=
  decide (v ∈ o.m)

def orderedSet.add (o : orderedSet) (v : String) : orderedSet :=
  if o.has v then o else { m := o.m ++ [v], s := o.s ++ [v] }

/-- Go: `orderedSet.remove`.  The loop leaves `i` at the first index holding `v`,
or at the last index when there is none; the element at `i` is then cut out.
(With `v` in `m` and `s` empty the source would panic in `copy`; `m` and `s`
hold the same elements, see `orderedSet.WF`, so that does not arise.) -/
def orderedSet.remove (o : orderedSet) (v : String) : orderedSet :=
  if o.has v then
    let i := if v ∈ o.s then o.s.indexOf v else o.s.length - 1
    { m := o.m.erase v, s := o.s.eraseIdx i }
  else o

/-- Go: `orderedSet.forEach`, collecting what `f` is applied to. -/
def orderedSet.forEach {α : Type} (o : orderedSet) (f : α → String → α) (init : α) : α :=
  o.s.foldl f init

/-- The representation invariant of `orderedSet`: `m` and `s` hold the same
elements, each once. -/
structure orderedSet.WF (o : orderedSet) : Prop where
  mem_iff : ∀ v, v ∈ o.m ↔ v ∈ o.s
  nodup_m : o.m.Nodup
  nodup_s : o.s.Nodup

/-! ## The environment -/

structure tagAndVarAndTypeName where
  TagName : String
  VarName : String
  TypeName : String
  deriving DecidableEq, Repr

/-- The type of the local `refs`: `map[string]tagAndVarAndTypeName`. -/
abbrev Refs := List (String × tagAndVarAndTypeName)

/-- What the generator takes from outside `nausicaa.go`. -/
structure Env where
  /-- Go: `os.Open` and `html.NewTokenizer`: the paths that can be opened, each
  with the tokens of its contents. -/
  files : List (String × List Token)
  /-- Go: `filepath.Base` -/
  Base : String → String
  /-- Go: `filepath.Dir` -/
  Dir : String → String
  /-- Go: `filepath.Join` of two elements -/
  Join : String → String → String
  /-- Go: `filepath.IsAbs` -/
  IsAbs : String → Bool
  /-- Go: `unicode.IsUpper` -/
  IsUpper : Char → Bool
  /-- Go: `unicode.ToUpper` -/
  ToUpper : Char → Char
  /-- Go: `webapiNames(tagName) (typ, fromJS string, ok bool)`, declared in another
  file of the package: the binding type and conversion function of a tag name. -/
  webapiNames : String → Option (String × String)
  /-- The order in which `for k, v := range refs` of `writeTypeDefinition` visits
  the map, for the unit of the given path. -/
  rangeTypeDefinition : String → Refs → Refs
  /-- The order in which `for k, r := range refs` of `writeReturn` visits the map,
  for the unit of the given path. -/
  rangeReturn : String → Refs → Refs
  /-- Go: the `%q` verb of `fmt` -/
  quote : String → String
  /-- Go: `format.Source`; `none` is a non-nil error. -/
  formatSource : String → Option String
  /-- A `range` over a map visits each entry once. -/
  rangeTypeDefinition_perm : ∀ path refs, (rangeTypeDefinition path refs).Perm refs
  /-- A `range` over a map visits each entry once. -/
  rangeReturn_perm : ∀ path refs, (rangeReturn path refs).Perm refs

/-- Go: `os.Open(path)` followed by `html.NewTokenizer(f)`. -/
def Env.open? (env : Env) (path : String) : Option (List Token) :=
  mapGet env.files path

/-! ## Names and text -/

/-- Go: `token.IsKeyword`. -/
def IsKeyword (name : String) : Bool :=
  decide (name ∈ ["break", "case", "chan", "const", "continue", "default", "defer", "else",
    "fallthrough", "for", "func", "go", "goto", "if", "import", "interface", "map", "package",
    "range", "return", "select", "struct", "switch", "type", "var"])

def isDisallowedRefName (name : String) : Bool × String :=
  if IsKeyword name then (true, "Go keyword")
  else (decide (name = "roots"), "reserved for internal use")

def errDisallowedRefName (ref reason : String) : Cause :=
  .disallowedRefName ref reason

def errRepeatedRefName (ref prevTagName : String) : Cause :=
  .repeatedRefName ref prevTagName

structure varNames where
  m : List (String × Nat)
  deriving DecidableEq, Repr

def newVarNames : varNames :=
  { m := [] }

/-- Go: `varNames.next`: the name, and the allocator after `v.m[kind]++`. -/
def varNames.next (v : varNames) (kind : String) : String × varNames :=
  let n := (mapGet v.m kind).getD 0
  (kind ++ toString n, { m := mapSet v.m kind (n + 1) })

def equalsRef (k : String) : Bool :=
  decide (k.data = ['r', 'e', 'f'])

def equalsPath (k : String) : Bool :=
  decide (k.data = ['p', 'a', 't', 'h'])

/-- Go: `strings.LastIndex(s, string(c))`; `none` is `-1`. -/
def lastIndex (c : Char) : List Char → Option Nat
  | [] => none
  | x :: xs =>
      match lastIndex c xs with
      | some i => some (i + 1)
      | none => if x = c then some 0 else none

def componentTypeName (filename : String) : String :=
  match lastIndex '.' filename.data with
  | some idx => String.mk (filename.data.take idx)
  | none => filename

def toUppperFirstRune (env : Env) (n : String) : String :=
  match n.data with
  | [] => n
  | r :: rest => String.mk (env.ToUpper r :: rest)

/-- Go: `isExportedName`; `utf8.DecodeRuneInString("")` is `utf8.RuneError`. -/
def isExportedName (env : Env) (name : String) : Bool :=
  match name.data with
  | [] => env.IsUpper (Char.ofNat 0xFFFD)
  | ch :: _ => env.IsUpper ch

def constructorFuncName (env : Env) (typeName : String) : String :=
  if isExportedName env typeName then "New" ++ typeName
  else "new" ++ toUppperFirstRune env typeName

/-- Go: `unicode.IsSpace`. -/
def IsSpace (r : Char) : Bool :=
  let n := r.toNat
  if n ≤ 0xFF then
    decide (n = 0x09 ∨ n = 0x0A ∨ n = 0x0B ∨ n = 0x0C ∨ n = 0x0D ∨ n = 0x20 ∨ n = 0x85 ∨ n = 0xA0)
  else
    decide (n = 0x1680 ∨ (0x2000 ≤ n ∧ n ≤ 0x200A) ∨ n = 0x2028 ∨ n = 0x2029 ∨ n = 0x202F
      ∨ n = 0x205F ∨ n = 0x3000)

def isSpaceExceptNBSP (r : Char) : Bool :=
  if r.toNat = 0xA0 then false else IsSpace r

/-- Go: `bytes.TrimFunc(b, f)`, which is `TrimRightFunc(TrimLeftFunc(b, f), f)`. -/
def TrimFunc (b : String) (f : Char → Bool) : String :=
  String.mk ((b.data.dropWhile f).reverse.dropWhile f).reverse

/-- Go: `bytes.TrimSpace`. -/
def TrimSpace (b : String) : String :=
  TrimFunc b IsSpace

def formatTextContent (b : String) : String :=
  let b := String.mk (b.data.filter (fun c => c != '\n'))
  TrimFunc b isSpaceExceptNBSP

/-! ## The generator -/

structure Options where
  Package : String
  Root : String
  deriving DecidableEq, Repr

structure generator where
  opts : Options
  generated : List String
  viewsBuf : List Line
  cssBuf : String
  deriving DecidableEq, Repr

/-- What a call of `generateOneFile` or `generateComponent` leaves: the returned
error, and the generator and recursion history as the call left them. -/
structure Result where
  out : Outcome
  g : generator
  history : orderedSet
  deriving DecidableEq, Repr

/-- The locals of `generateComponent` that the token loop updates, with the
generator and the recursion history. -/
structure unitState where
  funcBuf : List Line
  namer : varNames
  names : stack
  refs : Refs
  roots : List String
  g : generator
  history : orderedSet
  deriving DecidableEq, Repr

/-- Go: `attrsFunc`: `f` is applied to the attributes in order until one fails. -/
def attrsFunc {σ : Type} (f : String → String → σ → Outcome × σ) :
    List (String × String) → σ → Outcome × σ
  | [], c => (.nil, c)
  | (k, v) :: rest, c =>
      let r := f k v c
      if r.1 = .nil then attrsFunc f rest r.2 else r

/-- The closure that `handleStartRegular` passes to `attrsFunc`. -/
def regularAttr (path tagName varName k v : String) (st : unitState) : Outcome × unitState :=
  if equalsRef k then
    if (isDisallowedRefName v).1 then
      (.error (.Error path (errDisallowedRefName v (isDisallowedRefName v).2)), st)
    else
      match mapGet st.refs v with
      | some ex => (.error (.Error path (errRepeatedRefName v ex.TagName)), st)
      | none =>
          (.nil, { st with refs := mapSet st.refs v ⟨tagName, varName, ""⟩ })
  else
    (.nil, { st with funcBuf := st.funcBuf ++ [.setAttribute varName k v] })

def handleStartRegular (attrs : List (String × String)) (path tagName varName : String)
    (st : unitState) : Outcome × unitState :=
  attrsFunc (regularAttr path tagName varName) attrs
    { st with funcBuf := st.funcBuf ++ [.createElement varName tagName] }

/-- The variables of `handleStartInclude` that its closure updates. -/
structure includeState where
  foundPathAttr : Bool
  refAttrVal : String
  includeTypeName : String
  st : unitState
  deriving DecidableEq, Repr

/-- Go: the include path of a `path` attribute value. -/
def includePath (env : Env) (root path val : String) : String :=
  if env.IsAbs val then env.Join root val else env.Join (env.Dir path) val

/-- The closure that `handleStartInclude` passes to `attrsFunc`; `gen` is the
method `g.generateOneFile`. -/
def includeAttr (env : Env) (gen : String → orderedSet → generator → Result)
    (path varName k v : String) (c : includeState) : Outcome × includeState :=
  let isRef := equalsRef k
  let isPath := equalsPath k
  if !isRef && !isPath then
    (.error (.Error path (.invalidAttribute k)), c)
  else if isRef then
    if (isDisallowedRefName v).1 then
      (.error (.Error path (errDisallowedRefName v (isDisallowedRefName v).2)), c)
    else
      (.nil, { c with refAttrVal := v })
  else
    let r := gen (includePath env c.st.g.opts.Root path v) c.st.history c.st.g
    if r.out = .nil then
      let includeTypeName :=
        componentTypeName (env.Base (includePath env c.st.g.opts.Root path v))
      (.nil, { foundPathAttr := true, refAttrVal := c.refAttrVal,
               includeTypeName := includeTypeName,
               st := { c.st with
                 funcBuf := c.st.funcBuf ++
                   [.construct varName (constructorFuncName env includeTypeName)],
                 g := r.g, history := r.history } })
    else
      (r.out, { c with foundPathAttr := true,
                       st := { c.st with g := r.g, history := r.history } })

def handleStartInclude (env : Env) (gen : String → orderedSet → generator → Result)
    (attrs : List (String × String)) (path tagName varName : String)
    (st : unitState) : Outcome × unitState :=
  let r := attrsFunc (includeAttr env gen path varName) attrs
    { foundPathAttr := false, refAttrVal := "", includeTypeName := "", st := st }
  if r.1 = .nil then
    if !r.2.foundPathAttr then
      (.error (.Error path .missingPath), r.2.st)
    else if r.2.refAttrVal ≠ "" then
      match mapGet r.2.st.refs r.2.refAttrVal with
      | some ex => (.error (.Error path (errRepeatedRefName r.2.refAttrVal ex.TagName)), r.2.st)
      | none =>
          (.nil, { r.2.st with
            refs := mapSet r.2.st.refs r.2.refAttrVal ⟨tagName, varName, r.2.includeTypeName⟩ })
    else (.nil, r.2.st)
  else (r.1, r.2.st)

def handleStartToken (env : Env) (gen : String → orderedSet → generator → Result)
    (attrs : List (String × String)) (path tagName varName : String)
    (st : unitState) : Outcome × unitState :=
  if tagName = "include" then handleStartInclude env gen attrs path tagName varName st
  else handleStartRegular attrs path tagName varName st

/-- Go: `handleEndToken`; `names` is `st.names` and `addRoot` appends to `st.roots`. -/
def handleEndToken (tagName varName : String) (st : unitState) : unitState :=
  match st.names.peek with
  | none => { st with roots := st.roots ++ [varName] }
  | some parent =>
      if tagName = "include" then
        { st with funcBuf := st.funcBuf ++
            [.forRoots varName, .appendChildRoot parent.VarName, .forClose] }
      else
        { st with funcBuf := st.funcBuf ++ [.appendChild parent.VarName varName] }

/-- Go: `writeReturn`; `refs` is the map in the order `range` visits it. -/
def writeReturn (env : Env) (typeName : String) (refs : Refs) (roots : List String) :
    List Line :=
  [Line.returnOpen typeName] ++
  refs.map (fun kr =>
    match env.webapiNames kr.2.TagName with
    | some tf => Line.fieldInitFromJS kr.1 tf.2 kr.2.VarName
    | none => Line.fieldInit kr.1 kr.2.VarName) ++
  [Line.rootsInit roots, Line.returnClose]

/-- Go: `writeTypeDefinition`; `refs` is the map in the order `range` visits it. -/
def writeTypeDefinition (env : Env) (path typeName : String) (refs : Refs) : List Line :=
  [Line.sourceComment path, Line.typeOpen typeName] ++
  refs.map (fun kv =>
    Line.field kv.1
      (if kv.2.TypeName ≠ "" then "*" ++ kv.2.TypeName
       else match env.webapiNames kv.2.TagName with
         | some tf => "*" ++ tf.1
         | none => "*dom.Element")) ++
  [Line.rootsField, Line.typeClose]

/-- What one iteration of the loop `tokenizeView` does next: go on with the next
token, `break tokenizeView` with `insideStyle` set, or leave `generateComponent`
(a `return`, or a panic). -/
inductive Step where
  | next (st : unitState)
  | enterStyle (st : unitState)
  | stop (out : Outcome) (st : unitState)
  deriving DecidableEq, Repr

/-- One iteration of the loop `tokenizeView`, on the token `z.Next()` gave. -/
def tokenStep (env : Env) (gen : String → orderedSet → generator → Result)
    (path : String) (tok : Token) (st : unitState) : Step :=
  match tok with
  | .ErrorToken err => .stop (.error (.Error path (.tokenize err))) st
  | .TextToken text =>
      if st.names.len = 0 then .next st
      else if formatTextContent text = "" then .next st
      else
        .next { st with
          namer := (st.namer.next "stringliteral").2,
          funcBuf := st.funcBuf ++
            [.constString (st.namer.next "stringliteral").1 (formatTextContent text),
             .setTextContent (st.names.peek.getD ⟨"", ""⟩).VarName
               (st.namer.next "stringliteral").1] }
  | .StartTagToken tagName attrs =>
      if tagName = "style" ∧ st.names.len = 0 then
        .enterStyle { st with
          namer := (st.namer.next tagName).2,
          names := st.names.push ⟨tagName, (st.namer.next tagName).1⟩ }
      else
        let r := handleStartToken env gen attrs path tagName (st.namer.next tagName).1
          { st with
            namer := (st.namer.next tagName).2,
            names := st.names.push ⟨tagName, (st.namer.next tagName).1⟩ }
        if r.1 = .nil then .next r.2 else .stop r.1 r.2
  | .EndTagToken _ =>
      match st.names.pop with
      | none => .stop .panicked st
      | some (curr, names) =>
          .next (handleEndToken curr.TagName curr.VarName { st with names := names })
  | .SelfClosingTagToken tagName attrs =>
      let r := handleStartToken env gen attrs path tagName (st.namer.next tagName).1
        { st with namer := (st.namer.next tagName).2 }
      if r.1 = .nil then .next (handleEndToken tagName (st.namer.next tagName).1 r.2)
      else .stop r.1 r.2
  | .CommentToken _ => .next st
  | .DoctypeToken _ => .next st

/-- How the loop `tokenizeView` is left: `break` at `io.EOF`, `break` with
`insideStyle` set (`z` holds the tokens not read yet), or by leaving
`generateComponent`. -/
inductive LoopExit where
  | eof
  | insideStyle (z : List Token)
  | returned (out : Outcome)
  deriving DecidableEq, Repr

/-- The loop `tokenizeView` of `generateComponent`. -/
def tokenizeView (env : Env) (gen : String → orderedSet → generator → Result)
    (path : String) : List Token → unitState → LoopExit × unitState
  | [], st => (.eof, st)
  | tok :: z, st =>
      match tokenStep env gen path tok st with
      | .next st1 => tokenizeView env gen path z st1
      | .enterStyle st1 => (.insideStyle z, st1)
      | .stop out st1 => (.returned out, st1)

/-- What `generateComponent` adds to `g.viewsBuf` after the loop: the type
definition, then `funcBuf` completed by `writeReturn` and the closing brace. -/
def unitLines (env : Env) (path typeName : String) (st : unitState) : List Line :=
  writeTypeDefinition env path typeName (env.rangeTypeDefinition path st.refs) ++
  (st.funcBuf ++ writeReturn env typeName (env.rangeReturn path st.refs) st.roots ++
    [Line.funcClose])

/-- Go: `"/* source: %s */\n%s\n\n"` with `path` and `bytes.TrimSpace(z.Text())`. -/
def styleBlock (path text : String) : String :=
  "/* source: " ++ path ++ " */\n" ++ TrimSpace text ++ "\n\n"

/-- The state of the loop at its first iteration. -/
def unitState.init (env : Env) (path : String) (history : orderedSet) (g : generator) :
    unitState :=
  { funcBuf := [.funcOpen (constructorFuncName env (componentTypeName (env.Base path)))
      (componentTypeName (env.Base path))],
    namer := newVarNames, names := { s := [] }, refs := [], roots := [],
    g := g, history := history.add path }

/-- Go: `generateComponent`; `z` is the tokenizer over `in`, `gen` the method
`g.generateOneFile`.  The deferred `history.remove(path)` runs on every way out that
follows `history.add(path)`. -/
def generateComponent (env : Env) (gen : String → orderedSet → generator → Result)
    (z : List Token) (path : String) (history : orderedSet) (g : generator) : Result :=
  if history.has path then
    { out := .error (.Error path (.cycle
        (history.forEach (fun cycle v => cycle ++ [env.Base v]) [] ++ [env.Base path]))),
      g := g, history := history }
  else
    let r := tokenizeView env gen path z (unitState.init env path history g)
    let views := r.2.g.viewsBuf ++ unitLines env path (componentTypeName (env.Base path)) r.2
    match r.1 with
    | .returned out => { out := out, g := r.2.g, history := r.2.history.remove path }
    | .eof =>
        { out := .nil, g := { r.2.g with viewsBuf := views },
          history := r.2.history.remove path }
    | .insideStyle (.TextToken text :: _) =>
        { out := .nil,
          g := { r.2.g with viewsBuf := views, cssBuf := r.2.g.cssBuf ++ styleBlock path text },
          history := r.2.history.remove path }
    | .insideStyle _ =>
        { out := .error (.Error path .noStyleText), g := { r.2.g with viewsBuf := views },
          history := r.2.history.remove path }

/-- Go: `generateOneFile`.  The first argument bounds the depth of nested calls. -/
def generateOneFile (env : Env) : Nat → String → orderedSet → generator → Result
  | 0, _, history, g => { out := .outOfFuel, g := g, history := history }
  | fuel + 1, path, history, g =>
      if path ∈ g.generated then { out := .nil, g := g, history := history }
      else
        match env.open? path with
        | none => { out := .error (.PathError "open" path), g := g, history := history }
        | some z =>
            let r := generateComponent env (generateOneFile env fuel) z path history g
            if r.out = .nil then
              { r with g := { r.g with generated := setAdd r.g.generated path } }
            else r

/-- The loop over the input files in `run`. -/
def runFiles (env : Env) (fuel : Nat) : List String → generator → Outcome × generator
  | [], g => (.nil, g)
  | p :: rest, g =>
      let r := generateOneFile env fuel p newOrderedSet g
      if r.out = .nil then runFiles env fuel rest r.g else (r.out, r.g)

/-- What `Generate` returns; `none` is a nil slice. -/
structure Output where
  viewsOut : Option String
  cssOut : Option String
  err : Outcome
  deriving DecidableEq, Repr

/-- Go: `generator.run`. -/
def generator.run (env : Env) (fuel : Nat) (g : generator) (input : List String) : Output :=
  let r := runFiles env fuel input
    { g with viewsBuf := g.viewsBuf ++ [.header g.opts.Package],
             cssBuf := g.cssBuf ++ "/* Code generated by nausicaa. DO NOT EDIT. */\n\n" }
  if r.1 = .nil then
    match env.formatSource (renderLines env.quote r.2.viewsBuf) with
    | some views => { viewsOut := some views, cssOut := some r.2.cssBuf, err := .nil }
    | none => { viewsOut := none, cssOut := none, err := .panicked }
  else { viewsOut := none, cssOut := none, err := r.1 }

/-- The generator that `Generate` starts from. -/
def newGenerator (opts : Options) : generator :=
  { opts := opts, generated := [], viewsBuf := [], cssBuf := "" }

/-- Go: `Generate`.  Nested calls of `generateOneFile` are at most one deeper than
there are files that can be opened (see `generateOneFile_fuel`). -/
def Generate (env : Env) (inputFiles : List String) (opts : Options) : Output :=
  (newGenerator opts).run env (env.files.length + 1) inputFiles

/-! ## A concrete environment

`path/filepath` on a Unix system, and small stand-ins for the other library
functions, for evaluating the generator on concrete files. -/

/-- The elements of a path between its slashes. -/
def splitSlash : List Char → List (List Char)
  | [] => [[]]
  | c :: cs =>
      if c = '/' then [] :: splitSlash cs
      else
        match splitSlash cs with
        | [] => [[c]]
        | x :: xs => (c :: x) :: xs

/-- The element loop of `filepath.Clean`: `acc` holds the elements written so far,
last first. -/
def cleanElems (rooted : Bool) : List (List Char) → List (List Char) → List (List Char)
  | [], acc => acc.reverse
  | e :: es, acc =>
      if e = [] ∨ e = ['.'] then cleanElems rooted es acc
      else if e = ['.', '.'] then
        match acc with
        | [] => if rooted then cleanElems rooted es [] else cleanElems rooted es [e]
        | top :: acc1 =>
            if top = ['.', '.'] then cleanElems rooted es (e :: top :: acc1)
            else cleanElems rooted es acc1
      else cleanElems rooted es (e :: acc)

/-- Go: `filepath.Clean` (Unix). -/
def filepathClean (path : String) : String :=
  if path = "" then "."
  else
    let rooted := decide (path.data.head? = some '/')
    let elems := cleanElems rooted (splitSlash path.data) []
    if rooted then "/" ++ "/".intercalate (elems.map String.mk)
    else if elems = [] then "."
    else "/".intercalate (elems.map String.mk)

/-- Go: `filepath.Base` (Unix). -/
def filepathBase (path : String) : String :=
  if path = "" then "."
  else
    let stripped := (path.data.reverse.dropWhile (fun c => c = '/')).reverse
    if stripped = [] then "/"
    else String.mk (stripped.reverse.takeWhile (fun c => c ≠ '/')).reverse

/-- Go: `filepath.Dir` (Unix). -/
def filepathDir (path : String) : String :=
  filepathClean (String.mk (path.data.reverse.dropWhile (fun c => c ≠ '/')).reverse)

/-- Go: `filepath.Join` of two elements (Unix). -/
def filepathJoin (a b : String) : String :=
  if a = "" ∧ b = "" then ""
  else if a = "" then filepathClean b
  else if b = "" then filepathClean a
  else filepathClean (a ++ "/" ++ b)

/-- Go: `filepath.IsAbs` (Unix). -/
def filepathIsAbs (path : String) : Bool :=
  decide (path.data.head? = some '/')

/-- A few rows of the table `webapiNames`. -/
def sampleWebapiNames (tagName : String) : Option (String × String) :=
  if tagName = "a" then some ("html.HTMLAnchorElement", "html.HTMLAnchorElementFromJS")
  else if tagName = "div" then some ("html.HTMLDivElement", "html.HTMLDivElementFromJS")
  else if tagName = "audio" then some ("media.HTMLAudioElement", "media.HTMLAudioElementFromJS")
  else none

/-- An environment over the given files: Unix paths, ASCII case mapping, `range`
in insertion order, `%q` as plain double quotes and `format.Source` as the
identity (both right for the text the examples generate, up to layout). -/
def Env.sample (files : List (String × List Token)) : Env :=
  { files := files
    Base := filepathBase
    Dir := filepathDir
    Join := filepathJoin
    IsAbs := filepathIsAbs
    IsUpper := Char.isUpper
    ToUpper := Char.toUpper
    webapiNames := sampleWebapiNames
    rangeTypeDefinition := fun _ refs => refs
    rangeReturn := fun _ refs => refs
    quote := fun s => "\"" ++ s ++ "\""
    formatSource := fun s => some s
    rangeTypeDefinition_perm := fun _ refs => List.Perm.refl refs
    rangeReturn_perm := fun _ refs => List.Perm.refl refs }

/-! ## Projections used in the statements -/

/-- The outcome that a step of the loop carries. -/
def Step.out : Step → Outcome
  | .next _ => .nil
  | .enterStyle _ => .nil
  | .stop out _ => out

/-- The state that a step of the loop leaves. -/
def Step.st : Step → unitState
  | .next st => st
  | .enterStyle st => st
  | .stop _ st => st

/-- The outcome with which the loop is left. -/
def LoopExit.out : LoopExit → Outcome
  | .eof => .nil
  | .insideStyle _ => .nil
  | .returned out => out

/-- What a call does to the memoization set, seen from a recursion history `h`:
the set only grows, and no path of `h` enters it. -/
def MemoKept (h : orderedSet) (g g1 : generator) : Prop :=
  (∀ x, x ∈ g.generated → x ∈ g1.generated) ∧
  (∀ x, h.has x = true → x ∈ g1.generated → x ∈ g.generated)

/-- `IncludesAt env gen z path h g p1 h1 g1`: compiling the unit `path`, whose
tokens are `z`, from the recursion history `h` and the generator `g`, reaches a
`path` attribute of an include directive, for which `generateOneFile` is called on
the path `p1` with the history `h1` and the generator `g1`.  The tokens before the
directive leave the loop running, and the attributes before that one are processed
without error. -/
inductive IncludesAt (env : Env) (gen : String → orderedSet → generator → Result)
    (z : List Token) (path : String) (h : orderedSet) (g : generator) :
    String → orderedSet → generator → Prop where
  | start (pre rest : List Token) (apre arest : List (String × String)) (v : String)
      (st : unitState) (c : includeState)
      (hz : z = pre ++ Token.StartTagToken "include" (apre ++ ("path", v) :: arest) :: rest)
      (hpre : tokenizeView env gen path pre (unitState.init env path h g) = (.eof, st))
      (hattrs : attrsFunc (includeAttr env gen path (st.namer.next "include").1) apre
        { foundPathAttr := false, refAttrVal := "", includeTypeName := "",
          st := { st with
            namer := (st.namer.next "include").2,
            names := st.names.push ⟨"include", (st.namer.next "include").1⟩ } } = (.nil, c)) :
      IncludesAt env gen z path h g (includePath env c.st.g.opts.Root path v)
        c.st.history c.st.g
  | selfClosing (pre rest : List Token) (apre arest : List (String × String)) (v : String)
      (st : unitState) (c : includeState)
      (hz : z = pre ++
        Token.SelfClosingTagToken "include" (apre ++ ("path", v) :: arest) :: rest)
      (hpre : tokenizeView env gen path pre (unitState.init env path h g) = (.eof, st))
      (hattrs : attrsFunc (includeAttr env gen path (st.namer.next "include").1) apre
        { foundPathAttr := false, refAttrVal := "", includeTypeName := "",
          st := { st with namer := (st.namer.next "include").2 } } = (.nil, c)) :
      IncludesAt env gen z path h g (includePath env c.st.g.opts.Root path v)
        c.st.history c.st.g

/-- `IncludeChain env n p h g m q h1 g1`: the call `generateOneFile env n p h g`
compiles `p` and leads, through one include directive or through include
directives of successively included units, to the call
`generateOneFile env m q h1 g1`. -/
inductive IncludeChain (env : Env) :
    Nat → String → orderedSet → generator → Nat → String → orderedSet → generator → Prop where
  | direct (n : Nat) (p : String) (h : orderedSet) (g : generator) (z : List Token)
      (q : String) (h1 : orderedSet) (g1 : generator)
      (hmemo : p ∉ g.generated) (hopen : env.open? p = some z) (hhas : h.has p = false)
      (hinc : IncludesAt env (generateOneFile env n) z p h g q h1 g1) :
      IncludeChain env (n + 1) p h g n q h1 g1
  | step (n : Nat) (p : String) (h : orderedSet) (g : generator) (z : List Token)
      (q : String) (h1 : orderedSet) (g1 : generator)
      (m : Nat) (r : String) (h2 : orderedSet) (g2 : generator)
      (hmemo : p ∉ g.generated) (hopen : env.open? p = some z) (hhas : h.has p = false)
      (hinc : IncludesAt env (generateOneFile env n) z p h g q h1 g1)
      (hrest : IncludeChain env n q h1 g1 m r h2 g2) :
      IncludeChain env (n + 1) p h g m r h2 g2

/-- The generator with which `run` enters its loop over the input files. -/
def startGenerator (opts : Options) : generator :=
  { opts := opts, generated := [], viewsBuf := [.header opts.Package],
    cssBuf := "/* Code generated by nausicaa. DO NOT EDIT. */\n\n" }

/-- Two files that include each other: `a.html` is `<include path="b.html"/>` and
`b.html` is `<div><include path="a.html"/></div>`. -/
def cycleFiles : List (String × List Token) :=
  [("a.html", [.SelfClosingTagToken "include" [("path", "b.html")]]),
   ("b.html", [.StartTagToken "div" [], .SelfClosingTagToken "include" [("path", "a.html")],
               .EndTagToken "div"])]

/-- A unit that includes a unit twice: `c.html` is
`<div><include path="d.html"/><include path="d.html" ref="second"/></div>` and
`d.html` is `<p>hello</p>`. -/
def memoFiles : List (String × List Token) :=
  [("c.html", [.StartTagToken "div" [], .SelfClosingTagToken "include" [("path", "d.html")],
               .SelfClosingTagToken "include" [("path", "d.html"), ("ref", "second")],
               .EndTagToken "div"]),
   ("d.html", [.StartTagToken "p" [], .TextToken "hello", .EndTagToken "p"])]

/-- `UnitBlock env p lines`: `lines` is what `generateComponent` writes to the view
buffer for the unit `p`: the type definition and the constructor that come out of the
token loop run on the tokens of the file `p`, from the first iteration. -/
def UnitBlock (env : Env) (p : String) (lines : List Line) : Prop :=
  ∃ (n : Nat) (z : List Token) (h : orderedSet) (g : generator),
    env.open? p = some z ∧
    lines = unitLines env p (componentTypeName (env.Base p))
      (tokenizeView env (generateOneFile env n) p z (unitState.init env p h g)).2

/-- `Compiled env g g1`: the generator `g1` arises from `g` by compiling units.
The view buffer has grown by one block per unit that entered the memoization set,
in the order in which they entered it, and a block is the type definition and
constructor that `generateComponent` writes for its unit. -/
def Compiled (env : Env) (g g1 : generator) : Prop :=
  ∃ blocks : List (String × List Line),
    g1.generated = g.generated ++ blocks.map Prod.fst ∧
    g1.viewsBuf = g.viewsBuf ++ (blocks.map Prod.snd).flatten ∧
    (∀ b, b ∈ blocks → UnitBlock env b.1 b.2) ∧
    (g.generated.Nodup → g1.generated.Nodup)

/-- The counter of a kind in a name allocator: Go's `v.m[kind]`. -/
def varNames.count (v : varNames) (kind : String) : Nat :=
  (mapGet v.m kind).getD 0

/-- `unitState.Extends a b`: the locals of `generateComponent` in state `b` continue
those of state `a`: the code written so far and the roots found so far are kept, no
counter of the name allocator has gone down, and every ref entry is kept as it
was. -/
structure unitState.Extends (a b : unitState) : Prop where
  funcBuf : a.funcBuf <+: b.funcBuf
  roots : a.roots <+: b.roots
  namer : ∀ kind, a.namer.count kind ≤ b.namer.count kind
  refs : ∀ k e, mapGet a.refs k = some e → mapGet b.refs k = some e

/-- The invariant of the generator across a call made from the history `h`. -/
structure Grows (env : Env) (h : orderedSet) (g g1 : generator) (out : Outcome) : Prop where
  opts : g1.opts = g.opts
  memo : MemoKept h g g1
  compiled : out = .nil → Compiled env g g1

/-- What the loop needs of `generateOneFile` at a history `h1`. -/
structure GenOK (env : Env) (gen : String → orderedSet → generator → Result)
    (h1 : orderedSet) : Prop where
  history : ∀ p g1, (gen p h1 g1).history = h1
  grows : ∀ p g1, Grows env h1 g1 (gen p h1 g1).g (gen p h1 g1).out
  memoized : ∀ p g1, (gen p h1 g1).out = .nil → p ∈ (gen p h1 g1).g.generated

/-- A unit with includes after a top-level style block: `e.html` is
`<style>a{}</style><include path="d.html"/><include path="d.html"/>`. -/
def styleFirstFiles : List (String × List Token) :=
  [("e.html", [.StartTagToken "style" [], .TextToken "a{}", .EndTagToken "style",
               .SelfClosingTagToken "include" [("path", "d.html")],
               .SelfClosingTagToken "include" [("path", "d.html")]]),
   ("d.html", [.StartTagToken "p" [], .TextToken "hello", .EndTagToken "p"])]

/-- Whether the loop was left by the `break` at a top-level style start tag. -/
def LoopExit.isInsideStyle : LoopExit → Bool
  | .insideStyle _ => true
  | _ => false

/-- Whether a token is a start tag named `style`. -/
def Token.isStyleStart : Token → Bool
  | .StartTagToken tagName _ => decide (tagName = "style")
  | _ => false

/-- A unit whose only element is a top-level style block with a keyword as ref:
`f.html` is `<style ref="func">a{}</style>`. -/
def styleRefFiles : List (String × List Token) :=
  [("f.html", [.StartTagToken "style" [("ref", "func")], .TextToken "a{}",
               .EndTagToken "style"])]

/-- The value of `refAttrVal` once the attributes of an include directive have been
processed: that of its last `ref` attribute, `""` when it has none. -/
def lastRefAttr (attrs : List (String × String)) (init : String) : String :=
  attrs.foldl (fun acc kv => if equalsRef kv.1 then kv.2 else acc) init

/-- The state in which `handleStartToken` is entered at a tag token: a name has been
allocated and, for a start tag, pushed on the stack. -/
def Token.entry (tok : Token) (st : unitState) : unitState :=
  match tok with
  | .StartTagToken tagName _ =>
      { st with namer := (st.namer.next tagName).2,
                names := st.names.push ⟨tagName, (st.namer.next tagName).1⟩ }
  | .SelfClosingTagToken tagName _ => { st with namer := (st.namer.next tagName).2 }
  | _ => st

/-- `Registers tok v tagName`: `tok` is a tag named `tagName` that, processed without
error, enters the ref value `v` in the ref map: a plain tag with a `ref` attribute of
value `v`, or an include directive whose last `ref` attribute has the non-empty
value `v`. -/
def Registers (tok : Token) (v tagName : String) : Prop :=
  ∃ attrs, (tok = .StartTagToken tagName attrs ∨ tok = .SelfClosingTagToken tagName attrs) ∧
    ((tagName ≠ "include" ∧ ("ref", v) ∈ attrs) ∨
     (tagName = "include" ∧ lastRefAttr attrs "" = v ∧ v ≠ ""))

/-- `Repeats env gen path tok st v`: the tag `tok`, met by the loop in state `st`,
gets to look up the ref value `v` in the ref map.  It is not a top-level style start
tag, and either it is a plain tag with a `ref` attribute of value `v` before which
its attributes are processed without error, or it is an include directive with a
`path` attribute whose attributes are all processed without error and whose last
`ref` attribute has the non-empty value `v`. -/
def Repeats (env : Env) (gen : String → orderedSet → generator → Result) (path : String)
    (tok : Token) (st : unitState) (v : String) : Prop :=
  ∃ tagName attrs,
    (tok = .StartTagToken tagName attrs ∨ tok = .SelfClosingTagToken tagName attrs) ∧
    ¬ (tok.isStyleStart = true ∧ st.names.len = 0) ∧
    ((tagName ≠ "include" ∧ ∃ apre arest, attrs = apre ++ ("ref", v) :: arest ∧
        (handleStartRegular apre path tagName (st.namer.next tagName).1 (tok.entry st)).1
          = .nil) ∨
     (tagName = "include" ∧
        (attrsFunc (includeAttr env gen path (st.namer.next tagName).1) attrs
          { foundPathAttr := false, refAttrVal := "", includeTypeName := "",
            st := tok.entry st }).1 = .nil ∧
        (∃ p, ("path", p) ∈ attrs) ∧ lastRefAttr attrs "" = v ∧ v ≠ ""))

/-- Two include directives with the same, empty, ref value: `i.html` is
`<include path="d.html" ref=""/><include path="d.html" ref=""/>`. -/
def emptyRefFiles : List (String × List Token) :=
  [("i.html", [.SelfClosingTagToken "include" [("path", "d.html"), ("ref", "")],
               .SelfClosingTagToken "include" [("path", "d.html"), ("ref", "")]]),
   ("d.html", [.StartTagToken "p" [], .TextToken "hello", .EndTagToken "p"])]

/-- A ref value on a plain element and again on an include directive: `j.html` is
`<div ref="x"></div><include path="d.html" ref="x"/>`. -/
def repeatedRefFiles : List (String × List Token) :=
  [("j.html", [.StartTagToken "div" [("ref", "x")], .EndTagToken "div",
               .SelfClosingTagToken "include" [("path", "d.html"), ("ref", "x")]]),
   ("d.html", [.StartTagToken "p" [], .TextToken "hello", .EndTagToken "p"])]

/-- Two path attributes on one include directive: the one token of `k.html` is a
self-closing `include` tag whose attribute list holds `path="d.html"` twice. -/
def twoPathFiles : List (String × List Token) :=
  [("k.html", [.SelfClosingTagToken "include" [("path", "d.html"), ("path", "d.html")]]),
   ("d.html", [.StartTagToken "p" [], .TextToken "hello", .EndTagToken "p"])]

/-- Properly nested markup of elements, as a forest in first-child / next-sibling
form: an element written as a start tag, its children and its end tag, or as a
self-closing tag, followed by its later siblings. -/
inductive Forest where
  | nil
  | pair (tagName : String) (attrs : List (String × String)) (children rest : Forest)
  | selfClosing (tagName : String) (attrs : List (String × String)) (rest : Forest)
  deriving DecidableEq, Repr

/-- The token stream of a forest. -/
def Forest.tokens : Forest → List Token
  | .nil => []
  | .pair tagName attrs children rest =>
      Token.StartTagToken tagName attrs ::
        (children.tokens ++ Token.EndTagToken tagName :: rest.tokens)
  | .selfClosing tagName attrs rest => Token.SelfClosingTagToken tagName attrs :: rest.tokens

/-- No element of the forest is an include directive. -/
def Forest.plain : Forest → Bool
  | .nil => true
  | .pair tagName _ children rest =>
      decide (tagName ≠ "include") && children.plain && rest.plain
  | .selfClosing tagName _ rest => decide (tagName ≠ "include") && rest.plain

/-- No element without ancestor is written as a `style` start tag. -/
def Forest.noTopStyle : Forest → Bool
  | .nil => true
  | .pair tagName _ _ rest => decide (tagName ≠ "style") && rest.noTopStyle
  | .selfClosing _ _ rest => rest.noTopStyle

/-- No element of the forest has a `ref` attribute. -/
def Forest.noRef : Forest → Bool
  | .nil => true
  | .pair _ attrs children rest =>
      attrs.all (fun kv => !equalsRef kv.1) && children.noRef && rest.noRef
  | .selfClosing _ attrs rest => attrs.all (fun kv => !equalsRef kv.1) && rest.noRef

/-- The number of elements of a forest. -/
def Forest.size : Forest → Nat
  | .nil => 0
  | .pair _ _ children rest => 1 + children.size + rest.size
  | .selfClosing _ _ rest => 1 + rest.size

/-- The number of elements of a forest that have no ancestor. -/
def Forest.top : Forest → Nat
  | .nil => 0
  | .pair _ _ _ rest => 1 + rest.top
  | .selfClosing _ _ rest => 1 + rest.top

/-- The name allocator after the elements of a forest got their variable names,
in the order of their opening tags. -/
def Forest.namerAfter : Forest → varNames → varNames
  | .nil, nm => nm
  | .pair tagName _ children rest, nm =>
      rest.namerAfter (children.namerAfter (nm.next tagName).2)
  | .selfClosing tagName _ rest, nm => rest.namerAfter (nm.next tagName).2

/-- The variable names of the elements of a forest that have no ancestor, in the
order of their closing tags. -/
def Forest.topNames : Forest → varNames → List String
  | .nil, _ => []
  | .pair tagName _ children rest, nm =>
      (nm.next tagName).1 :: rest.topNames (children.namerAfter (nm.next tagName).2)
  | .selfClosing tagName _ rest, nm => (nm.next tagName).1 :: rest.topNames (nm.next tagName).2

/-- The SetAttribute instructions of an element: one per attribute other than `ref`. -/
def attrLines (varName : String) (attrs : List (String × String)) : List Line :=
  (attrs.filter (fun kv => !equalsRef kv.1)).map
    (fun kv => Line.setAttribute varName kv.1 kv.2)

/-- The AppendChild instruction of an element: one under its parent, none for an
element without parent. -/
def appendLine (parent : Option String) (varName : String) : List Line :=
  match parent with
  | none => []
  | some p => [Line.appendChild p varName]

/-- The construction instructions of a forest whose elements are the children of
`parent`: for each element its CreateElement and SetAttribute instructions, the
instructions of its children, and its AppendChild instruction. -/
def Forest.lines : Forest → Option String → varNames → List Line
  | .nil, _, _ => []
  | .pair tagName attrs children rest, parent, nm =>
      Line.createElement (nm.next tagName).1 tagName :: attrLines (nm.next tagName).1 attrs ++
        children.lines (some (nm.next tagName).1) (nm.next tagName).2 ++
        appendLine parent (nm.next tagName).1 ++
        rest.lines parent (children.namerAfter (nm.next tagName).2)
  | .selfClosing tagName attrs rest, parent, nm =>
      Line.createElement (nm.next tagName).1 tagName :: attrLines (nm.next tagName).1 attrs ++
        appendLine parent (nm.next tagName).1 ++
        rest.lines parent (nm.next tagName).2

/-- Whether a line is an AppendChild instruction for an element. -/
def Line.isAppendChild : Line → Bool
  | .appendChild _ _ => true
  | _ => false

/-- The variable name of the element on top of the stack. -/
def stack.parent (st : stack) : Option String :=
  st.peek.map tagAndVarName.VarName

/-- The markup `<div><audio></audio></div>` of `specificElement.html`. -/
def specificElement : Forest :=
  .pair "div" [] (.pair "audio" [] .nil .nil) .nil

/-- The lines of a unit whose only element is one tag without attributes: a type
with the `roots` field alone, and a constructor that creates the element and
returns it as the one root. -/
def singleElementLines (env : Env) (path tagName : String) : List Line :=
  [.sourceComment path, .typeOpen (componentTypeName (env.Base path)), .rootsField, .typeClose,
   .funcOpen (constructorFuncName env (componentTypeName (env.Base path)))
     (componentTypeName (env.Base path)),
   .createElement (tagName ++ "0") tagName,
   .returnOpen (componentTypeName (env.Base path)), .rootsInit [tagName ++ "0"],
   .returnClose, .funcClose]

/-- Whether a token is an include directive. -/
def Token.isInclude : Token → Bool
  | .StartTagToken tagName _ => decide (tagName = "include")
  | .SelfClosingTagToken tagName _ => decide (tagName = "include")
  | _ => false

/-- The step of the loop at the start tag of a plain element: the element is pushed
on the stack, `handleStartRegular` writes its instructions and enters its ref, and
the loop goes on unless that returned an error. -/
def plainStartStep (path tagName : String) (attrs : List (String × String))
    (st : unitState) : Step :=
  if (handleStartRegular attrs path tagName (st.namer.next tagName).1
      ((Token.StartTagToken tagName attrs).entry st)).1 = .nil then
    .next (handleStartRegular attrs path tagName (st.namer.next tagName).1
      ((Token.StartTagToken tagName attrs).entry st)).2
  else
    .stop (handleStartRegular attrs path tagName (st.namer.next tagName).1
        ((Token.StartTagToken tagName attrs).entry st)).1
      (handleStartRegular attrs path tagName (st.namer.next tagName).1
        ((Token.StartTagToken tagName attrs).entry st)).2

/-- The state of the loop of `m.html` after the start tag of `<div>`. -/
def insideDiv : unitState :=
  (tokenizeView (Env.sample []) (generateOneFile (Env.sample []) 0) "m.html"
    [.StartTagToken "div" []]
    (unitState.init (Env.sample []) "m.html" newOrderedSet (startGenerator ⟨"ui", "/"⟩))).2

/-- The code point U+00A0, the non-breaking space. -/
def NBSP : Char := Char.ofNat 0xA0

/-- The number that a list of decimal digits writes, continuing from `acc`. -/
def decimalValue (acc : Nat) (l : List Char) : Nat :=
  l.foldl (fun a c => a * 10 + (c.toNat - 48)) acc

/-- The names that successive calls of `next` return, one call per kind of the list. -/
def varNames.nextAll : varNames → List String → List String
  | _, [] => []
  | v, kind :: kinds => (v.next kind).1 :: varNames.nextAll (v.next kind).2 kinds

/-- A unit with a heading and eleven elements of the tag `h`: `n.html` is
`<h1></h1>` followed by eleven times `<h></h>`. -/
def headingTokens : List Token :=
  .StartTagToken "h1" [] :: .EndTagToken "h1" ::
    (List.replicate 11 [Token.StartTagToken "h" [], Token.EndTagToken "h"]).flatten

/-- Where a ref entry comes from: an include directive, which stores the tag name
`include` and the type name of the included unit, or a plain tag, which stores its
tag name and no type name. -/
def RefOrigin (env : Env) (e : tagAndVarAndTypeName) : Prop :=
  (e.TagName = "include" ∧ ∃ p, e.TypeName = componentTypeName (env.Base p)) ∨
  (e.TagName ≠ "include" ∧ e.TypeName = "")

/-- The ref map of a unit: a Go map has each key once, and each entry has an origin. -/
def RefsOK (env : Env) (refs : Refs) : Prop :=
  (refs.map Prod.fst).Nodup ∧ ∀ kv ∈ refs, RefOrigin env kv.2

/-- The field type of a ref entry, in the words of the specification: the type of the
nested unit for an entry that carries a nested-unit type name (an entry that came
from an include directive), a pointer to the binding type that `webapiNames` reports
for the tag name if it reports one, and the generic element type otherwise. -/
def Ref.fieldType (env : Env) (e : tagAndVarAndTypeName) : String :=
  if e.TypeName = "" then
    match env.webapiNames e.TagName with
    | some (bindingType, _) => "*" ++ bindingType
    | none => "*dom.Element"
  else "*" ++ e.TypeName

/-- The initializer of a ref entry, in the words of the specification: the variable
of the entry, wrapped in the conversion function that `webapiNames` reports for the
tag name if it reports one. -/
def Ref.initializer (env : Env) (k : String) (e : tagAndVarAndTypeName) : Line :=
  match env.webapiNames e.TagName with
  | some (_, fromJS) => .fieldInitFromJS k fromJS e.VarName
  | none => .fieldInit k e.VarName

/-- The markup `<a ref="readme">README</a>` of `ref.html`. -/
def refTokens : List Token :=
  [.StartTagToken "a" [("ref", "readme")], .TextToken "README", .EndTagToken "a"]

/-- The environment `Env.sample` with the other iteration order: `range` visits
the ref map from the entry inserted last to the entry inserted first. -/
def Env.sampleReversed (files : List (String × List Token)) : Env :=
  { files := files
    Base := filepathBase
    Dir := filepathDir
    Join := filepathJoin
    IsAbs := filepathIsAbs
    IsUpper := Char.isUpper
    ToUpper := Char.toUpper
    webapiNames := sampleWebapiNames
    rangeTypeDefinition := fun _ refs => refs.reverse
    rangeReturn := fun _ refs => refs.reverse
    quote := fun s => "\"" ++ s ++ "\""
    formatSource := fun s => some s
    rangeTypeDefinition_perm := fun _ refs => List.reverse_perm refs
    rangeReturn_perm := fun _ refs => List.reverse_perm refs }

/-- A unit with two refs: `t.html` is `<a ref="x"></a><p ref="y"></p>`. -/
def twoRefFiles : List (String × List Token) :=
  [("t.html", [.StartTagToken "a" [("ref", "x")], .EndTagToken "a",
               .StartTagToken "p" [("ref", "y")], .EndTagToken "p"])]

/-- The errors that `Generate` can return: an `Error` of the package, or the error of
an `os.Open` that failed, for a path that cannot be opened. -/
def ErrorKind (env : Env) (out : Outcome) : Prop :=
  ∀ e, out = .error e →
    (∃ p c, e = .Error p c) ∨ (∃ p, e = .PathError "open" p ∧ env.open? p = none)

/-- A unit that includes a file that does not exist: `a.html` is
`<include path="missing.html"/>`. -/
def missingIncludeFiles : List (String × List Token) :=
  [("a.html", [.SelfClosingTagToken "include" [("path", "missing.html")]])]

/-- Whether a line is an instruction of a constructor body. -/
def Line.isInstruction : Line → Bool
  | .constString _ _ => true
  | .setTextContent _ _ => true
  | .createElement _ _ => true
  | .setAttribute _ _ _ => true
  | .construct _ _ => true
  | .forRoots _ => true
  | .appendChildRoot _ => true
  | .forClose => true
  | .appendChild _ _ => true
  | _ => false

/-- Whether a line opens a type definition. -/
def Line.isTypeOpen : Line → Bool
  | .typeOpen _ => true
  | _ => false

/-- Whether a line opens a constructor. -/
def Line.isFuncOpen : Line → Bool
  | .funcOpen _ _ => true
  | _ => false

/-- The buffer `funcBuf` of the unit `path` in the loop: the opening line of the
constructor, followed by instructions. -/
def BodyOK (env : Env) (path : String) (buf : List Line) : Prop :=
  ∃ body, buf = Line.funcOpen (constructorFuncName env (componentTypeName (env.Base path)))
      (componentTypeName (env.Base path)) :: body ∧
    ∀ l ∈ body, l.isInstruction = true

/-- Two files that include each other, the first one after a top-level style block:
`a.html` is `<style>x{}</style><include path="b.html"/>` and `b.html` is
`<include path="a.html"/>`. -/
def styleCycleFiles : List (String × List Token) :=
  [("a.html", [.StartTagToken "style" [], .TextToken "x\x7b\x7d", .EndTagToken "style",
               .SelfClosingTagToken "include" [("path", "b.html")]]),
   ("b.html", [.SelfClosingTagToken "include" [("path", "a.html")]])]

/-- Two files that include each other, in a file system where the first is also
opened under the path `./a.html`: `a.html` is `<include path="b.html"/>` and `b.html`
is `<include path="a.html"/>`. -/
def dotCycleFiles : List (String × List Token) :=
  [("./a.html", [.SelfClosingTagToken "include" [("path", "b.html")]]),
   ("a.html", [.SelfClosingTagToken "include" [("path", "b.html")]]),
   ("b.html", [.SelfClosingTagToken "include" [("path", "a.html")]])]

/-! # Verification -/

/-! ## orderedSet -/

theorem orderedSet.has_iff (o : orderedSet) (v : String) : o.has v = true ↔ v ∈ o.m := by
  simp [orderedSet.has]

theorem orderedSet.WF_new : newOrderedSet.WF :=
  ⟨by simp [newOrderedSet], by simp [newOrderedSet], by simp [newOrderedSet]⟩

theorem orderedSet.WF.add {o : orderedSet} (h : o.WF) (v : String) : (o.add v).WF := by
  unfold orderedSet.add
  split
  · exact h
  · rename_i hv
    have hm : v ∉ o.m := by simpa [orderedSet.has] using hv
    have hs : v ∉ o.s := fun hx => hm ((h.mem_iff v).2 hx)
    refine ⟨?_, ?_, ?_⟩
    · intro x; simp [h.mem_iff x]
    · simp [List.nodup_append, h.nodup_m, hm]
    · simp [List.nodup_append, h.nodup_s, hs]

theorem orderedSet.has_add (o : orderedSet) (v x : String) :
    (o.add v).has x = true ↔ (o.has x = true ∨ x = v) := by
  unfold orderedSet.add
  split
  · rename_i hv
    constructor
    · exact Or.inl
    · rintro (h | rfl)
      · exact h
      · exact hv
  · simp [orderedSet.has]

theorem orderedSet.add_s (o : orderedSet) (v : String) (hv : o.has v = false) :
    (o.add v).s = o.s ++ [v] := by
  simp [orderedSet.add, hv]

theorem orderedSet.remove_add {o : orderedSet} (h : o.WF) (v : String) (hv : o.has v = false) :
    (o.add v).remove v = o := by
  have hm : v ∉ o.m := by simpa [orderedSet.has] using hv
  have hs : v ∉ o.s := fun hx => hm ((h.mem_iff v).2 hx)
  have e1 : (o.m ++ [v]).erase v = o.m := by
    rw [List.erase_append_right _ hm]; simp
  have e2 : List.indexOf v (o.s ++ [v]) = o.s.length := by
    rw [List.indexOf_append_of_not_mem hs]; simp
  have e3 : (o.s ++ [v]).eraseIdx o.s.length = o.s := by
    rw [List.eraseIdx_append_of_length_le (le_refl _)]; simp
  have ha : o.add v = { m := o.m ++ [v], s := o.s ++ [v] } := by
    simp [orderedSet.add, hv]
  rw [ha]
  simp [orderedSet.remove, orderedSet.has, e1, e2, e3]

/-! ## Invariants of the token loop -/

theorem attrsFunc_inv {σ : Type} (f : String → String → σ → Outcome × σ)
    (J : Outcome → σ → Prop) (hf : ∀ k v c, J .nil c → J (f k v c).1 (f k v c).2) :
    ∀ attrs c, J .nil c → J (attrsFunc f attrs c).1 (attrsFunc f attrs c).2 := by
  intro attrs
  induction attrs with
  | nil => intro c hc; simpa [attrsFunc] using hc
  | cons kv rest ih =>
    intro c hc
    obtain ⟨k, v⟩ := kv
    have h1 := hf k v c hc
    by_cases hn : (f k v c).1 = .nil
    · simp only [attrsFunc, hn, if_true]
      rw [hn] at h1
      exact ih _ h1
    · simp only [attrsFunc, hn, if_false]
      exact h1

section inv
variable (env : Env) (gen : String → orderedSet → generator → Result) (path : String)
variable (J : Outcome → generator → orderedSet → Prop)

theorem handleStartRegular_inv
    (herr : ∀ c g h, J .nil g h → J (.error (.Error path c)) g h)
    (attrs : List (String × String)) (tagName varName : String) (st : unitState)
    (h0 : J .nil st.g st.history) :
    J (handleStartRegular attrs path tagName varName st).1
      (handleStartRegular attrs path tagName varName st).2.g
      (handleStartRegular attrs path tagName varName st).2.history := by
  unfold handleStartRegular
  refine attrsFunc_inv (regularAttr path tagName varName) (fun o c => J o c.g c.history)
    ?_ attrs _ h0
  intro k v c hc
  unfold regularAttr
  split
  · split
    · exact herr _ _ _ hc
    · split
      · exact herr _ _ _ hc
      · exact hc
  · exact hc

theorem handleStartInclude_inv
    (hgen : ∀ p g h, J .nil g h → J (gen p h g).out (gen p h g).g (gen p h g).history)
    (herr : ∀ c g h, J .nil g h → J (.error (.Error path c)) g h)
    (attrs : List (String × String)) (tagName varName : String) (st : unitState)
    (h0 : J .nil st.g st.history) :
    J (handleStartInclude env gen attrs path tagName varName st).1
      (handleStartInclude env gen attrs path tagName varName st).2.g
      (handleStartInclude env gen attrs path tagName varName st).2.history := by
  have key := attrsFunc_inv (includeAttr env gen path varName)
    (fun o c => J o c.st.g c.st.history) (by
      intro k v c hc
      unfold includeAttr
      simp only
      split
      · exact herr _ _ _ hc
      · split
        · split
          · exact herr _ _ _ hc
          · exact hc
        · have := hgen (includePath env c.st.g.opts.Root path v) c.st.g c.st.history hc
          split
          · rename_i hn
            rw [hn] at this
            exact this
          · exact this) attrs
    { foundPathAttr := false, refAttrVal := "", includeTypeName := "", st := st } h0
  unfold handleStartInclude
  simp only
  split
  · rename_i hn
    rw [hn] at key
    split
    · exact herr _ _ _ key
    · split
      · split
        · exact herr _ _ _ key
        · exact key
      · exact key
  · exact key

theorem handleEndToken_g (tagName varName : String) (st : unitState) :
    (handleEndToken tagName varName st).g = st.g ∧
    (handleEndToken tagName varName st).history = st.history := by
  unfold handleEndToken
  split
  · exact ⟨rfl, rfl⟩
  · split <;> exact ⟨rfl, rfl⟩

theorem tokenStep_inv
    (hgen : ∀ p g h, J .nil g h → J (gen p h g).out (gen p h g).g (gen p h g).history)
    (herr : ∀ c g h, J .nil g h → J (.error (.Error path c)) g h)
    (hpanic : ∀ g h, J .nil g h → J .panicked g h)
    (tok : Token) (st : unitState) (h0 : J .nil st.g st.history) :
    J (tokenStep env gen path tok st).out (tokenStep env gen path tok st).st.g
      (tokenStep env gen path tok st).st.history := by
  have hstart : ∀ attrs tagName varName (s : unitState), J .nil s.g s.history →
      J (handleStartToken env gen attrs path tagName varName s).1
        (handleStartToken env gen attrs path tagName varName s).2.g
        (handleStartToken env gen attrs path tagName varName s).2.history := by
    intro attrs tagName varName s hs
    unfold handleStartToken
    split
    · exact handleStartInclude_inv env gen path J hgen herr _ _ _ _ hs
    · exact handleStartRegular_inv path J herr _ _ _ _ hs
  cases tok with
  | ErrorToken err => exact herr _ _ _ h0
  | TextToken text =>
    simp only [tokenStep]
    split
    · exact h0
    · split <;> exact h0
  | StartTagToken tagName attrs =>
    simp only [tokenStep]
    split
    · exact h0
    · have := hstart attrs tagName (st.namer.next tagName).1
        { st with namer := (st.namer.next tagName).2,
                  names := st.names.push ⟨tagName, (st.namer.next tagName).1⟩ } h0
      split
      · rename_i hn
        rw [hn] at this
        exact this
      · exact this
  | EndTagToken tagName =>
    simp only [tokenStep]
    split
    · exact hpanic _ _ h0
    · simp only [Step.out, Step.st]
      rw [(handleEndToken_g _ _ _).1, (handleEndToken_g _ _ _).2]
      exact h0
  | SelfClosingTagToken tagName attrs =>
    simp only [tokenStep]
    have := hstart attrs tagName (st.namer.next tagName).1
        { st with namer := (st.namer.next tagName).2 } h0
    split
    · rename_i hn
      rw [hn] at this
      simp only [Step.out, Step.st]
      rw [(handleEndToken_g _ _ _).1, (handleEndToken_g _ _ _).2]
      exact this
    · exact this
  | CommentToken text => exact h0
  | DoctypeToken text => exact h0

theorem tokenizeView_inv
    (hgen : ∀ p g h, J .nil g h → J (gen p h g).out (gen p h g).g (gen p h g).history)
    (herr : ∀ c g h, J .nil g h → J (.error (.Error path c)) g h)
    (hpanic : ∀ g h, J .nil g h → J .panicked g h)
    (z : List Token) : ∀ (st : unitState), J .nil st.g st.history →
    J (tokenizeView env gen path z st).1.out (tokenizeView env gen path z st).2.g
      (tokenizeView env gen path z st).2.history := by
  induction z with
  | nil => intro st h0; exact h0
  | cons tok z ih =>
    intro st h0
    have h1 := tokenStep_inv env gen path J hgen herr hpanic tok st h0
    simp only [tokenizeView]
    split
    · rename_i st1 heq
      rw [heq] at h1
      exact ih st1 h1
    · rename_i st1 heq
      rw [heq] at h1
      exact h1
    · rename_i out st1 heq
      rw [heq] at h1
      exact h1

end inv

/-! ## The recursion history across calls -/

theorem generateComponent_history (env : Env)
    (gen : String → orderedSet → generator → Result) (z : List Token) (path : String)
    (h : orderedSet) (g : generator) (hwf : h.WF)
    (hgen : ∀ p g1, (gen p (h.add path) g1).history = h.add path) :
    (generateComponent env gen z path h g).history = h := by
  unfold generateComponent
  split
  · rfl
  · rename_i hp
    have hp : h.has path = false := by simpa using hp
    have key := tokenizeView_inv env gen path (fun _ _ h1 => h1 = h.add path)
      (fun p g1 h1 e => by subst e; exact hgen p g1) (fun _ _ _ e => e) (fun _ _ e => e)
      z (unitState.init env path h g) rfl
    simp only at key
    have hr := orderedSet.remove_add hwf path hp
    simp only
    split <;> simp only [key, hr]

theorem generateOneFile_history (env : Env) (fuel : Nat) :
    ∀ (path : String) (h : orderedSet) (g : generator), h.WF →
      (generateOneFile env fuel path h g).history = h := by
  induction fuel with
  | zero => intro path h g _; rfl
  | succ n ih =>
    intro path h g hwf
    simp only [generateOneFile]
    split
    · rfl
    · split
      · rfl
      · rename_i z _
        have := generateComponent_history env (generateOneFile env n) z path h g hwf
          (fun p g1 => ih p _ g1 (hwf.add path))
        split
        · exact this
        · exact this

/-! ## The memoization set across calls -/

theorem MemoKept.refl (h : orderedSet) (g : generator) : MemoKept h g g :=
  ⟨fun _ hx => hx, fun _ _ hx => hx⟩

theorem MemoKept.trans {h : orderedSet} {g g1 g2 : generator}
    (a : MemoKept h g g1) (b : MemoKept h g1 g2) : MemoKept h g g2 :=
  ⟨fun x hx => b.1 x (a.1 x hx), fun x hh hx => a.2 x hh (b.2 x hh hx)⟩

theorem generateComponent_memo (env : Env)
    (gen : String → orderedSet → generator → Result) (z : List Token) (path : String)
    (h : orderedSet) (g : generator)
    (hgen : ∀ p g1, (gen p (h.add path) g1).history = h.add path ∧
      MemoKept (h.add path) g1 (gen p (h.add path) g1).g) :
    MemoKept (h.add path) g (generateComponent env gen z path h g).g ∧
    (h.has path = true → (generateComponent env gen z path h g).out ≠ .nil) := by
  unfold generateComponent
  split
  · exact ⟨MemoKept.refl _ _, fun _ => by simp⟩
  · rename_i hp
    have key := tokenizeView_inv env gen path
      (fun _ g1 h1 => h1 = h.add path ∧ MemoKept (h.add path) g g1)
      (fun p g1 h1 e => by
        obtain ⟨e1, e2⟩ := e
        subst e1
        exact ⟨(hgen p g1).1, e2.trans (hgen p g1).2⟩)
      (fun _ _ _ e => e) (fun _ _ e => e)
      z (unitState.init env path h g) ⟨rfl, MemoKept.refl _ _⟩
    simp only at key
    refine ⟨?_, fun hh => absurd hh hp⟩
    simp only
    split <;> exact key.2

theorem generateOneFile_memo (env : Env) (fuel : Nat) :
    ∀ (path : String) (h : orderedSet) (g : generator), h.WF →
      MemoKept h g (generateOneFile env fuel path h g).g ∧
      ((generateOneFile env fuel path h g).out = .nil →
        path ∈ (generateOneFile env fuel path h g).g.generated) ∧
      ((generateOneFile env fuel path h g).out ≠ .nil →
        path ∈ (generateOneFile env fuel path h g).g.generated → path ∈ g.generated) := by
  induction fuel with
  | zero => intro path h g _; exact ⟨MemoKept.refl _ _, by simp [generateOneFile], fun _ hx => hx⟩
  | succ n ih =>
    intro path h g hwf
    simp only [generateOneFile]
    split
    · rename_i hmem
      exact ⟨MemoKept.refl _ _, fun _ => hmem, fun _ hx => hx⟩
    · rename_i hmem
      split
      · exact ⟨MemoKept.refl _ _, by simp, fun _ hx => hx⟩
      · rename_i z _
        have hc := generateComponent_memo env (generateOneFile env n) z path h g
          (fun p g1 => ⟨generateOneFile_history env n p _ g1 (hwf.add path),
            (ih p _ g1 (hwf.add path)).1⟩)
        obtain ⟨⟨hc1, hc2⟩, hc3⟩ := hc
        have hpath : (h.add path).has path = true := (orderedSet.has_add h path path).2 (Or.inr rfl)
        split
        · rename_i hnil
          refine ⟨⟨?_, ?_⟩, ?_, ?_⟩
          · intro x hx
            have := hc1 x hx
            simp only [setAdd]
            split
            · exact this
            · exact List.mem_append_left _ this
          · intro x hh hx
            have hne : x ≠ path := by
              rintro rfl
              exact hc3 hh hnil
            have hx1 : x ∈ (generateComponent env (generateOneFile env n) z path h g).g.generated := by
              simp only [setAdd] at hx
              split at hx
              · exact hx
              · rcases List.mem_append.1 hx with hx | hx
                · exact hx
                · exact absurd (List.mem_singleton.1 hx) hne
            exact hc2 x ((orderedSet.has_add h path x).2 (Or.inl hh)) hx1
          · intro _
            simp only [setAdd]
            split
            · assumption
            · simp
          · intro hcontra
            exact absurd hnil hcontra
        · refine ⟨⟨hc1, ?_⟩, ?_, ?_⟩
          · intro x hh hx
            exact hc2 x ((orderedSet.has_add h path x).2 (Or.inl hh)) hx
          · intro hcontra
            rename_i hne
            exact absurd hcontra hne
          · intro _ hx
            exact hc2 path hpath hx

/-! ## Fuel -/

theorem mapGet_mem {α : Type} (m : List (String × α)) (k : String) (v : α)
    (h : mapGet m k = some v) : k ∈ m.map Prod.fst := by
  induction m with
  | nil => simp [mapGet] at h
  | cons kv rest ih =>
    obtain ⟨k1, v1⟩ := kv
    simp only [mapGet] at h
    split at h
    · rename_i e; simp [e]
    · simp [ih h]

theorem generateComponent_fuel (env : Env)
    (gen : String → orderedSet → generator → Result) (z : List Token) (path : String)
    (h : orderedSet) (g : generator)
    (hgen : h.has path = false → ∀ p g1, (gen p (h.add path) g1).history = h.add path ∧
      (gen p (h.add path) g1).out ≠ .outOfFuel) :
    (generateComponent env gen z path h g).out ≠ .outOfFuel := by
  unfold generateComponent
  split
  · simp
  · rename_i hp
    have hp : h.has path = false := by simpa using hp
    have key := tokenizeView_inv env gen path
      (fun o _ h1 => h1 = h.add path ∧ o ≠ .outOfFuel)
      (fun p g1 h1 e => by
        obtain ⟨e1, _⟩ := e
        subst e1
        exact hgen hp p g1)
      (fun _ _ _ e => ⟨e.1, by simp⟩) (fun _ _ e => ⟨e.1, by simp⟩)
      z (unitState.init env path h g) ⟨rfl, by simp⟩
    simp only at key
    simp only
    split
    · rename_i out heq
      have := key.2
      rw [heq] at this
      exact this
    · simp
    · simp
    · simp

/-- A call of `generateOneFile` does not run out of fuel when the fuel exceeds
the number of files that can be opened and are not in the recursion history. -/
theorem generateOneFile_fuel (env : Env) (fuel : Nat) :
    ∀ (path : String) (h : orderedSet) (g : generator), h.WF →
      (∀ v, v ∈ h.s → v ∈ env.files.map Prod.fst) →
      env.files.length < fuel + h.s.length →
      (generateOneFile env fuel path h g).out ≠ .outOfFuel := by
  induction fuel with
  | zero =>
    intro path h g hwf hsub hlt
    have := (List.subperm_of_subset hwf.nodup_s hsub).length_le
    simp at this hlt
    omega
  | succ n ih =>
    intro path h g hwf hsub hlt
    simp only [generateOneFile]
    split
    · simp
    · split
      · simp
      · rename_i z hopen
        have hmem : path ∈ env.files.map Prod.fst := mapGet_mem _ _ _ hopen
        have hc := generateComponent_fuel env (generateOneFile env n) z path h g
          (fun hp p g1 => ⟨generateOneFile_history env n p _ g1 (hwf.add path),
            ih p _ g1 (hwf.add path)
              (by
                intro v hv
                rw [orderedSet.add_s h path hp] at hv
                rcases List.mem_append.1 hv with hv | hv
                · exact hsub v hv
                · rw [List.mem_singleton.1 hv]; exact hmem)
              (by
                rw [orderedSet.add_s h path hp]
                simp
                omega)⟩)
        split
        · rename_i hnil
          simp [hnil]
        · exact hc

theorem runFiles_fuel (env : Env) (fuel : Nat) (hfuel : env.files.length < fuel) :
    ∀ (input : List String) (g : generator), (runFiles env fuel input g).1 ≠ .outOfFuel := by
  intro input
  induction input with
  | nil => intro g; simp [runFiles]
  | cons p rest ih =>
    intro g
    simp only [runFiles]
    split
    · exact ih _
    · exact generateOneFile_fuel env fuel p newOrderedSet g orderedSet.WF_new
        (by simp [newOrderedSet]) (by simpa [newOrderedSet] using hfuel)

/-- The fuel that `Generate` gives is enough: it ends as the Go program does. -/
theorem Generate_fuel (env : Env) (inputFiles : List String) (opts : Options) :
    (Generate env inputFiles opts).err ≠ .outOfFuel := by
  unfold Generate generator.run
  simp only
  split
  · split <;> simp
  · exact runFiles_fuel env _ (Nat.lt_succ_self _) _ _

/-! ## Include cycles -/

theorem foldl_cycle (f : String → String) (s : List String) (init : List String) :
    s.foldl (fun cycle v => cycle ++ [f v]) init = init ++ s.map f := by
  induction s generalizing init with
  | nil => simp
  | cons x xs ih => simp [ih]

theorem generateComponent_cycle (env : Env)
    (gen : String → orderedSet → generator → Result) (z : List Token) (path : String)
    (h : orderedSet) (g : generator) (hp : h.has path = true) :
    generateComponent env gen z path h g =
      { out := .error (.Error path (.cycle (h.s.map env.Base ++ [env.Base path]))),
        g := g, history := h } := by
  simp [generateComponent, hp, orderedSet.forEach, foldl_cycle]

theorem tokenizeView_append (env : Env) (gen : String → orderedSet → generator → Result)
    (path : String) (pre z : List Token) :
    ∀ (st st1 : unitState), tokenizeView env gen path pre st = (.eof, st1) →
      tokenizeView env gen path (pre ++ z) st = tokenizeView env gen path z st1 := by
  induction pre with
  | nil =>
    intro st st1 h
    simp only [tokenizeView, Prod.mk.injEq, true_and] at h
    subst h
    rfl
  | cons tok pre ih =>
    intro st st1 h
    simp only [tokenizeView, List.cons_append] at h ⊢
    split at h
    · exact ih _ _ h
    · simp at h
    · simp at h

theorem attrsFunc_append {σ : Type} (f : String → String → σ → Outcome × σ)
    (apre arest : List (String × String)) :
    ∀ (c c1 : σ), attrsFunc f apre c = (.nil, c1) →
      attrsFunc f (apre ++ arest) c = attrsFunc f arest c1 := by
  induction apre with
  | nil =>
    intro c c1 h
    simp only [attrsFunc, Prod.mk.injEq, true_and] at h
    subst h
    rfl
  | cons kv apre ih =>
    intro c c1 h
    obtain ⟨k, v⟩ := kv
    simp only [attrsFunc, List.cons_append] at h ⊢
    split at h
    · rename_i hn
      rw [if_pos hn]
      exact ih _ _ h
    · rename_i hn
      rw [h] at hn
      exact absurd rfl hn

theorem includeAttr_path_fail (env : Env) (gen : String → orderedSet → generator → Result)
    (path varName v : String) (c : includeState)
    (hne : (gen (includePath env c.st.g.opts.Root path v) c.st.history c.st.g).out ≠ .nil) :
    (includeAttr env gen path varName "path" v c).1 =
      (gen (includePath env c.st.g.opts.Root path v) c.st.history c.st.g).out := by
  have e1 : equalsRef "path" = false := by decide
  have e2 : equalsPath "path" = true := by decide
  simp [includeAttr, e1, e2, hne]

theorem handleStartInclude_fail (env : Env) (gen : String → orderedSet → generator → Result)
    (path tagName varName v : String) (apre arest : List (String × String))
    (st : unitState) (c : includeState)
    (hattrs : attrsFunc (includeAttr env gen path varName) apre
      { foundPathAttr := false, refAttrVal := "", includeTypeName := "", st := st } = (.nil, c))
    (hne : (gen (includePath env c.st.g.opts.Root path v) c.st.history c.st.g).out ≠ .nil) :
    (handleStartInclude env gen (apre ++ ("path", v) :: arest) path tagName varName st).1 =
      (gen (includePath env c.st.g.opts.Root path v) c.st.history c.st.g).out := by
  have h1 := includeAttr_path_fail env gen path varName v c hne
  have h2 : (attrsFunc (includeAttr env gen path varName) (("path", v) :: arest) c).1 =
      (gen (includePath env c.st.g.opts.Root path v) c.st.history c.st.g).out := by
    simp only [attrsFunc]
    rw [if_neg (by rw [h1]; exact hne)]
    exact h1
  unfold handleStartInclude
  simp only
  rw [attrsFunc_append _ _ _ _ _ hattrs]
  rw [if_neg (by rw [h2]; exact hne)]
  exact h2

theorem IncludesAt.out_eq {env : Env} {gen : String → orderedSet → generator → Result}
    {z : List Token} {path : String} {h : orderedSet} {g : generator}
    {p1 : String} {h1 : orderedSet} {g1 : generator}
    (hinc : IncludesAt env gen z path h g p1 h1 g1) (hhas : h.has path = false)
    (hne : (gen p1 h1 g1).out ≠ .nil) :
    (generateComponent env gen z path h g).out = (gen p1 h1 g1).out := by
  cases hinc with
  | start pre rest apre arest v st c hz hpre hattrs =>
    have hf := handleStartInclude_fail env gen path "include" _ v apre arest _ c hattrs hne
    have hstep : tokenStep env gen path
        (.StartTagToken "include" (apre ++ ("path", v) :: arest)) st =
        .stop (gen (includePath env c.st.g.opts.Root path v) c.st.history c.st.g).out
          (handleStartInclude env gen (apre ++ ("path", v) :: arest) path "include"
            (st.namer.next "include").1
            { st with namer := (st.namer.next "include").2,
                      names := st.names.push ⟨"include", (st.namer.next "include").1⟩ }).2 := by
      have hns : ¬ ("include" = "style" ∧ st.names.len = 0) := fun h => absurd h.1 (by decide)
      simp only [tokenStep, handleStartToken]
      rw [if_neg hns]
      simp only [if_true]
      rw [if_neg (by rw [hf]; exact hne), hf]
    subst hz
    unfold generateComponent
    simp only [hhas, Bool.false_eq_true, if_false]
    rw [tokenizeView_append _ _ _ _ _ _ _ hpre]
    simp only [tokenizeView, hstep]
  | selfClosing pre rest apre arest v st c hz hpre hattrs =>
    have hf := handleStartInclude_fail env gen path "include" _ v apre arest _ c hattrs hne
    have hstep : tokenStep env gen path
        (.SelfClosingTagToken "include" (apre ++ ("path", v) :: arest)) st =
        .stop (gen (includePath env c.st.g.opts.Root path v) c.st.history c.st.g).out
          (handleStartInclude env gen (apre ++ ("path", v) :: arest) path "include"
            (st.namer.next "include").1
            { st with namer := (st.namer.next "include").2 }).2 := by
      simp only [tokenStep, handleStartToken]
      simp only [if_true]
      rw [if_neg (by rw [hf]; exact hne), hf]
    subst hz
    unfold generateComponent
    simp only [hhas, Bool.false_eq_true, if_false]
    rw [tokenizeView_append _ _ _ _ _ _ _ hpre]
    simp only [tokenizeView, hstep]

theorem includeAttrs_inv (env : Env) (gen : String → orderedSet → generator → Result)
    (path : String) (J : Outcome → generator → orderedSet → Prop)
    (hgen : ∀ p g h, J .nil g h → J (gen p h g).out (gen p h g).g (gen p h g).history)
    (herr : ∀ c g h, J .nil g h → J (.error (.Error path c)) g h)
    (varName : String) (attrs : List (String × String)) (c : includeState)
    (h0 : J .nil c.st.g c.st.history) :
    J (attrsFunc (includeAttr env gen path varName) attrs c).1
      (attrsFunc (includeAttr env gen path varName) attrs c).2.st.g
      (attrsFunc (includeAttr env gen path varName) attrs c).2.st.history := by
  refine attrsFunc_inv (includeAttr env gen path varName)
    (fun o c => J o c.st.g c.st.history) ?_ attrs c h0
  intro k v c hc
  unfold includeAttr
  simp only
  split
  · exact herr _ _ _ hc
  · split
    · split
      · exact herr _ _ _ hc
      · exact hc
    · have := hgen (includePath env c.st.g.opts.Root path v) c.st.g c.st.history hc
      split
      · rename_i hn
        rw [hn] at this
        exact this
      · exact this

theorem IncludesAt.inv {env : Env} {gen : String → orderedSet → generator → Result}
    {z : List Token} {path : String} {h : orderedSet} {g : generator}
    {p1 : String} {h1 : orderedSet} {g1 : generator}
    (hinc : IncludesAt env gen z path h g p1 h1 g1)
    (J : Outcome → generator → orderedSet → Prop)
    (hgen : ∀ p g h, J .nil g h → J (gen p h g).out (gen p h g).g (gen p h g).history)
    (herr : ∀ c g h, J .nil g h → J (.error (.Error path c)) g h)
    (hpanic : ∀ g h, J .nil g h → J .panicked g h)
    (h0 : J .nil g (h.add path)) : J .nil g1 h1 := by
  cases hinc with
  | start pre rest apre arest v st c hz hpre hattrs =>
    have k1 := tokenizeView_inv env gen path J hgen herr hpanic pre
      (unitState.init env path h g) h0
    rw [hpre] at k1
    have k2 := includeAttrs_inv env gen path J hgen herr (st.namer.next "include").1 apre
      { foundPathAttr := false, refAttrVal := "", includeTypeName := "",
        st := { st with
          namer := (st.namer.next "include").2,
          names := st.names.push ⟨"include", (st.namer.next "include").1⟩ } } k1
    rw [hattrs] at k2
    exact k2
  | selfClosing pre rest apre arest v st c hz hpre hattrs =>
    have k1 := tokenizeView_inv env gen path J hgen herr hpanic pre
      (unitState.init env path h g) h0
    rw [hpre] at k1
    have k2 := includeAttrs_inv env gen path J hgen herr (st.namer.next "include").1 apre
      { foundPathAttr := false, refAttrVal := "", includeTypeName := "",
        st := { st with namer := (st.namer.next "include").2 } } k1
    rw [hattrs] at k2
    exact k2

theorem IncludesAt.at_facts {env : Env} {n : Nat}
    {z : List Token} {path : String} {h : orderedSet} {g : generator}
    {p1 : String} {h1 : orderedSet} {g1 : generator}
    (hinc : IncludesAt env (generateOneFile env n) z path h g p1 h1 g1) (hwf : h.WF) :
    h1 = h.add path ∧ MemoKept (h.add path) g g1 :=
  hinc.inv (fun _ g2 h2 => h2 = h.add path ∧ MemoKept (h.add path) g g2)
    (fun p g2 h2 e => by
      obtain ⟨e1, e2⟩ := e
      subst e1
      exact ⟨generateOneFile_history env n p _ g2 (hwf.add path),
        e2.trans (generateOneFile_memo env n p _ g2 (hwf.add path)).1⟩)
    (fun _ _ _ e => e) (fun _ _ e => e) ⟨rfl, MemoKept.refl _ _⟩

theorem generateOneFile_propagate (env : Env) (n : Nat) (p : String) (h : orderedSet)
    (g : generator) (z : List Token) (q : String) (h1 : orderedSet) (g1 : generator)
    (hmemo : p ∉ g.generated) (hopen : env.open? p = some z) (hhas : h.has p = false)
    (hinc : IncludesAt env (generateOneFile env n) z p h g q h1 g1)
    (hne : (generateOneFile env n q h1 g1).out ≠ .nil) :
    (generateOneFile env (n + 1) p h g).out = (generateOneFile env n q h1 g1).out := by
  have hp := hinc.out_eq hhas hne
  simp only [generateOneFile, hmemo, if_false, hopen]
  rw [if_neg (by rw [hp]; exact hne)]
  exact hp

theorem IncludeChain.chain_out_eq {env : Env} {n m : Nat} {p q : String}
    {h h1 : orderedSet} {g g1 : generator}
    (hc : IncludeChain env n p h g m q h1 g1)
    (hne : (generateOneFile env m q h1 g1).out ≠ .nil) :
    (generateOneFile env n p h g).out = (generateOneFile env m q h1 g1).out := by
  induction hc with
  | direct n p h g z q h1 g1 hmemo hopen hhas hinc =>
    exact generateOneFile_propagate env n p h g z q h1 g1 hmemo hopen hhas hinc hne
  | step n p h g z q h1 g1 m r h2 g2 hmemo hopen hhas hinc hrest ih =>
    have := ih hne
    rw [← this] at hne ⊢
    exact generateOneFile_propagate env n p h g z q h1 g1 hmemo hopen hhas hinc hne

theorem IncludeChain.chain_facts {env : Env} {n m : Nat} {p q : String}
    {h h1 : orderedSet} {g g1 : generator}
    (hc : IncludeChain env n p h g m q h1 g1) (hwf : h.WF)
    (hsub : ∀ v, v ∈ h.s → v ∈ env.files.map Prod.fst) :
    h1.WF ∧ (∀ v, v ∈ h1.s → v ∈ env.files.map Prod.fst) ∧
    (∃ mid, h1.s = h.s ++ p :: mid) ∧ n + h.s.length = m + h1.s.length ∧
    (∀ x, h1.has x = true → x ∈ g1.generated → h.has x = true ∧ x ∈ g.generated) ∧
    env.open? p ≠ none := by
  induction hc with
  | direct n p h g z q h1 g1 hmemo hopen hhas hinc =>
    obtain ⟨e1, e2⟩ := hinc.at_facts hwf
    subst e1
    refine ⟨hwf.add p, ?_, ⟨[], orderedSet.add_s h p hhas⟩, ?_, ?_, by simp [hopen]⟩
    · intro v hv
      rw [orderedSet.add_s h p hhas] at hv
      rcases List.mem_append.1 hv with hv | hv
      · exact hsub v hv
      · rw [List.mem_singleton.1 hv]; exact mapGet_mem _ _ _ hopen
    · rw [orderedSet.add_s h p hhas]; simp; omega
    · intro x hx hg
      have hg0 := e2.2 x hx hg
      rcases (orderedSet.has_add h p x).1 hx with hx | hx
      · exact ⟨hx, hg0⟩
      · subst hx; exact absurd hg0 hmemo
  | step n p h g z q h1 g1 m r h2 g2 hmemo hopen hhas hinc hrest ih =>
    obtain ⟨e1, e2⟩ := hinc.at_facts hwf
    subst e1
    have hsub1 : ∀ v, v ∈ (h.add p).s → v ∈ env.files.map Prod.fst := by
      intro v hv
      rw [orderedSet.add_s h p hhas] at hv
      rcases List.mem_append.1 hv with hv | hv
      · exact hsub v hv
      · rw [List.mem_singleton.1 hv]; exact mapGet_mem _ _ _ hopen
    obtain ⟨a1, a2, ⟨mid, a3⟩, a4, a5, _⟩ := ih (hwf.add p) hsub1
    refine ⟨a1, a2, ⟨q :: mid, ?_⟩, ?_, ?_, by simp [hopen]⟩
    · rw [a3, orderedSet.add_s h p hhas]; simp
    · rw [orderedSet.add_s h p hhas] at a4; simp at a4; omega
    · intro x hx hg
      obtain ⟨hx1, hg1⟩ := a5 x hx hg
      have hg0 := e2.2 x hx1 hg1
      rcases (orderedSet.has_add h p x).1 hx1 with hx | hx
      · exact ⟨hx, hg0⟩
      · subst hx; exact absurd hg0 hmemo

theorem runFiles_single (env : Env) (fuel : Nat) (p : String) (g : generator)
    (hne : (generateOneFile env fuel p newOrderedSet g).out ≠ .nil) :
    (runFiles env fuel [p] g).1 = (generateOneFile env fuel p newOrderedSet g).out := by
  simp [runFiles, hne]

theorem Generate_eq (env : Env) (inputFiles : List String) (opts : Options) :
    Generate env inputFiles opts =
      if (runFiles env (env.files.length + 1) inputFiles (startGenerator opts)).1 = .nil then
        match env.formatSource (renderLines env.quote
          (runFiles env (env.files.length + 1) inputFiles (startGenerator opts)).2.viewsBuf) with
        | some views =>
            { viewsOut := some views,
              cssOut := some
                (runFiles env (env.files.length + 1) inputFiles (startGenerator opts)).2.cssBuf,
              err := .nil }
        | none => { viewsOut := none, cssOut := none, err := .panicked }
      else
        { viewsOut := none, cssOut := none,
          err := (runFiles env (env.files.length + 1) inputFiles (startGenerator opts)).1 } := by
  rfl

theorem Generate_single_fail (env : Env) (p : String) (opts : Options)
    (hne : (generateOneFile env (env.files.length + 1) p newOrderedSet
      (startGenerator opts)).out ≠ .nil) :
    (Generate env [p] opts).err =
      (generateOneFile env (env.files.length + 1) p newOrderedSet (startGenerator opts)).out := by
  have h1 := runFiles_single env _ p (startGenerator opts) hne
  rw [Generate_eq, if_neg (by rw [h1]; exact hne), h1]

theorem generateOneFile_cycle (env : Env) (n : Nat) (p : String) (h : orderedSet)
    (g : generator) (hmemo : p ∉ g.generated) (hopen : env.open? p ≠ none)
    (hhas : h.has p = true) :
    (generateOneFile env (n + 1) p h g).out =
      .error (.Error p (.cycle (h.s.map env.Base ++ [env.Base p]))) := by
  obtain ⟨z, hz⟩ := Option.ne_none_iff_exists'.1 hopen
  simp [generateOneFile, hmemo, hz, generateComponent_cycle env _ z p h g hhas]

/-- **C1 (as amended).** `generateComponent` on a path that the recursion history
already contains fails with an `Error` for that path whose message is
`cycle in include paths (…)`, listing the base names of the history in insertion
order and then the base name of the path, joined by ` -> `.  In particular, when the
compilation of `A` reaches an include directive that resolves to `B`, directly or
through include directives of successively included units, and the compilation of
`B` reaches in the same way an include directive that resolves to the path `A`
itself, as it was passed to `Generate`, then `Generate [A]` fails with a cycle error
for the path `A` whose chain starts with the base name of `A`, lists the base name of
`B` after it, and ends with the base name of `A`.  A directive is reached when the
tokens before it leave the loop running (none of them is a top-level style start tag)
and the attributes before its `path` attribute are processed without error. -/
theorem C1_cycle_error (env : Env) :
    (∀ (gen : String → orderedSet → generator → Result) (z : List Token) (p : String)
        (h : orderedSet) (g : generator), h.has p = true →
      (generateComponent env gen z p h g).out =
        .error (.Error p (.cycle (h.s.map env.Base ++ [env.Base p]))) ∧
      (Cause.cycle (h.s.map env.Base ++ [env.Base p])).message env.quote =
        "cycle in include paths (" ++
          " -> ".intercalate (h.s.map env.Base ++ [env.Base p]) ++ ")") ∧
    (∀ (opts : Options) (A B : String) (m k : Nat) (h1 h2 : orderedSet) (g1 g2 : generator),
      IncludeChain env (env.files.length + 1) A newOrderedSet (startGenerator opts) m B h1 g1 →
      IncludeChain env m B h1 g1 k A h2 g2 →
      ∃ l1 l2, (Generate env [A] opts).err =
        .error (.Error A (.cycle (env.Base A :: l1 ++ env.Base B :: l2 ++ [env.Base A])))) := by
  refine ⟨fun gen z p h g hp => ⟨by rw [generateComponent_cycle env gen z p h g hp], rfl⟩, ?_⟩
  intro opts A B m k h1 h2 g1 g2 hc1 hc2
  obtain ⟨wf1, sub1, ⟨mid1, hs1⟩, hn1, memo1, openA⟩ :=
    hc1.chain_facts orderedSet.WF_new (by simp [newOrderedSet])
  obtain ⟨wf2, sub2, ⟨mid2, hs2⟩, hn2, memo2, _⟩ := hc2.chain_facts wf1 sub1
  have hlen := (List.subperm_of_subset wf2.nodup_s sub2).length_le
  simp only [List.length_map] at hlen
  simp only [newOrderedSet, List.nil_append, List.length_nil] at hs1 hn1
  obtain ⟨k1, rfl⟩ : ∃ k1, k = k1 + 1 := ⟨k - 1, by omega⟩
  have hA2 : h2.has A = true := by
    have : A ∈ h2.s := by rw [hs2, hs1]; simp
    simpa [orderedSet.has] using (wf2.mem_iff A).2 this
  have hmemo : A ∉ g2.generated := by
    intro hg
    obtain ⟨hA1, hg1⟩ := memo2 A hA2 hg
    have := (memo1 A hA1 hg1).1
    simp [orderedSet.has, newOrderedSet] at this
  have hfin := generateOneFile_cycle env k1 A h2 g2 hmemo openA hA2
  have hne : (generateOneFile env (k1 + 1) A h2 g2).out ≠ .nil := by rw [hfin]; simp
  have p2 := hc2.chain_out_eq hne
  have p1 := hc1.chain_out_eq (by rw [p2]; exact hne)
  refine ⟨mid1.map env.Base, mid2.map env.Base, ?_⟩
  rw [Generate_single_fail env A opts (by rw [p1, p2]; exact hne), p1, p2, hfin, hs2, hs1]
  simp

theorem C1_cycle_error_witness :
    ((generateComponent (Env.sample cycleFiles) (fun _ h g => ⟨.nil, g, h⟩) [] "a.html"
        ⟨["a.html", "b.html"], ["a.html", "b.html"]⟩ (startGenerator ⟨"ui", "/"⟩)).out =
        .error (.Error "a.html" (.cycle
          (["a.html", "b.html"].map (Env.sample cycleFiles).Base ++
            [(Env.sample cycleFiles).Base "a.html"]))) ∧
      (Cause.cycle (["a.html", "b.html"].map (Env.sample cycleFiles).Base ++
          [(Env.sample cycleFiles).Base "a.html"])).message (Env.sample cycleFiles).quote =
        "cycle in include paths (" ++
          " -> ".intercalate (["a.html", "b.html"].map (Env.sample cycleFiles).Base ++
            [(Env.sample cycleFiles).Base "a.html"]) ++ ")") ∧
    (∃ l1 l2, (Generate (Env.sample cycleFiles) ["a.html"] ⟨"ui", "/"⟩).err =
      .error (.Error "a.html" (.cycle
        ((Env.sample cycleFiles).Base "a.html" :: l1 ++
          (Env.sample cycleFiles).Base "b.html" :: l2 ++
          [(Env.sample cycleFiles).Base "a.html"])))) :=
  ⟨(C1_cycle_error (Env.sample cycleFiles)).1 (fun _ h g => ⟨.nil, g, h⟩) [] "a.html"
      ⟨["a.html", "b.html"], ["a.html", "b.html"]⟩ (startGenerator ⟨"ui", "/"⟩) (by decide),
   (C1_cycle_error (Env.sample cycleFiles)).2 ⟨"ui", "/"⟩ "a.html" "b.html" 2 1
    ⟨["a.html"], ["a.html"]⟩ ⟨["a.html", "b.html"], ["a.html", "b.html"]⟩
    (startGenerator ⟨"ui", "/"⟩) (startGenerator ⟨"ui", "/"⟩)
    (IncludeChain.direct 2 "a.html" newOrderedSet (startGenerator ⟨"ui", "/"⟩) _ _ _ _
      (by decide) rfl (by decide)
      (IncludesAt.selfClosing [] [] [] [] "b.html" _ _ rfl rfl rfl))
    (IncludeChain.direct 1 "b.html" ⟨["a.html"], ["a.html"]⟩ (startGenerator ⟨"ui", "/"⟩) _ _ _ _
      (by decide) rfl (by decide)
      (IncludesAt.selfClosing [.StartTagToken "div" []] [.EndTagToken "div"] [] [] "a.html"
        _ _ rfl rfl rfl))⟩

/-- The second part of the claim as stated fails in two ways.  When the include
directive of `A` follows a top-level style block, the loop has stopped before it:
`Generate` on `a.html` returns nil.  And when `A` is passed under a path that
`filepath.Join` does not give back, here `./a.html`, the include of `B` resolves to
`a.html`, which the history does not hold: the cycle is found one round later, at
`b.html`, with a chain that ends with the base name of `B`. -/
theorem C1_counterexample :
    (Generate (Env.sample styleCycleFiles) ["a.html"] ⟨"ui", "/"⟩).err = .nil ∧
    (Generate (Env.sample dotCycleFiles) ["./a.html"] ⟨"ui", "/"⟩).err =
      .error (.Error "b.html" (.cycle ["a.html", "b.html", "a.html", "b.html"])) := by
  decide

/-- **C2.** When a call of `generateOneFile` ends, in whatever way, the recursion
history is the one the call was entered with: the same paths in the same order.
The call does end when the fuel exceeds the number of files that can be opened and
are not yet in the history. -/
theorem C2_history_restored (env : Env) (fuel : Nat) (path : String) (h : orderedSet)
    (g : generator) (hwf : h.WF) :
    (generateOneFile env fuel path h g).history = h ∧
    ((∀ v, v ∈ h.s → v ∈ env.files.map Prod.fst) → env.files.length < fuel + h.s.length →
      (generateOneFile env fuel path h g).out ≠ .outOfFuel) :=
  ⟨generateOneFile_history env fuel path h g hwf,
   fun hsub hlt => generateOneFile_fuel env fuel path h g hwf hsub hlt⟩

theorem C2_history_restored_witness :
    (orderedSet.mk ["b.html"] ["b.html"]).WF ∧
    (generateOneFile (Env.sample cycleFiles) 2 "a.html" ⟨["b.html"], ["b.html"]⟩
      (startGenerator ⟨"ui", "/"⟩)).history = ⟨["b.html"], ["b.html"]⟩ ∧
    (generateOneFile (Env.sample cycleFiles) 2 "a.html" ⟨["b.html"], ["b.html"]⟩
      (startGenerator ⟨"ui", "/"⟩)).out ≠ .outOfFuel :=
  have hwf : (orderedSet.mk ["b.html"] ["b.html"]).WF :=
    ⟨fun _ => Iff.rfl, by decide, by decide⟩
  ⟨hwf,
   (C2_history_restored (Env.sample cycleFiles) 2 "a.html" ⟨["b.html"], ["b.html"]⟩
      (startGenerator ⟨"ui", "/"⟩) hwf).1,
   (C2_history_restored (Env.sample cycleFiles) 2 "a.html" ⟨["b.html"], ["b.html"]⟩
      (startGenerator ⟨"ui", "/"⟩) hwf).2 (by decide) (by decide)⟩

/-- **C3.** For a path that is not in the memoization set when `generateOneFile`
is called on it: if the call does not return nil, the path is not in the set
afterwards; if it returns nil, the path is in the set afterwards; and every path
that was in the set is still in it. -/
theorem C3_memoized_on_success_only (env : Env) (fuel : Nat) (path : String)
    (h : orderedSet) (g : generator) (hwf : h.WF) (hp : path ∉ g.generated) :
    ((generateOneFile env fuel path h g).out ≠ .nil →
      path ∉ (generateOneFile env fuel path h g).g.generated) ∧
    ((generateOneFile env fuel path h g).out = .nil →
      path ∈ (generateOneFile env fuel path h g).g.generated) ∧
    (∀ x, x ∈ g.generated → x ∈ (generateOneFile env fuel path h g).g.generated) :=
  ⟨fun hne hx => hp ((generateOneFile_memo env fuel path h g hwf).2.2 hne hx),
   (generateOneFile_memo env fuel path h g hwf).2.1,
   (generateOneFile_memo env fuel path h g hwf).1.1⟩

theorem C3_memoized_on_success_only_witness :
    newOrderedSet.WF ∧ "c.html" ∉ (startGenerator ⟨"ui", "/"⟩).generated ∧
    ((generateOneFile (Env.sample memoFiles) 3 "c.html" newOrderedSet
        (startGenerator ⟨"ui", "/"⟩)).out ≠ .nil →
      "c.html" ∉ (generateOneFile (Env.sample memoFiles) 3 "c.html" newOrderedSet
        (startGenerator ⟨"ui", "/"⟩)).g.generated) ∧
    ((generateOneFile (Env.sample memoFiles) 3 "c.html" newOrderedSet
        (startGenerator ⟨"ui", "/"⟩)).out = .nil →
      "c.html" ∈ (generateOneFile (Env.sample memoFiles) 3 "c.html" newOrderedSet
        (startGenerator ⟨"ui", "/"⟩)).g.generated) ∧
    (∀ x, x ∈ (startGenerator ⟨"ui", "/"⟩).generated →
      x ∈ (generateOneFile (Env.sample memoFiles) 3 "c.html" newOrderedSet
        (startGenerator ⟨"ui", "/"⟩)).g.generated) :=
  ⟨orderedSet.WF_new, by decide,
   C3_memoized_on_success_only (Env.sample memoFiles) 3 "c.html" newOrderedSet
    (startGenerator ⟨"ui", "/"⟩) orderedSet.WF_new (by decide)⟩

/-! ## What compiling does to the generator -/

theorem Compiled.compiled_refl (env : Env) (g : generator) : Compiled env g g :=
  ⟨[], by simp, by simp, by simp, fun h => h⟩

theorem Compiled.compiled_trans {env : Env} {g g1 g2 : generator}
    (a : Compiled env g g1) (b : Compiled env g1 g2) : Compiled env g g2 := by
  obtain ⟨b1, a1, a2, a3, a4⟩ := a
  obtain ⟨b2, c1, c2, c3, c4⟩ := b
  refine ⟨b1 ++ b2, by simp [c1, a1], by simp [c2, a2], ?_, fun h => c4 (a4 h)⟩
  intro b hb
  rcases List.mem_append.1 hb with hb | hb
  · exact a3 b hb
  · exact c3 b hb

theorem Grows.start (env : Env) (h : orderedSet) (g : generator) : Grows env h g g .nil :=
  ⟨rfl, MemoKept.refl _ _, fun _ => Compiled.compiled_refl env g⟩

theorem Grows.fail {env : Env} {h : orderedSet} {g g1 : generator} {out : Outcome}
    (a : Grows env h g g1 .nil) (hne : out ≠ .nil) : Grows env h g g1 out :=
  ⟨a.opts, a.memo, fun e => absurd e hne⟩

theorem Grows.then {env : Env} {h : orderedSet} {g g1 g2 : generator} {out : Outcome}
    (a : Grows env h g g1 .nil) (b : Grows env h g1 g2 out) : Grows env h g g2 out :=
  ⟨b.opts.trans a.opts, a.memo.trans b.memo, fun e => (a.compiled rfl).compiled_trans (b.compiled e)⟩

theorem tokenStep_stop_ne_nil (env : Env) (gen : String → orderedSet → generator → Result)
    (path : String) (tok : Token) (st st1 : unitState) (out : Outcome)
    (h : tokenStep env gen path tok st = .stop out st1) : out ≠ .nil := by
  cases tok with
  | ErrorToken err =>
    simp only [tokenStep, Step.stop.injEq] at h
    rw [← h.1]; simp
  | TextToken text =>
    simp only [tokenStep] at h
    split at h
    · simp at h
    · split at h <;> simp at h
  | StartTagToken tagName attrs =>
    simp only [tokenStep] at h
    split at h
    · simp at h
    · split at h
      · simp at h
      · rename_i hne
        simp only [Step.stop.injEq] at h
        rw [← h.1]; exact hne
  | EndTagToken tagName =>
    simp only [tokenStep] at h
    split at h
    · simp only [Step.stop.injEq] at h
      rw [← h.1]; simp
    · simp at h
  | SelfClosingTagToken tagName attrs =>
    simp only [tokenStep] at h
    split at h
    · simp at h
    · rename_i hne
      simp only [Step.stop.injEq] at h
      rw [← h.1]; exact hne
  | CommentToken text => simp [tokenStep] at h
  | DoctypeToken text => simp [tokenStep] at h

theorem tokenizeView_returned_ne_nil (env : Env)
    (gen : String → orderedSet → generator → Result) (path : String) (z : List Token) :
    ∀ (st : unitState) (out : Outcome),
      (tokenizeView env gen path z st).1 = .returned out → out ≠ .nil := by
  induction z with
  | nil => intro st out h; simp [tokenizeView] at h
  | cons tok z ih =>
    intro st out h
    simp only [tokenizeView] at h
    split at h
    · exact ih _ _ h
    · simp at h
    · rename_i out1 st1 heq
      simp only [LoopExit.returned.injEq] at h
      rw [← h]
      exact tokenStep_stop_ne_nil env gen path tok st st1 out1 heq

/-- The generator that `generateComponent` leaves, from the one the loop left. -/
theorem generateComponent_g (env : Env) (gen : String → orderedSet → generator → Result)
    (z : List Token) (path : String) (h : orderedSet) (g : generator)
    (hhas : h.has path = false) :
    (generateComponent env gen z path h g).g.opts =
      (tokenizeView env gen path z (unitState.init env path h g)).2.g.opts ∧
    (generateComponent env gen z path h g).g.generated =
      (tokenizeView env gen path z (unitState.init env path h g)).2.g.generated ∧
    ((generateComponent env gen z path h g).out = .nil →
      (generateComponent env gen z path h g).g.viewsBuf =
        (tokenizeView env gen path z (unitState.init env path h g)).2.g.viewsBuf ++
          unitLines env path (componentTypeName (env.Base path))
            (tokenizeView env gen path z (unitState.init env path h g)).2) ∧
    ((generateComponent env gen z path h g).out = .nil →
      (tokenizeView env gen path z (unitState.init env path h g)).1.out = .nil) := by
  unfold generateComponent
  simp only [hhas, Bool.false_eq_true, if_false]
  split
  · rename_i out heq
    have := tokenizeView_returned_ne_nil env gen path z _ out heq
    exact ⟨rfl, rfl, fun e => absurd e this, fun e => absurd e this⟩
  · rename_i heq
    exact ⟨rfl, rfl, fun _ => rfl, fun _ => by rw [heq]; rfl⟩
  · rename_i heq
    exact ⟨rfl, rfl, fun _ => rfl, fun _ => by rw [heq]; rfl⟩
  · rename_i heq
    exact ⟨rfl, rfl, fun e => by simp at e, fun e => by simp at e⟩

theorem generateOneFile_grows (env : Env) (fuel : Nat) :
    ∀ (path : String) (h : orderedSet) (g : generator), h.WF →
      Grows env h g (generateOneFile env fuel path h g).g
        (generateOneFile env fuel path h g).out ∧
      ((generateOneFile env fuel path h g).out = .nil → path ∉ g.generated →
        ∀ z, env.open? path = some z → ∃ n, fuel = n + 1 ∧ h.has path = false ∧
          (tokenizeView env (generateOneFile env n) path z
            (unitState.init env path h g)).1.out = .nil ∧
          Grows env (h.add path) g (tokenizeView env (generateOneFile env n) path z
            (unitState.init env path h g)).2.g .nil ∧
          (generateOneFile env fuel path h g).g.generated =
            (tokenizeView env (generateOneFile env n) path z
              (unitState.init env path h g)).2.g.generated ++ [path] ∧
          (generateOneFile env fuel path h g).g.viewsBuf =
            (tokenizeView env (generateOneFile env n) path z
              (unitState.init env path h g)).2.g.viewsBuf ++
            unitLines env path (componentTypeName (env.Base path))
              (tokenizeView env (generateOneFile env n) path z
                (unitState.init env path h g)).2) := by
  induction fuel with
  | zero =>
    intro path h g _
    exact ⟨(Grows.start env h g).fail (by simp [generateOneFile]), by simp [generateOneFile]⟩
  | succ n ih =>
    intro path h g hwf
    by_cases hmem : path ∈ g.generated
    · simp only [generateOneFile, hmem, if_true]
      exact ⟨Grows.start env h g, fun _ hc => absurd trivial hc⟩
    · cases hopen : env.open? path with
      | none =>
        simp only [generateOneFile, hmem, if_false, hopen]
        exact ⟨(Grows.start env h g).fail (by simp), by simp⟩
      | some z =>
        by_cases hhas : h.has path = true
        · have hc := generateComponent_cycle env (generateOneFile env n) z path h g hhas
          simp only [generateOneFile, hmem, if_false, hopen, hc]
          exact ⟨(Grows.start env h g).fail (by simp), by simp⟩
        · have hhas : h.has path = false := by simpa using hhas
          have key := tokenizeView_inv env (generateOneFile env n) path
            (fun o g1 h1 => h1 = h.add path ∧ Grows env (h.add path) g g1 o)
            (fun p g1 h1 e => by
              obtain ⟨e1, e2⟩ := e
              subst e1
              exact ⟨generateOneFile_history env n p _ g1 (hwf.add path),
                e2.then (ih p _ g1 (hwf.add path)).1⟩)
            (fun _ _ _ e => ⟨e.1, e.2.fail (by simp)⟩)
            (fun _ _ e => ⟨e.1, e.2.fail (by simp)⟩)
            z (unitState.init env path h g) ⟨rfl, Grows.start env _ g⟩
          simp only at key
          obtain ⟨c1, c2, c3, c4⟩ := generateComponent_g env (generateOneFile env n) z path h g hhas
          have kg := key.2
          have hpath : (h.add path).has path = true :=
            (orderedSet.has_add h path path).2 (Or.inr rfl)
          have hnot : path ∉ (tokenizeView env (generateOneFile env n) path z
              (unitState.init env path h g)).2.g.generated :=
            fun hx => hmem (kg.memo.2 path hpath hx)
          have hmemo : MemoKept h g (generateComponent env (generateOneFile env n) z path h g).g := by
            refine ⟨fun x hx => by rw [c2]; exact kg.memo.1 x hx, fun x hh hx => ?_⟩
            rw [c2] at hx
            exact kg.memo.2 x ((orderedSet.has_add h path x).2 (Or.inl hh)) hx
          simp only [generateOneFile, hmem, if_false, hopen]
          split
          · rename_i hnil
            have hloop := c4 hnil
            rw [hloop] at kg
            obtain ⟨blocks, b1, b2, b3, b4⟩ := kg.compiled rfl
            have hset : setAdd (generateComponent env (generateOneFile env n) z path h g).g.generated
                path = (tokenizeView env (generateOneFile env n) path z
                  (unitState.init env path h g)).2.g.generated ++ [path] := by
              rw [c2]; simp [setAdd, hnot]
            refine ⟨⟨c1.trans kg.opts, ⟨?_, ?_⟩, fun _ => ?_⟩, fun _ _ z1 hz1 => ?_⟩
            · intro x hx
              simp only [hset]
              exact List.mem_append_left _ (kg.memo.1 x hx)
            · intro x hh hx
              simp only [hset] at hx
              rcases List.mem_append.1 hx with hx | hx
              · exact kg.memo.2 x ((orderedSet.has_add h path x).2 (Or.inl hh)) hx
              · rw [List.mem_singleton.1 hx] at hh
                rw [hhas] at hh
                exact absurd hh (by simp)
            · refine ⟨blocks ++ [(path, unitLines env path (componentTypeName (env.Base path))
                (tokenizeView env (generateOneFile env n) path z
                  (unitState.init env path h g)).2)], ?_, ?_, ?_, ?_⟩
              · simp only [hset, b1]; simp
              · simp only [c3 hnil, b2]; simp
              · intro b hb
                rcases List.mem_append.1 hb with hb | hb
                · exact b3 b hb
                · rw [List.mem_singleton.1 hb]; exact ⟨n, z, h, g, hopen, rfl⟩
              · intro hnd
                simp only [hset]
                rw [List.nodup_append]
                refine ⟨b4 hnd, List.nodup_singleton _, ?_⟩
                intro a ha ha1
                rw [List.mem_singleton.1 ha1] at ha
                exact hnot ha
            · have hz : z1 = z := by simpa using hz1.symm
              subst hz
              exact ⟨n, rfl, hhas, hloop, kg, hset, c3 hnil⟩
          · rename_i hne
            exact ⟨⟨c1.trans kg.opts, hmemo, fun e => absurd e hne⟩, fun e => absurd e hne⟩

/-! ## The locals of `generateComponent` across the loop -/

theorem mapGet_mapSet_self {α : Type} (m : List (String × α)) (k : String) (v : α) :
    mapGet (mapSet m k v) k = some v := by
  induction m with
  | nil => simp [mapSet, mapGet]
  | cons kv rest ih =>
    obtain ⟨k1, v1⟩ := kv
    by_cases e : k1 = k
    · simp [mapSet, mapGet, e]
    · simp [mapSet, mapGet, e, ih]

theorem mapGet_mapSet_ne {α : Type} (m : List (String × α)) (k k1 : String) (v : α)
    (hne : k1 ≠ k) : mapGet (mapSet m k v) k1 = mapGet m k1 := by
  induction m with
  | nil =>
    have : ¬ k = k1 := fun e => hne e.symm
    simp [mapSet, mapGet, this]
  | cons kv rest ih =>
    obtain ⟨k2, v2⟩ := kv
    by_cases e : k2 = k
    · subst e
      have : ¬ k2 = k1 := fun e => hne e.symm
      simp [mapSet, mapGet, this]
    · by_cases e1 : k2 = k1
      · subst e1
        simp [mapSet, mapGet, e]
      · simp [mapSet, mapGet, e, e1, ih]

theorem varNames.next_name (v : varNames) (kind : String) :
    (v.next kind).1 = kind ++ toString (v.count kind) := rfl

theorem varNames.next_count (v : varNames) (kind k : String) :
    (v.next kind).2.count k = if k = kind then v.count k + 1 else v.count k := by
  by_cases e : k = kind
  · subst e
    simp [varNames.next, varNames.count, mapGet_mapSet_self]
  · simp [varNames.next, varNames.count, mapGet_mapSet_ne _ _ _ _ e, e]

theorem varNames.count_le_next (v : varNames) (kind k : String) :
    v.count k ≤ (v.next kind).2.count k := by
  rw [varNames.next_count]
  split <;> omega

theorem unitState.Extends.extends_refl (a : unitState) : a.Extends a :=
  ⟨List.prefix_refl _, List.prefix_refl _, fun _ => le_refl _, fun _ _ h => h⟩

theorem unitState.Extends.extends_trans {a b c : unitState} (x : a.Extends b) (y : b.Extends c) :
    a.Extends c :=
  ⟨x.funcBuf.trans y.funcBuf, x.roots.trans y.roots,
   fun k => le_trans (x.namer k) (y.namer k), fun k e h => y.refs k e (x.refs k e h)⟩

theorem attrsFunc_rel {σ : Type} (f : String → String → σ → Outcome × σ)
    (R : σ → σ → Prop) (hrefl : ∀ c, R c c) (htrans : ∀ a b c, R a b → R b c → R a c)
    (hf : ∀ k v c, R c (f k v c).2) :
    ∀ attrs c, R c (attrsFunc f attrs c).2 := by
  intro attrs
  induction attrs with
  | nil => intro c; exact hrefl c
  | cons kv rest ih =>
    intro c
    obtain ⟨k, v⟩ := kv
    simp only [attrsFunc]
    split
    · exact htrans _ _ _ (hf k v c) (ih _)
    · exact hf k v c

theorem regularAttr_extends (path tagName varName k v : String) (st : unitState) :
    st.Extends (regularAttr path tagName varName k v st).2 := by
  unfold regularAttr
  split
  · split
    · exact unitState.Extends.extends_refl st
    · split
      · exact unitState.Extends.extends_refl st
      · rename_i hnone
        refine ⟨List.prefix_refl _, List.prefix_refl _, fun _ => le_refl _, ?_⟩
        intro k1 e h1
        have hne : k1 ≠ v := by
          rintro rfl
          rw [hnone] at h1
          simp at h1
        simp only
        rw [mapGet_mapSet_ne _ _ _ _ hne]
        exact h1
  · exact ⟨List.prefix_append _ _, List.prefix_refl _, fun _ => le_refl _, fun _ _ h => h⟩

theorem handleStartRegular_extends (attrs : List (String × String))
    (path tagName varName : String) (st : unitState) :
    st.Extends (handleStartRegular attrs path tagName varName st).2 := by
  unfold handleStartRegular
  refine unitState.Extends.extends_trans (b := { st with funcBuf := st.funcBuf ++
    [.createElement varName tagName] }) ?_ ?_
  · exact ⟨List.prefix_append _ _, List.prefix_refl _, fun _ => le_refl _, fun _ _ h => h⟩
  · exact attrsFunc_rel _ unitState.Extends (fun c => unitState.Extends.extends_refl c)
      (fun _ _ _ x y => x.extends_trans y) (fun k v c => regularAttr_extends path tagName varName k v c)
      attrs _

theorem includeAttr_extends (env : Env) (gen : String → orderedSet → generator → Result)
    (path varName k v : String) (c : includeState) :
    c.st.Extends (includeAttr env gen path varName k v c).2.st := by
  unfold includeAttr
  simp only
  split
  · exact unitState.Extends.extends_refl _
  · split
    · split
      · exact unitState.Extends.extends_refl _
      · exact unitState.Extends.extends_refl _
    · split
      · exact ⟨List.prefix_append _ _, List.prefix_refl _, fun _ => le_refl _, fun _ _ h => h⟩
      · exact ⟨List.prefix_refl _, List.prefix_refl _, fun _ => le_refl _, fun _ _ h => h⟩

theorem handleStartInclude_extends (env : Env)
    (gen : String → orderedSet → generator → Result) (attrs : List (String × String))
    (path tagName varName : String) (st : unitState) :
    st.Extends (handleStartInclude env gen attrs path tagName varName st).2 := by
  have key := attrsFunc_rel (includeAttr env gen path varName)
    (fun a b => a.st.Extends b.st) (fun c => unitState.Extends.extends_refl c.st)
    (fun _ _ _ x y => x.extends_trans y) (fun k v c => includeAttr_extends env gen path varName k v c)
    attrs { foundPathAttr := false, refAttrVal := "", includeTypeName := "", st := st }
  unfold handleStartInclude
  simp only at key ⊢
  split
  · split
    · exact key
    · split
      · split
        · exact key
        · rename_i hnone
          refine key.extends_trans ⟨List.prefix_refl _, List.prefix_refl _, fun _ => le_refl _, ?_⟩
          intro k1 e h1
          by_cases hne : k1 = (attrsFunc (includeAttr env gen path varName) attrs
              { foundPathAttr := false, refAttrVal := "", includeTypeName := "",
                st := st }).2.refAttrVal
          · rw [hne, hnone] at h1
            simp at h1
          · simp only
            rw [mapGet_mapSet_ne _ _ _ _ hne]
            exact h1
      · exact key
  · exact key

theorem handleStartToken_extends (env : Env)
    (gen : String → orderedSet → generator → Result) (attrs : List (String × String))
    (path tagName varName : String) (st : unitState) :
    st.Extends (handleStartToken env gen attrs path tagName varName st).2 := by
  unfold handleStartToken
  split
  · exact handleStartInclude_extends env gen attrs path tagName varName st
  · exact handleStartRegular_extends attrs path tagName varName st

theorem handleEndToken_extends (tagName varName : String) (st : unitState) :
    st.Extends (handleEndToken tagName varName st) := by
  unfold handleEndToken
  split
  · exact ⟨List.prefix_refl _, List.prefix_append _ _, fun _ => le_refl _, fun _ _ h => h⟩
  · split
    · exact ⟨List.prefix_append _ _, List.prefix_refl _, fun _ => le_refl _, fun _ _ h => h⟩
    · exact ⟨List.prefix_append _ _, List.prefix_refl _, fun _ => le_refl _, fun _ _ h => h⟩

theorem tokenStep_extends (env : Env) (gen : String → orderedSet → generator → Result)
    (path : String) (tok : Token) (st : unitState) :
    st.Extends (tokenStep env gen path tok st).st := by
  cases tok with
  | ErrorToken err => exact unitState.Extends.extends_refl st
  | TextToken text =>
    simp only [tokenStep]
    split
    · exact unitState.Extends.extends_refl st
    · split
      · exact unitState.Extends.extends_refl st
      · exact ⟨List.prefix_append _ _, List.prefix_refl _,
          fun k => varNames.count_le_next _ _ k, fun _ _ h => h⟩
  | StartTagToken tagName attrs =>
    simp only [tokenStep]
    have h1 : st.Extends { st with
        namer := (st.namer.next tagName).2,
        names := st.names.push ⟨tagName, (st.namer.next tagName).1⟩ } :=
      ⟨List.prefix_refl _, List.prefix_refl _, fun k => varNames.count_le_next _ _ k,
        fun _ _ h => h⟩
    split
    · exact h1
    · have h2 := handleStartToken_extends env gen attrs path tagName (st.namer.next tagName).1
        { st with namer := (st.namer.next tagName).2,
                  names := st.names.push ⟨tagName, (st.namer.next tagName).1⟩ }
      split
      · exact h1.extends_trans h2
      · exact h1.extends_trans h2
  | EndTagToken tagName =>
    simp only [tokenStep]
    split
    · exact unitState.Extends.extends_refl st
    · rename_i curr names _
      exact unitState.Extends.extends_trans (b := { st with names := names })
        ⟨List.prefix_refl _, List.prefix_refl _, fun _ => le_refl _, fun _ _ h => h⟩
        (handleEndToken_extends _ _ _)
  | SelfClosingTagToken tagName attrs =>
    simp only [tokenStep]
    have h1 : st.Extends { st with namer := (st.namer.next tagName).2 } :=
      ⟨List.prefix_refl _, List.prefix_refl _, fun k => varNames.count_le_next _ _ k,
        fun _ _ h => h⟩
    have h2 := handleStartToken_extends env gen attrs path tagName (st.namer.next tagName).1
        { st with namer := (st.namer.next tagName).2 }
    split
    · exact (h1.extends_trans h2).extends_trans (handleEndToken_extends _ _ _)
    · exact h1.extends_trans h2
  | CommentToken text => exact unitState.Extends.extends_refl st
  | DoctypeToken text => exact unitState.Extends.extends_refl st

theorem tokenizeView_extends (env : Env) (gen : String → orderedSet → generator → Result)
    (path : String) (z : List Token) :
    ∀ (st : unitState), st.Extends (tokenizeView env gen path z st).2 := by
  induction z with
  | nil => intro st; exact unitState.Extends.extends_refl st
  | cons tok z ih =>
    intro st
    have h1 := tokenStep_extends env gen path tok st
    simp only [tokenizeView]
    split
    · rename_i st1 heq
      rw [heq] at h1
      exact h1.extends_trans (ih st1)
    · rename_i st1 heq
      rw [heq] at h1
      exact h1
    · rename_i out st1 heq
      rw [heq] at h1
      exact h1

/-! ## An include directive that is processed -/

theorem generateOneFile_ok (env : Env) (n : Nat) (h1 : orderedSet) (hwf : h1.WF) :
    GenOK env (generateOneFile env n) h1 :=
  ⟨fun p g1 => generateOneFile_history env n p h1 g1 hwf,
   fun p g1 => (generateOneFile_grows env n p h1 g1 hwf).1,
   fun p g1 => (generateOneFile_memo env n p h1 g1 hwf).2.1⟩

theorem tokenizeView_grows (env : Env) (gen : String → orderedSet → generator → Result)
    (path : String) (h1 : orderedSet) (hgen : GenOK env gen h1) (g : generator)
    (z : List Token) (st : unitState) (hh : st.history = h1)
    (hg : Grows env h1 g st.g .nil) :
    (tokenizeView env gen path z st).2.history = h1 ∧
    Grows env h1 g (tokenizeView env gen path z st).2.g (tokenizeView env gen path z st).1.out :=
  tokenizeView_inv env gen path (fun o g1 h2 => h2 = h1 ∧ Grows env h1 g g1 o)
    (fun p g1 h2 e => by
      obtain ⟨e1, e2⟩ := e
      subst e1
      exact ⟨hgen.history p g1, e2.then (hgen.grows p g1)⟩)
    (fun _ _ _ e => ⟨e.1, e.2.fail (by simp)⟩)
    (fun _ _ e => ⟨e.1, e.2.fail (by simp)⟩) z st ⟨hh, hg⟩

theorem includeAttrs_success (env : Env) (gen : String → orderedSet → generator → Result)
    (path varName : String) (h1 : orderedSet) (hgen : GenOK env gen h1) :
    ∀ (attrs : List (String × String)) (c c1 : includeState), c.st.history = h1 →
      attrsFunc (includeAttr env gen path varName) attrs c = (.nil, c1) →
      c1.st.history = h1 ∧ Grows env h1 c.st.g c1.st.g .nil ∧
      ∀ v, ("path", v) ∈ attrs →
        Line.construct varName (constructorFuncName env (componentTypeName
          (env.Base (includePath env c.st.g.opts.Root path v)))) ∈ c1.st.funcBuf ∧
        includePath env c.st.g.opts.Root path v ∈ c1.st.g.generated := by
  intro attrs
  induction attrs with
  | nil =>
    intro c c1 hh hr
    simp only [attrsFunc, Prod.mk.injEq, true_and] at hr
    subst hr
    exact ⟨hh, Grows.start env _ _, by simp⟩
  | cons kv rest ih =>
    intro c c1 hh hr
    obtain ⟨k, v⟩ := kv
    simp only [attrsFunc] at hr
    split at hr
    swap
    · rename_i hne
      rw [hr] at hne
      exact absurd rfl hne
    rename_i hnil
    -- the state after the first attribute
    have hstep : (includeAttr env gen path varName k v c).2.st.history = h1 ∧
        Grows env h1 c.st.g (includeAttr env gen path varName k v c).2.st.g .nil ∧
        (k = "path" →
          Line.construct varName (constructorFuncName env (componentTypeName
            (env.Base (includePath env c.st.g.opts.Root path v)))) ∈
              (includeAttr env gen path varName k v c).2.st.funcBuf ∧
          includePath env c.st.g.opts.Root path v ∈
            (includeAttr env gen path varName k v c).2.st.g.generated) := by
      unfold includeAttr at hnil ⊢
      simp only at hnil ⊢
      by_cases h1c : (!equalsRef k && !equalsPath k) = true
      · rw [if_pos h1c] at hnil
        simp at hnil
      · rw [if_neg h1c] at hnil ⊢
        by_cases h2c : equalsRef k = true
        · rw [if_pos h2c] at hnil ⊢
          have hkp : k ≠ "path" := by
            rintro rfl
            exact absurd h2c (by decide)
          by_cases h3c : (isDisallowedRefName v).1 = true
          · rw [if_pos h3c] at hnil
            simp at hnil
          · rw [if_neg h3c]
            exact ⟨hh, Grows.start env _ _, fun e => absurd e hkp⟩
        · rw [if_neg h2c] at hnil ⊢
          by_cases hout : (gen (includePath env c.st.g.opts.Root path v) c.st.history c.st.g).out
              = .nil
          · rw [if_pos hout]
            have hg := hgen.grows (includePath env c.st.g.opts.Root path v) c.st.g
            rw [hh] at hout ⊢
            rw [hout] at hg
            exact ⟨hgen.history _ _, hg, fun _ => ⟨by simp, hgen.memoized _ _ hout⟩⟩
          · rw [if_neg hout] at hnil
            exact absurd hnil hout
    obtain ⟨s1, s2, s3⟩ := hstep
    obtain ⟨i1, i2, i3⟩ := ih _ c1 s1 hr
    refine ⟨i1, s2.then i2, ?_⟩
    intro v1 hv1
    rcases List.mem_cons.1 hv1 with hv1 | hv1
    · simp only [Prod.mk.injEq] at hv1
      obtain ⟨e1, e2⟩ := hv1
      subst e2
      obtain ⟨t1, t2⟩ := s3 e1.symm
      have hext := attrsFunc_rel (includeAttr env gen path varName)
        (fun a b => a.st.Extends b.st) (fun c => unitState.Extends.extends_refl c.st)
        (fun _ _ _ x y => x.extends_trans y)
        (fun k v c => includeAttr_extends env gen path varName k v c) rest
        (includeAttr env gen path varName k v1 c).2
      rw [hr] at hext
      exact ⟨hext.funcBuf.subset t1, i2.memo.1 _ t2⟩
    · have := i3 v1 hv1
      rw [s2.opts] at this
      exact this

theorem handleStartInclude_success (env : Env)
    (gen : String → orderedSet → generator → Result) (path tagName varName : String)
    (h1 : orderedSet) (hgen : GenOK env gen h1) (attrs : List (String × String))
    (st : unitState) (hh : st.history = h1)
    (hnil : (handleStartInclude env gen attrs path tagName varName st).1 = .nil) :
    ∀ v, ("path", v) ∈ attrs →
      Line.construct varName (constructorFuncName env (componentTypeName
        (env.Base (includePath env st.g.opts.Root path v)))) ∈
          (handleStartInclude env gen attrs path tagName varName st).2.funcBuf ∧
      includePath env st.g.opts.Root path v ∈
        (handleStartInclude env gen attrs path tagName varName st).2.g.generated := by
  cases hr : attrsFunc (includeAttr env gen path varName) attrs
    { foundPathAttr := false, refAttrVal := "", includeTypeName := "", st := st } with
  | mk o c1 =>
    unfold handleStartInclude at hnil ⊢
    simp only [hr] at hnil ⊢
    split at hnil
    swap
    · rename_i hne
      exact absurd hnil hne
    rename_i ho
    subst ho
    have key := (includeAttrs_success env gen path varName h1 hgen attrs _ c1 hh hr).2.2
    simp only [if_true]
    split at hnil
    · simp at hnil
    · rename_i hf
      rw [if_neg hf]
      split at hnil
      · rename_i hv
        rw [if_pos hv]
        split at hnil
        · simp at hnil
        · exact key
      · rename_i hv
        rw [if_neg hv]
        exact key

theorem include_site (env : Env) (gen : String → orderedSet → generator → Result)
    (path : String) (h1 : orderedSet) (hgen : GenOK env gen h1)
    (tok : Token) (attrs : List (String × String)) (v : String)
    (htok : tok = .StartTagToken "include" attrs ∨ tok = .SelfClosingTagToken "include" attrs)
    (hv : ("path", v) ∈ attrs) (st st1 : unitState) (hh : st.history = h1)
    (hstep : tokenStep env gen path tok st = .next st1) :
    Line.construct (st.namer.next "include").1 (constructorFuncName env (componentTypeName
      (env.Base (includePath env st.g.opts.Root path v)))) ∈ st1.funcBuf ∧
    includePath env st.g.opts.Root path v ∈ st1.g.generated ∧
    st.namer.count "include" + 1 ≤ st1.namer.count "include" := by
  have hcount : ((st.namer.next "include").2).count "include" = st.namer.count "include" + 1 := by
    rw [varNames.next_count]; simp
  rcases htok with rfl | rfl
  · have hns : ¬ ("include" = "style" ∧ st.names.len = 0) := fun h => absurd h.1 (by decide)
    simp only [tokenStep, handleStartToken, if_neg hns, if_true] at hstep
    split at hstep
    swap
    · simp at hstep
    rename_i hnil
    simp only [Step.next.injEq] at hstep
    have hs := handleStartInclude_success env gen path "include" (st.namer.next "include").1 h1
      hgen attrs { st with namer := (st.namer.next "include").2,
                           names := st.names.push ⟨"include", (st.namer.next "include").1⟩ }
      hh hnil v hv
    have he := handleStartInclude_extends env gen attrs path "include"
      (st.namer.next "include").1
      { st with namer := (st.namer.next "include").2,
                names := st.names.push ⟨"include", (st.namer.next "include").1⟩ }
    rw [hstep] at hs he
    refine ⟨hs.1, hs.2, ?_⟩
    have := he.namer "include"
    simp only [hcount] at this
    exact this
  · simp only [tokenStep, handleStartToken, if_true] at hstep
    split at hstep
    swap
    · simp at hstep
    rename_i hnil
    simp only [Step.next.injEq] at hstep
    have hs := handleStartInclude_success env gen path "include" (st.namer.next "include").1 h1
      hgen attrs { st with namer := (st.namer.next "include").2 } hh hnil v hv
    have he := handleStartInclude_extends env gen attrs path "include"
      (st.namer.next "include").1 { st with namer := (st.namer.next "include").2 }
    have hend := handleEndToken_extends "include" (st.namer.next "include").1
      (handleStartInclude env gen attrs path "include" (st.namer.next "include").1
        { st with namer := (st.namer.next "include").2 }).2
    have hendg := handleEndToken_g "include" (st.namer.next "include").1
      (handleStartInclude env gen attrs path "include" (st.namer.next "include").1
        { st with namer := (st.namer.next "include").2 }).2
    rw [hstep] at hend hendg
    refine ⟨hend.funcBuf.subset hs.1, by rw [hendg.1]; exact hs.2, ?_⟩
    have := (he.extends_trans hend).namer "include"
    simp only [hcount] at this
    exact this

/-- An include directive that the loop reaches and passes leaves its constructor
call in the code of the unit and its unit in the memoization set. -/
theorem include_site_final (env : Env) (gen : String → orderedSet → generator → Result)
    (path : String) (h1 : orderedSet) (hgen : GenOK env gen h1) (g : generator)
    (tok : Token) (attrs : List (String × String)) (v : String)
    (htok : tok = .StartTagToken "include" attrs ∨ tok = .SelfClosingTagToken "include" attrs)
    (hv : ("path", v) ∈ attrs) (pre rest : List Token) (st0 st : unitState)
    (hh : st0.history = h1) (hg : Grows env h1 g st0.g .nil)
    (hpre : tokenizeView env gen path pre st0 = (.eof, st))
    (hok : (tokenizeView env gen path (pre ++ tok :: rest) st0).1.out = .nil) :
    Line.construct (st.namer.next "include").1 (constructorFuncName env (componentTypeName
      (env.Base (includePath env g.opts.Root path v)))) ∈
        (tokenizeView env gen path (pre ++ tok :: rest) st0).2.funcBuf ∧
    includePath env g.opts.Root path v ∈
      (tokenizeView env gen path (pre ++ tok :: rest) st0).2.g.generated ∧
    ∃ st1, tokenStep env gen path tok st = .next st1 ∧
      st.namer.count "include" + 1 ≤ st1.namer.count "include" := by
  have k1 := tokenizeView_grows env gen path h1 hgen g pre st0 hh hg
  rw [hpre] at k1
  obtain ⟨k1h, k1g⟩ := k1
  simp only [LoopExit.out] at k1g
  rw [tokenizeView_append env gen path pre _ st0 st hpre] at hok ⊢
  cases hstep : tokenStep env gen path tok st with
  | next st1 =>
    obtain ⟨a1, a2, a3⟩ := include_site env gen path h1 hgen tok attrs v htok hv st st1 k1h hstep
    rw [k1g.opts] at a1 a2
    have hst1h : st1.history = h1 := by
      have := tokenStep_inv env gen path (fun _ _ h2 => h2 = h1)
        (fun p g1 h2 e => by subst e; exact hgen.history p g1) (fun _ _ _ e => e)
        (fun _ _ e => e) tok st k1h
      rw [hstep] at this
      exact this
    have hst1g : Grows env h1 st1.g st1.g .nil := Grows.start env _ _
    have k2 := tokenizeView_grows env gen path h1 hgen st1.g rest st1 hst1h hst1g
    have he := tokenizeView_extends env gen path rest st1
    simp only [tokenizeView, hstep]
    exact ⟨he.funcBuf.subset a1, k2.2.memo.1 _ a2, st1, rfl, a3⟩
  | enterStyle st1 =>
    rcases htok with rfl | rfl
    · have hns : ¬ ("include" = "style" ∧ st.names.len = 0) := fun h => absurd h.1 (by decide)
      simp only [tokenStep, if_neg hns] at hstep
      split at hstep <;> simp at hstep
    · simp only [tokenStep] at hstep
      split at hstep <;> simp at hstep
  | stop out st1 =>
    have := tokenStep_stop_ne_nil env gen path tok st st1 out hstep
    simp only [tokenizeView, hstep, LoopExit.out] at hok
    exact absurd hok this

theorem mem_unitLines (env : Env) (path typeName : String) (st : unitState) (l : Line)
    (h : l ∈ st.funcBuf) : l ∈ unitLines env path typeName st := by
  simp [unitLines, h]

/-- The claim as stated fails when the directives follow a top-level style block:
`e.html` compiles, and neither the unit `d.html` nor a call of its constructor is
written. -/
theorem C4_counterexample :
    (generateOneFile (Env.sample styleFirstFiles) 2 "e.html" newOrderedSet
      (startGenerator ⟨"ui", "/"⟩)).out = .nil ∧
    (generateOneFile (Env.sample styleFirstFiles) 2 "e.html" newOrderedSet
      (startGenerator ⟨"ui", "/"⟩)).g.viewsBuf =
      [.header "ui", .sourceComment "e.html", .typeOpen "e", .rootsField, .typeClose,
       .funcOpen "newE" "e", .returnOpen "e", .rootsInit [], .returnClose, .funcClose] := by
  decide

/-! ## Disallowed ref names -/

theorem isDisallowedRefName_iff (v : String) :
    (isDisallowedRefName v).1 = true ↔ (IsKeyword v = true ∨ v = "roots") := by
  unfold isDisallowedRefName
  split
  · rename_i hk; simp [hk]
  · rename_i hk; simp [hk]

theorem attrsFunc_fail_of_mem {σ : Type} (f : String → String → σ → Outcome × σ)
    (k v : String) (hf : ∀ c, (f k v c).1 ≠ .nil) :
    ∀ (attrs : List (String × String)) (c : σ), (k, v) ∈ attrs →
      (attrsFunc f attrs c).1 ≠ .nil := by
  intro attrs
  induction attrs with
  | nil => intro c h; simp at h
  | cons kv rest ih =>
    intro c h
    obtain ⟨k1, v1⟩ := kv
    simp only [attrsFunc]
    split
    · rename_i hn
      rcases List.mem_cons.1 h with h | h
      · simp only [Prod.mk.injEq] at h
        rw [← h.1, ← h.2] at hn
        exact absurd hn (hf c)
      · exact ih _ h
    · rename_i hn
      exact hn

theorem regularAttr_disallowed (path tagName varName v : String) (st : unitState)
    (hbad : (isDisallowedRefName v).1 = true) :
    (regularAttr path tagName varName "ref" v st).1 ≠ .nil := by
  have e : equalsRef "ref" = true := by decide
  simp [regularAttr, e, hbad]

theorem includeAttr_disallowed (env : Env) (gen : String → orderedSet → generator → Result)
    (path varName v : String) (c : includeState)
    (hbad : (isDisallowedRefName v).1 = true) :
    (includeAttr env gen path varName "ref" v c).1 ≠ .nil := by
  have e : equalsRef "ref" = true := by decide
  simp [includeAttr, e, hbad]

theorem handleStartToken_disallowed (env : Env)
    (gen : String → orderedSet → generator → Result) (attrs : List (String × String))
    (path tagName varName v : String) (st : unitState) (hv : ("ref", v) ∈ attrs)
    (hbad : (isDisallowedRefName v).1 = true) :
    (handleStartToken env gen attrs path tagName varName st).1 ≠ .nil := by
  unfold handleStartToken
  split
  · have := attrsFunc_fail_of_mem (includeAttr env gen path varName) "ref" v
      (fun c => includeAttr_disallowed env gen path varName v c hbad) attrs
      { foundPathAttr := false, refAttrVal := "", includeTypeName := "", st := st } hv
    unfold handleStartInclude
    simp only [this, if_false]
    exact this
  · unfold handleStartRegular
    exact attrsFunc_fail_of_mem (regularAttr path tagName varName) "ref" v
      (fun c => regularAttr_disallowed path tagName varName v c hbad) attrs _ hv

/-- A plain tag fails only with an `Error` of the unit. -/
theorem handleStartRegular_error (attrs : List (String × String))
    (path tagName varName : String) (st : unitState) :
    (handleStartRegular attrs path tagName varName st).1 = .nil ∨
    ∃ c, (handleStartRegular attrs path tagName varName st).1 = .error (.Error path c) := by
  unfold handleStartRegular
  refine attrsFunc_inv (regularAttr path tagName varName)
    (fun o _ => o = .nil ∨ ∃ c, o = .error (.Error path c)) ?_ attrs _ (Or.inl rfl)
  intro k v c _
  unfold regularAttr
  split
  · split
    · exact Or.inr ⟨_, rfl⟩
    · split
      · exact Or.inr ⟨_, rfl⟩
      · exact Or.inl rfl
  · exact Or.inl rfl

theorem tokenizeView_append_returned (env : Env)
    (gen : String → orderedSet → generator → Result) (path : String) (pre z : List Token) :
    ∀ (st st1 : unitState) (out : Outcome),
      tokenizeView env gen path pre st = (.returned out, st1) →
      tokenizeView env gen path (pre ++ z) st = (.returned out, st1) := by
  induction pre with
  | nil => intro st st1 out h; simp [tokenizeView] at h
  | cons tok pre ih =>
    intro st st1 out h
    simp only [tokenizeView, List.cons_append] at h ⊢
    split at h
    · exact ih _ _ _ h
    · simp at h
    · exact h

theorem generateComponent_returned (env : Env)
    (gen : String → orderedSet → generator → Result) (z : List Token) (path : String)
    (h : orderedSet) (g : generator) (out : Outcome) (hhas : h.has path = false)
    (hr : (tokenizeView env gen path z (unitState.init env path h g)).1 = .returned out) :
    (generateComponent env gen z path h g).out = out := by
  unfold generateComponent
  simp only [hhas, Bool.false_eq_true, if_false]
  split
  · rename_i out1 heq
    rw [heq] at hr
    simpa using hr
  · rename_i heq; rw [heq] at hr; simp at hr
  · rename_i heq; rw [heq] at hr; simp at hr
  · rename_i heq; rw [heq] at hr; simp at hr

/-- **C5 (as amended).** A start tag or self-closing tag whose `ref` attribute is
a Go keyword or `roots` makes the compilation of its unit end without success,
whatever the tag name and the nesting depth, provided the token loop gets to
process the tag: the loop has not stopped at a top-level style start tag before
it, and the tag is not itself a top-level style start tag.  When the loop reaches
such a tag and its name is not `include`, the compilation returns an `Error` of
the unit. -/
theorem C5_disallowed_ref (env : Env) (gen : String → orderedSet → generator → Result)
    (z : List Token) (path : String) (h : orderedSet) (g : generator)
    (pre rest : List Token) (tok : Token) (tagName : String)
    (attrs : List (String × String)) (v : String)
    (hz : z = pre ++ tok :: rest)
    (htok : tok = .StartTagToken tagName attrs ∨ tok = .SelfClosingTagToken tagName attrs)
    (hv : ("ref", v) ∈ attrs) (hbad : IsKeyword v = true ∨ v = "roots")
    (hpre : (tokenizeView env gen path pre (unitState.init env path h g)).1.isInsideStyle
      = false)
    (htop : (tokenizeView env gen path pre (unitState.init env path h g)).1 = .eof →
      ¬ (tok.isStyleStart = true ∧
        (tokenizeView env gen path pre (unitState.init env path h g)).2.names.len = 0)) :
    (generateComponent env gen z path h g).out ≠ .nil ∧
    ((tokenizeView env gen path pre (unitState.init env path h g)).1 = .eof →
      h.has path = false → tagName ≠ "include" →
      ∃ c, (generateComponent env gen z path h g).out = .error (.Error path c)) := by
  have hbad1 := (isDisallowedRefName_iff v).2 hbad
  by_cases hhas : h.has path = true
  · rw [generateComponent_cycle env gen z path h g hhas]
    exact ⟨by simp, fun _ hc => by rw [hhas] at hc; simp at hc⟩
  have hhas : h.has path = false := by simpa using hhas
  subst hz
  cases hloop : tokenizeView env gen path pre (unitState.init env path h g) with
  | mk ex st =>
    rw [hloop] at hpre htop
    cases ex with
    | insideStyle zz => simp [LoopExit.isInsideStyle] at hpre
    | returned out =>
      have h1 := tokenizeView_append_returned env gen path pre (tok :: rest) _ _ _ hloop
      have h2 := generateComponent_returned env gen (pre ++ tok :: rest) path h g out hhas
        (by rw [h1])
      have h3 := tokenizeView_returned_ne_nil env gen path pre _ out (by rw [hloop])
      rw [h2]
      exact ⟨h3, fun hc => by simp at hc⟩
    | eof =>
      have htop := htop rfl
      have happ := tokenizeView_append env gen path pre (tok :: rest) _ st hloop
      -- the step at the tag stops the loop
      have hstep : ∃ out st1, tokenStep env gen path tok st = .stop out st1 ∧ out ≠ .nil ∧
          (tagName ≠ "include" → ∃ c, out = .error (.Error path c)) := by
        rcases htok with rfl | rfl
        · have hns : ¬ (tagName = "style" ∧ st.names.len = 0) := by
            simpa [Token.isStyleStart] using htop
          have hne := handleStartToken_disallowed env gen attrs path tagName
            (st.namer.next tagName).1 v
            { st with namer := (st.namer.next tagName).2,
                      names := st.names.push ⟨tagName, (st.namer.next tagName).1⟩ } hv hbad1
          refine ⟨(handleStartToken env gen attrs path tagName (st.namer.next tagName).1
            { st with namer := (st.namer.next tagName).2,
                      names := st.names.push ⟨tagName, (st.namer.next tagName).1⟩ }).1,
            (handleStartToken env gen attrs path tagName (st.namer.next tagName).1
            { st with namer := (st.namer.next tagName).2,
                      names := st.names.push ⟨tagName, (st.namer.next tagName).1⟩ }).2,
            by simp only [tokenStep, if_neg hns, if_neg hne], hne, ?_⟩
          intro hinc
          have := handleStartRegular_error attrs path tagName (st.namer.next tagName).1
            { st with namer := (st.namer.next tagName).2,
                      names := st.names.push ⟨tagName, (st.namer.next tagName).1⟩ }
          simp only [handleStartToken, if_neg hinc] at hne ⊢
          rcases this with this | this
          · exact absurd this hne
          · exact this
        · have hne := handleStartToken_disallowed env gen attrs path tagName
            (st.namer.next tagName).1 v { st with namer := (st.namer.next tagName).2 } hv hbad1
          refine ⟨(handleStartToken env gen attrs path tagName (st.namer.next tagName).1
              { st with namer := (st.namer.next tagName).2 }).1,
            (handleStartToken env gen attrs path tagName (st.namer.next tagName).1
              { st with namer := (st.namer.next tagName).2 }).2,
            by simp only [tokenStep, if_neg hne], hne, ?_⟩
          intro hinc
          have := handleStartRegular_error attrs path tagName (st.namer.next tagName).1
            { st with namer := (st.namer.next tagName).2 }
          simp only [handleStartToken, if_neg hinc] at hne ⊢
          rcases this with this | this
          · exact absurd this hne
          · exact this
      obtain ⟨out, st1, hs, hne, herr⟩ := hstep
      have hfull : (tokenizeView env gen path (pre ++ tok :: rest)
          (unitState.init env path h g)).1 = .returned out := by
        rw [happ]; simp only [tokenizeView, hs]
      have h2 := generateComponent_returned env gen (pre ++ tok :: rest) path h g out hhas hfull
      rw [h2]
      exact ⟨hne, fun _ _ hinc => herr hinc⟩

theorem C5_disallowed_ref_witness :
    (generateComponent (Env.sample []) (generateOneFile (Env.sample []) 0)
      [.StartTagToken "div" [], .SelfClosingTagToken "img" [("src", "x.png"), ("ref", "func")],
       .EndTagToken "div"] "g.html" newOrderedSet (startGenerator ⟨"ui", "/"⟩)).out ≠ .nil ∧
    ((tokenizeView (Env.sample []) (generateOneFile (Env.sample []) 0) "g.html"
        [.StartTagToken "div" []]
        (unitState.init (Env.sample []) "g.html" newOrderedSet
          (startGenerator ⟨"ui", "/"⟩))).1 = .eof →
      newOrderedSet.has "g.html" = false → "img" ≠ "include" →
      ∃ c, (generateComponent (Env.sample []) (generateOneFile (Env.sample []) 0)
        [.StartTagToken "div" [], .SelfClosingTagToken "img" [("src", "x.png"), ("ref", "func")],
         .EndTagToken "div"] "g.html" newOrderedSet (startGenerator ⟨"ui", "/"⟩)).out =
        .error (.Error "g.html" c)) :=
  C5_disallowed_ref (Env.sample []) (generateOneFile (Env.sample []) 0)
    [.StartTagToken "div" [], .SelfClosingTagToken "img" [("src", "x.png"), ("ref", "func")],
     .EndTagToken "div"] "g.html" newOrderedSet (startGenerator ⟨"ui", "/"⟩)
    [.StartTagToken "div" []] [.EndTagToken "div"]
    (.SelfClosingTagToken "img" [("src", "x.png"), ("ref", "func")]) "img"
    [("src", "x.png"), ("ref", "func")] "func" rfl (Or.inr rfl) (by decide)
    (Or.inl (by decide)) (by decide) (by decide)

/-- The claim as stated fails at a top-level style start tag, whose attributes are
never looked at, and for every tag after it, which the loop does not reach:
`<style ref="func">a{}</style>` and `<style>a{}</style><div ref="func"></div>`
compile. -/
theorem C5_counterexample :
    IsKeyword "func" = true ∧
    (Generate (Env.sample styleRefFiles) ["f.html"] ⟨"ui", "/"⟩).err = .nil ∧
    (generateComponent (Env.sample []) (generateOneFile (Env.sample []) 0)
      [.StartTagToken "style" [("ref", "func")], .TextToken "a{}", .EndTagToken "style"]
      "f.html" newOrderedSet (startGenerator ⟨"ui", "/"⟩)).out = .nil ∧
    (generateComponent (Env.sample []) (generateOneFile (Env.sample []) 0)
      [.StartTagToken "style" [], .TextToken "a{}", .EndTagToken "style",
       .StartTagToken "div" [("ref", "func")], .EndTagToken "div"]
      "f.html" newOrderedSet (startGenerator ⟨"ui", "/"⟩)).out = .nil := by
  decide

/-! ## Ref entries -/

theorem equalsRef_iff (k : String) : equalsRef k = true ↔ k = "ref" := by
  unfold equalsRef
  constructor
  · intro h
    have h1 : k.data = ['r', 'e', 'f'] := by simpa using h
    exact String.ext h1
  · rintro rfl
    decide

theorem equalsPath_iff (k : String) : equalsPath k = true ↔ k = "path" := by
  unfold equalsPath
  constructor
  · intro h
    have h1 : k.data = ['p', 'a', 't', 'h'] := by simpa using h
    exact String.ext h1
  · rintro rfl
    decide

/-- What a successfully processed attribute of an include directive does to the
variables of the closure. -/
theorem includeAttr_nil (env : Env) (gen : String → orderedSet → generator → Result)
    (path varName k v : String) (c : includeState)
    (hnil : (includeAttr env gen path varName k v c).1 = .nil) :
    (includeAttr env gen path varName k v c).2.st.refs = c.st.refs ∧
    (includeAttr env gen path varName k v c).2.refAttrVal =
      (if equalsRef k then v else c.refAttrVal) ∧
    (c.foundPathAttr = true ∨ k = "path" →
      (includeAttr env gen path varName k v c).2.foundPathAttr = true) := by
  unfold includeAttr at hnil ⊢
  simp only at hnil ⊢
  by_cases h1c : (!equalsRef k && !equalsPath k) = true
  · rw [if_pos h1c] at hnil
    simp at hnil
  · rw [if_neg h1c] at hnil ⊢
    by_cases h2c : equalsRef k = true
    · rw [if_pos h2c] at hnil ⊢
      have hkp : k ≠ "path" := by
        rintro rfl
        exact absurd h2c (by decide)
      by_cases h3c : (isDisallowedRefName v).1 = true
      · rw [if_pos h3c] at hnil
        simp at hnil
      · rw [if_neg h3c]
        refine ⟨rfl, by simp [h2c], ?_⟩
        rintro (h | h)
        · exact h
        · exact absurd h hkp
    · rw [if_neg h2c] at hnil ⊢
      split
      · exact ⟨rfl, by simp [h2c], fun _ => rfl⟩
      · rename_i hout
        rw [if_neg hout] at hnil
        exact absurd hnil hout

theorem includeAttrs_nil (env : Env) (gen : String → orderedSet → generator → Result)
    (path varName : String) :
    ∀ (attrs : List (String × String)) (c c1 : includeState),
      attrsFunc (includeAttr env gen path varName) attrs c = (.nil, c1) →
      c1.st.refs = c.st.refs ∧ c1.refAttrVal = lastRefAttr attrs c.refAttrVal ∧
      (c.foundPathAttr = true ∨ (∃ p, ("path", p) ∈ attrs) → c1.foundPathAttr = true) := by
  intro attrs
  induction attrs with
  | nil =>
    intro c c1 hr
    simp only [attrsFunc, Prod.mk.injEq, true_and] at hr
    subst hr
    refine ⟨rfl, rfl, ?_⟩
    rintro (h | ⟨p, h⟩)
    · exact h
    · simp at h
  | cons kv rest ih =>
    intro c c1 hr
    obtain ⟨k, v⟩ := kv
    simp only [attrsFunc] at hr
    split at hr
    swap
    · rename_i hne
      rw [hr] at hne
      exact absurd rfl hne
    rename_i hnil
    obtain ⟨a1, a2, a3⟩ := includeAttr_nil env gen path varName k v c hnil
    obtain ⟨b1, b2, b3⟩ := ih _ c1 hr
    refine ⟨b1.trans a1, ?_, ?_⟩
    · rw [b2, a2]; rfl
    · rintro (h | ⟨p, h⟩)
      · exact b3 (Or.inl (a3 (Or.inl h)))
      · rcases List.mem_cons.1 h with h | h
        · simp only [Prod.mk.injEq] at h
          exact b3 (Or.inl (a3 (Or.inr h.1.symm)))
        · exact b3 (Or.inr ⟨p, h⟩)

/-- An include directive that is processed without error and whose last `ref`
attribute is not empty has entered it in the ref map, under its tag name. -/
theorem handleStartInclude_registers (env : Env)
    (gen : String → orderedSet → generator → Result) (attrs : List (String × String))
    (path tagName varName v : String) (st : unitState)
    (hnil : (handleStartInclude env gen attrs path tagName varName st).1 = .nil)
    (hv : lastRefAttr attrs "" = v) (hne : v ≠ "") :
    ∃ e, mapGet (handleStartInclude env gen attrs path tagName varName st).2.refs v = some e ∧
      e.TagName = tagName := by
  cases hr : attrsFunc (includeAttr env gen path varName) attrs
    { foundPathAttr := false, refAttrVal := "", includeTypeName := "", st := st } with
  | mk o c1 =>
    unfold handleStartInclude at hnil ⊢
    simp only [hr] at hnil ⊢
    by_cases ho : o = .nil
    · subst ho
      obtain ⟨_, a2, _⟩ := includeAttrs_nil env gen path varName attrs _ c1 hr
      simp only at a2
      rw [hv] at a2
      rw [if_pos rfl] at hnil ⊢
      by_cases hf : (!c1.foundPathAttr) = true
      · rw [if_pos hf] at hnil
        simp at hnil
      · rw [if_neg hf] at hnil ⊢
        have hv1 : c1.refAttrVal ≠ "" := by rw [a2]; exact hne
        rw [if_pos hv1] at hnil ⊢
        cases hget : mapGet c1.st.refs c1.refAttrVal with
        | some ex =>
          rw [hget] at hnil
          simp at hnil
        | none =>
          simp only
          rw [← a2]
          exact ⟨_, mapGet_mapSet_self _ _ _, rfl⟩
    · rw [if_neg ho] at hnil
      exact absurd hnil ho

/-- A plain tag that is processed without error has entered each of its `ref`
attributes in the ref map, under its tag name. -/
theorem regularAttrs_registers (path tagName varName : String) :
    ∀ (attrs : List (String × String)) (st st1 : unitState),
      attrsFunc (regularAttr path tagName varName) attrs st = (.nil, st1) →
      ∀ v, ("ref", v) ∈ attrs →
        ∃ e, mapGet st1.refs v = some e ∧ e.TagName = tagName := by
  intro attrs
  induction attrs with
  | nil => intro st st1 _ v hv; simp at hv
  | cons kv rest ih =>
    intro st st1 hr v hv
    obtain ⟨k, v1⟩ := kv
    simp only [attrsFunc] at hr
    split at hr
    swap
    · rename_i hne
      rw [hr] at hne
      exact absurd rfl hne
    rename_i hnil
    rcases List.mem_cons.1 hv with hv | hv
    · simp only [Prod.mk.injEq] at hv
      obtain ⟨e1, e2⟩ := hv
      subst e1 e2
      have hreg : ∃ e, mapGet (regularAttr path tagName varName "ref" v st).2.refs v = some e ∧
          e.TagName = tagName := by
        have e : equalsRef "ref" = true := by decide
        unfold regularAttr at hnil ⊢
        rw [if_pos e] at hnil ⊢
        by_cases hd : (isDisallowedRefName v).1 = true
        · rw [if_pos hd] at hnil
          simp at hnil
        · rw [if_neg hd] at hnil ⊢
          cases hget : mapGet st.refs v with
          | some ex =>
            rw [hget] at hnil
            simp at hnil
          | none =>
            simp only
            exact ⟨_, mapGet_mapSet_self _ _ _, rfl⟩
      obtain ⟨e, he, ht⟩ := hreg
      have hext := attrsFunc_rel (regularAttr path tagName varName) unitState.Extends
        (fun c => unitState.Extends.extends_refl c) (fun _ _ _ x y => x.extends_trans y)
        (fun k v c => regularAttr_extends path tagName varName k v c) rest
        (regularAttr path tagName varName "ref" v st).2
      rw [hr] at hext
      exact ⟨e, hext.refs v e he, ht⟩
    · exact ih _ st1 hr v hv

theorem handleStartRegular_registers (attrs : List (String × String))
    (path tagName varName v : String) (st : unitState)
    (hnil : (handleStartRegular attrs path tagName varName st).1 = .nil)
    (hv : ("ref", v) ∈ attrs) :
    ∃ e, mapGet (handleStartRegular attrs path tagName varName st).2.refs v = some e ∧
      e.TagName = tagName := by
  unfold handleStartRegular at hnil ⊢
  exact regularAttrs_registers path tagName varName attrs _ _
    (Prod.ext hnil rfl) v hv

/-- A `ref` attribute of a plain tag whose value is in the ref map fails with the
error that names the tag of the entry. -/
theorem handleStartRegular_repeated (apre arest : List (String × String))
    (path tagName varName v : String) (st : unitState) (ex : tagAndVarAndTypeName)
    (hget : mapGet st.refs v = some ex) (hok : (isDisallowedRefName v).1 = false)
    (hpre : (handleStartRegular apre path tagName varName st).1 = .nil) :
    (handleStartRegular (apre ++ ("ref", v) :: arest) path tagName varName st).1 =
      .error (.Error path (errRepeatedRefName v ex.TagName)) := by
  have hext := handleStartRegular_extends apre path tagName varName st
  have hget1 := hext.refs v ex hget
  unfold handleStartRegular at hpre hget1 ⊢
  rw [attrsFunc_append _ _ _ _ _ (Prod.ext hpre rfl)]
  have e : equalsRef "ref" = true := by decide
  have hstep : ∀ c : unitState, mapGet c.refs v = some ex →
      regularAttr path tagName varName "ref" v c =
        (.error (.Error path (errRepeatedRefName v ex.TagName)), c) := by
    intro c hc
    simp [regularAttr, e, hok, hc]
  simp [attrsFunc, hstep _ hget1]

/-- An include directive whose attributes are processed without error and whose
last `ref` attribute, not empty, is in the ref map fails with the error that names
the tag of the entry. -/
theorem handleStartInclude_repeated (env : Env)
    (gen : String → orderedSet → generator → Result) (attrs : List (String × String))
    (path tagName varName v : String) (st : unitState) (ex : tagAndVarAndTypeName)
    (hget : mapGet st.refs v = some ex)
    (hattrs : (attrsFunc (includeAttr env gen path varName) attrs
      { foundPathAttr := false, refAttrVal := "", includeTypeName := "", st := st }).1 = .nil)
    (hpath : ∃ p, ("path", p) ∈ attrs) (hv : lastRefAttr attrs "" = v) (hne : v ≠ "") :
    (handleStartInclude env gen attrs path tagName varName st).1 =
      .error (.Error path (errRepeatedRefName v ex.TagName)) := by
  cases hr : attrsFunc (includeAttr env gen path varName) attrs
    { foundPathAttr := false, refAttrVal := "", includeTypeName := "", st := st } with
  | mk o c1 =>
    rw [hr] at hattrs
    simp only at hattrs
    subst hattrs
    obtain ⟨a1, a2, a3⟩ := includeAttrs_nil env gen path varName attrs _ c1 hr
    simp only at a1 a2
    have hf := a3 (Or.inr hpath)
    rw [hv] at a2
    unfold handleStartInclude
    simp only [hr, if_true, hf, Bool.not_true, Bool.false_eq_true, if_false]
    have hv1 : c1.refAttrVal ≠ "" := by rw [a2]; exact hne
    rw [if_pos hv1, a2, a1, hget]

theorem tokenizeView_append_eof (env : Env) (gen : String → orderedSet → generator → Result)
    (path : String) (pre z : List Token) :
    ∀ (st s2 : unitState), tokenizeView env gen path (pre ++ z) st = (.eof, s2) →
      ∃ s1, tokenizeView env gen path pre st = (.eof, s1) ∧
        tokenizeView env gen path z s1 = (.eof, s2) := by
  induction pre with
  | nil => intro st s2 h; exact ⟨st, rfl, h⟩
  | cons tok pre ih =>
    intro st s2 h
    simp only [tokenizeView, List.cons_append] at h ⊢
    split at h
    · exact ih _ _ h
    · simp at h
    · simp at h

theorem tokenStep_registers (env : Env) (gen : String → orderedSet → generator → Result)
    (path : String) (tok : Token) (v tagName : String) (st st1 : unitState)
    (hreg : Registers tok v tagName) (hstep : tokenStep env gen path tok st = .next st1) :
    ∃ e, mapGet st1.refs v = some e ∧ e.TagName = tagName := by
  obtain ⟨attrs, htok, hkind⟩ := hreg
  have hhandler : ∀ (varName : String) (s : unitState),
      (handleStartToken env gen attrs path tagName varName s).1 = .nil →
      ∃ e, mapGet (handleStartToken env gen attrs path tagName varName s).2.refs v = some e ∧
        e.TagName = tagName := by
    intro varName s hnil
    rcases hkind with ⟨hplain, hv⟩ | ⟨hinc, hv, hne⟩
    · simp only [handleStartToken, if_neg hplain] at hnil ⊢
      exact handleStartRegular_registers attrs path tagName varName v s hnil hv
    · simp only [handleStartToken, if_pos hinc] at hnil ⊢
      exact handleStartInclude_registers env gen attrs path tagName varName v s hnil hv hne
  rcases htok with rfl | rfl
  · simp only [tokenStep] at hstep
    split at hstep
    · simp at hstep
    · split at hstep
      · rename_i hnil
        simp only [Step.next.injEq] at hstep
        rw [← hstep]
        exact hhandler _ _ hnil
      · simp at hstep
  · simp only [tokenStep] at hstep
    split at hstep
    · rename_i hnil
      simp only [Step.next.injEq] at hstep
      obtain ⟨e, he, ht⟩ := hhandler _ _ hnil
      have hext := handleEndToken_extends tagName (st.namer.next tagName).1
        (handleStartToken env gen attrs path tagName (st.namer.next tagName).1
          { st with namer := (st.namer.next tagName).2 }).2
      rw [hstep] at hext
      exact ⟨e, hext.refs v e he, ht⟩
    · simp at hstep

theorem tokenStep_repeats (env : Env) (gen : String → orderedSet → generator → Result)
    (path : String) (tok : Token) (v : String) (st : unitState) (ex : tagAndVarAndTypeName)
    (hget : mapGet st.refs v = some ex) (hok : (isDisallowedRefName v).1 = false)
    (hrep : Repeats env gen path tok st v) :
    ∃ st1, tokenStep env gen path tok st =
      .stop (.error (.Error path (errRepeatedRefName v ex.TagName))) st1 := by
  obtain ⟨tagName, attrs, htok, hns, hkind⟩ := hrep
  have hhandler : (handleStartToken env gen attrs path tagName (st.namer.next tagName).1
      (tok.entry st)).1 = .error (.Error path (errRepeatedRefName v ex.TagName)) := by
    have hentry : mapGet (tok.entry st).refs v = some ex := by
      rcases htok with rfl | rfl <;> exact hget
    rcases hkind with ⟨hplain, apre, arest, hattrs, hpre⟩ | ⟨hinc, hattrs, hpath, hv, hne⟩
    · subst hattrs
      simp only [handleStartToken, if_neg hplain]
      exact handleStartRegular_repeated apre arest path tagName _ v _ ex hentry hok hpre
    · simp only [handleStartToken, if_pos hinc]
      exact handleStartInclude_repeated env gen attrs path tagName _ v _ ex hentry hattrs hpath
        hv hne
  have hne : (handleStartToken env gen attrs path tagName (st.namer.next tagName).1
      (tok.entry st)).1 ≠ .nil := by rw [hhandler]; simp
  rcases htok with rfl | rfl
  · have hns1 : ¬ (tagName = "style" ∧ st.names.len = 0) := by
      simpa [Token.isStyleStart] using hns
    simp only [Token.entry] at hhandler hne
    refine ⟨(handleStartToken env gen attrs path tagName (st.namer.next tagName).1
      { st with namer := (st.namer.next tagName).2,
                names := st.names.push ⟨tagName, (st.namer.next tagName).1⟩ }).2, ?_⟩
    simp only [tokenStep, if_neg hns1, hhandler]
    rw [if_neg (by simp)]
  · simp only [Token.entry] at hhandler hne
    refine ⟨(handleStartToken env gen attrs path tagName (st.namer.next tagName).1
      { st with namer := (st.namer.next tagName).2 }).2, ?_⟩
    simp only [tokenStep, hhandler]
    rw [if_neg (by simp)]

/-- **C6 (as amended).** When a tag has entered an allowed ref value in the ref map
of its unit (a plain tag through a `ref` attribute, an include directive through
its last `ref` attribute when that is not empty) and the loop then reaches a tag
that gets to look the same value up again (`Repeats`), the compilation fails there
with the error `ref name … present multiple times (previous occurence in <…>)`,
which names the tag of the first occurrence.  And no step of the loop changes or
removes an entry of the ref map. -/
theorem C6_repeated_ref (env : Env) (gen : String → orderedSet → generator → Result)
    (z : List Token) (path : String) (h : orderedSet) (g : generator)
    (pre mid rest : List Token) (t1 t2 : Token) (v n1 : String) (s2 : unitState)
    (hhas : h.has path = false) (hz : z = pre ++ t1 :: (mid ++ t2 :: rest))
    (hok : IsKeyword v = false ∧ v ≠ "roots") (h1 : Registers t1 v n1)
    (hreach : tokenizeView env gen path (pre ++ t1 :: mid) (unitState.init env path h g)
      = (.eof, s2))
    (h2 : Repeats env gen path t2 s2 v) :
    (generateComponent env gen z path h g).out =
      .error (.Error path (.repeatedRefName v n1)) ∧
    (Cause.repeatedRefName v n1).message env.quote =
      "ref name " ++ env.quote v ++ " present multiple times (previous occurence in <"
        ++ n1 ++ ">)" ∧
    (∀ (z1 : List Token) (st : unitState) (k : String) (e : tagAndVarAndTypeName),
      mapGet st.refs k = some e →
      mapGet (tokenizeView env gen path z1 st).2.refs k = some e) := by
  refine ⟨?_, rfl, fun z1 st k e he => (tokenizeView_extends env gen path z1 st).refs k e he⟩
  have hok1 : (isDisallowedRefName v).1 = false := by
    have := (isDisallowedRefName_iff v).not
    simp only [Bool.not_eq_true] at this
    rw [this]
    rintro (hk | hr)
    · rw [hok.1] at hk; simp at hk
    · exact hok.2 hr
  obtain ⟨s1, hpre, hmid⟩ := tokenizeView_append_eof env gen path pre (t1 :: mid) _ _ hreach
  -- the first occurrence
  simp only [tokenizeView] at hmid
  cases hstep1 : tokenStep env gen path t1 s1 with
  | enterStyle sa => rw [hstep1] at hmid; simp at hmid
  | stop out sa => rw [hstep1] at hmid; simp at hmid
  | next sa =>
    rw [hstep1] at hmid
    simp only at hmid
    obtain ⟨e, he, ht⟩ := tokenStep_registers env gen path t1 v n1 s1 sa h1 hstep1
    have hext := tokenizeView_extends env gen path mid sa
    rw [hmid] at hext
    have he2 := hext.refs v e he
    -- the second occurrence
    obtain ⟨sb, hstep2⟩ := tokenStep_repeats env gen path t2 v s2 e he2 hok1 h2
    have hz2 : pre ++ t1 :: (mid ++ t2 :: rest) = (pre ++ t1 :: mid) ++ t2 :: rest := by simp
    have hfull : (tokenizeView env gen path z (unitState.init env path h g)).1 =
        .returned (.error (.Error path (errRepeatedRefName v e.TagName))) := by
      rw [hz, hz2, tokenizeView_append env gen path _ _ _ _ hreach]
      simp only [tokenizeView, hstep2]
    rw [generateComponent_returned env gen z path h g _ hhas hfull, ht]
    rfl

theorem C6_repeated_ref_witness :
    (generateComponent (Env.sample repeatedRefFiles)
      (generateOneFile (Env.sample repeatedRefFiles) 1)
      [.StartTagToken "div" [("ref", "x")], .EndTagToken "div",
       .SelfClosingTagToken "include" [("path", "d.html"), ("ref", "x")]]
      "j.html" newOrderedSet (startGenerator ⟨"ui", "/"⟩)).out =
      .error (.Error "j.html" (.repeatedRefName "x" "div")) ∧
    (Cause.repeatedRefName "x" "div").message (Env.sample repeatedRefFiles).quote =
      "ref name " ++ (Env.sample repeatedRefFiles).quote "x" ++
        " present multiple times (previous occurence in <" ++ "div" ++ ">)" ∧
    (∀ (z1 : List Token) (st : unitState) (k : String) (e : tagAndVarAndTypeName),
      mapGet st.refs k = some e →
      mapGet (tokenizeView (Env.sample repeatedRefFiles)
        (generateOneFile (Env.sample repeatedRefFiles) 1) "j.html" z1 st).2.refs k = some e) :=
  C6_repeated_ref (Env.sample repeatedRefFiles)
    (generateOneFile (Env.sample repeatedRefFiles) 1)
    [.StartTagToken "div" [("ref", "x")], .EndTagToken "div",
     .SelfClosingTagToken "include" [("path", "d.html"), ("ref", "x")]]
    "j.html" newOrderedSet (startGenerator ⟨"ui", "/"⟩)
    [] [.EndTagToken "div"] [] (.StartTagToken "div" [("ref", "x")])
    (.SelfClosingTagToken "include" [("path", "d.html"), ("ref", "x")]) "x" "div" _
    (by decide) rfl ⟨by decide, by decide⟩
    ⟨[("ref", "x")], Or.inl rfl, Or.inl ⟨by decide, by decide⟩⟩
    rfl
    ⟨"include", [("path", "d.html"), ("ref", "x")], Or.inr rfl, by decide,
      Or.inr ⟨rfl, by decide, ⟨"d.html", by decide⟩, by decide, by decide⟩⟩

/-- The claim as stated fails for the empty ref value on include directives, which
stands for "no ref": it is allowed, it is on both directives, and `i.html`
compiles.  And an include directive that repeats a ref value fails with the error of
its nested compilation when that fails, since the ref map is looked up afterwards:
`<div ref="x"></div><include ref="x" path="none.html"/>` fails on `os.Open`. -/
theorem C6_counterexample :
    isDisallowedRefName "" = (false, "reserved for internal use") ∧
    (Generate (Env.sample emptyRefFiles) ["i.html"] ⟨"ui", "/"⟩).err = .nil ∧
    (generateComponent (Env.sample emptyRefFiles) (generateOneFile (Env.sample emptyRefFiles) 1)
      [.StartTagToken "div" [("ref", "x")], .EndTagToken "div",
       .SelfClosingTagToken "include" [("ref", "x"), ("path", "none.html")]]
      "j.html" newOrderedSet (startGenerator ⟨"ui", "/"⟩)).out =
      .error (.PathError "open" "none.html") := by
  decide

/-! ## The attributes of an include directive -/

theorem includeAttr_invalid (env : Env) (gen : String → orderedSet → generator → Result)
    (path varName k v : String) (c : includeState) (hp : k ≠ "path") (hr : k ≠ "ref") :
    includeAttr env gen path varName k v c =
      (.error (.Error path (.invalidAttribute k)), c) := by
  have e1 : equalsRef k = false := by
    cases h : equalsRef k with
    | false => rfl
    | true => exact absurd ((equalsRef_iff k).1 h) hr
  have e2 : equalsPath k = false := by
    cases h : equalsPath k with
    | false => rfl
    | true => exact absurd ((equalsPath_iff k).1 h) hp
  simp [includeAttr, e1, e2]

theorem includeAttr_nil_key (env : Env) (gen : String → orderedSet → generator → Result)
    (path varName k v : String) (c : includeState)
    (hnil : (includeAttr env gen path varName k v c).1 = .nil) :
    (k = "path" ∨ k = "ref") ∧
    ((includeAttr env gen path varName k v c).2.foundPathAttr = true →
      c.foundPathAttr = true ∨ k = "path") := by
  by_cases hp : k = "path"
  · exact ⟨Or.inl hp, fun _ => Or.inr hp⟩
  · by_cases hr : k = "ref"
    · refine ⟨Or.inr hr, ?_⟩
      subst hr
      have e : equalsRef "ref" = true := by decide
      unfold includeAttr at hnil ⊢
      simp only [e, Bool.not_true, Bool.false_and, Bool.false_eq_true, if_false, if_true]
        at hnil ⊢
      split
      · rename_i hd
        rw [if_pos hd] at hnil
        simp at hnil
      · exact Or.inl
    · rw [includeAttr_invalid env gen path varName k v c hp hr] at hnil
      simp at hnil

theorem includeAttrs_keys (env : Env) (gen : String → orderedSet → generator → Result)
    (path varName : String) :
    ∀ (attrs : List (String × String)) (c c1 : includeState),
      attrsFunc (includeAttr env gen path varName) attrs c = (.nil, c1) →
      (∀ kv, kv ∈ attrs → kv.1 = "path" ∨ kv.1 = "ref") ∧
      (c1.foundPathAttr = true → c.foundPathAttr = true ∨ ∃ p, ("path", p) ∈ attrs) := by
  intro attrs
  induction attrs with
  | nil =>
    intro c c1 hr
    simp only [attrsFunc, Prod.mk.injEq, true_and] at hr
    subst hr
    exact ⟨by simp, Or.inl⟩
  | cons kv rest ih =>
    intro c c1 hr
    obtain ⟨k, v⟩ := kv
    simp only [attrsFunc] at hr
    split at hr
    swap
    · rename_i hne
      rw [hr] at hne
      exact absurd rfl hne
    rename_i hnil
    obtain ⟨a1, a2⟩ := includeAttr_nil_key env gen path varName k v c hnil
    obtain ⟨b1, b2⟩ := ih _ c1 hr
    refine ⟨?_, ?_⟩
    · intro kv hkv
      rcases List.mem_cons.1 hkv with hkv | hkv
      · rw [hkv]; exact a1
      · exact b1 kv hkv
    · intro hf
      rcases b2 hf with hf1 | ⟨p, hp⟩
      · rcases a2 hf1 with hf2 | hk
        · exact Or.inl hf2
        · exact Or.inr ⟨v, by rw [hk]; exact List.mem_cons_self _ _⟩
      · exact Or.inr ⟨p, List.mem_cons_of_mem _ hp⟩

theorem attrsFunc_prefix_nil {σ : Type} (f : String → String → σ → Outcome × σ)
    (apre arest : List (String × String)) :
    ∀ c : σ, (attrsFunc f (apre ++ arest) c).1 = .nil → (attrsFunc f apre c).1 = .nil := by
  induction apre with
  | nil => intro c _; rfl
  | cons kv apre ih =>
    intro c h
    obtain ⟨k, v⟩ := kv
    simp only [attrsFunc, List.cons_append] at h ⊢
    split
    · rename_i hn
      rw [if_pos hn] at h
      exact ih _ h
    · rename_i hn
      rw [if_neg hn] at h
      exact absurd h hn

/-- What a `path` attribute that is processed without error has done: the file it
resolves to has been compiled, the call of its constructor is written, and the type
name of the unit is kept. -/
theorem includeAttr_path_nil (env : Env) (gen : String → orderedSet → generator → Result)
    (path varName v : String) (c : includeState)
    (hnil : (includeAttr env gen path varName "path" v c).1 = .nil) :
    (gen (includePath env c.st.g.opts.Root path v) c.st.history c.st.g).out = .nil ∧
    (includeAttr env gen path varName "path" v c).2.includeTypeName =
      componentTypeName (env.Base (includePath env c.st.g.opts.Root path v)) ∧
    (includeAttr env gen path varName "path" v c).2.st.funcBuf =
      c.st.funcBuf ++ [Line.construct varName (constructorFuncName env
        (componentTypeName (env.Base (includePath env c.st.g.opts.Root path v))))] := by
  have e1 : equalsRef "path" = false := by decide
  have e2 : equalsPath "path" = true := by decide
  unfold includeAttr at hnil ⊢
  simp only [e1, e2, Bool.not_false, Bool.not_true, Bool.and_false, Bool.false_eq_true,
    if_false] at hnil ⊢
  by_cases ho : (gen (includePath env c.st.g.opts.Root path v) c.st.history c.st.g).out = .nil
  · rw [if_pos ho]
    exact ⟨ho, rfl, rfl⟩
  · rw [if_neg ho] at hnil
    exact absurd hnil ho

/-- Attributes other than `path` that are processed without error leave the kept
type name as it was. -/
theorem includeAttrs_typeName (env : Env) (gen : String → orderedSet → generator → Result)
    (path varName : String) :
    ∀ (attrs : List (String × String)) (c c1 : includeState),
      attrsFunc (includeAttr env gen path varName) attrs c = (.nil, c1) →
      (∀ kv, kv ∈ attrs → kv.1 ≠ "path") → c1.includeTypeName = c.includeTypeName := by
  intro attrs
  induction attrs with
  | nil =>
    intro c c1 hr _
    simp only [attrsFunc, Prod.mk.injEq, true_and] at hr
    subst hr
    rfl
  | cons kv rest ih =>
    intro c c1 hr hno
    obtain ⟨k, v⟩ := kv
    simp only [attrsFunc] at hr
    split at hr
    swap
    · rename_i hne
      rw [hr] at hne
      exact absurd rfl hne
    rename_i hnil
    have hk : k ≠ "path" := hno (k, v) (List.mem_cons_self _ _)
    have hstep : (includeAttr env gen path varName k v c).2.includeTypeName =
        c.includeTypeName := by
      have e2 : equalsPath k = false := by
        cases hp : equalsPath k with
        | false => rfl
        | true => exact absurd ((equalsPath_iff k).1 hp) hk
      unfold includeAttr at hnil ⊢
      simp only [e2] at hnil ⊢
      by_cases e1 : equalsRef k = true
      · simp only [e1, Bool.not_true, Bool.false_and, Bool.false_eq_true, if_false, if_true]
          at hnil ⊢
        split <;> rfl
      · have e1 : equalsRef k = false := by simpa using e1
        simp [e1] at hnil
    rw [ih _ c1 hr (fun kv hkv => hno kv (List.mem_cons_of_mem _ hkv)), hstep]

theorem includeAttrs_funcBuf (env : Env) (gen : String → orderedSet → generator → Result)
    (path varName : String) (attrs : List (String × String)) (c : includeState) :
    c.st.funcBuf <+: (attrsFunc (includeAttr env gen path varName) attrs c).2.st.funcBuf :=
  attrsFunc_rel (includeAttr env gen path varName)
    (fun a b => a.st.funcBuf <+: b.st.funcBuf) (fun _ => List.prefix_refl _)
    (fun _ _ _ x y => List.IsPrefix.trans x y)
    (fun k v c => (includeAttr_extends env gen path varName k v c).funcBuf) attrs c

/-- What `handleStartInclude` leaves when it returns nil. -/
theorem handleStartInclude_nil (env : Env) (gen : String → orderedSet → generator → Result)
    (attrs : List (String × String)) (path tagName varName : String) (st : unitState)
    (hnil : (handleStartInclude env gen attrs path tagName varName st).1 = .nil) :
    ∃ c1, attrsFunc (includeAttr env gen path varName) attrs
        { foundPathAttr := false, refAttrVal := "", includeTypeName := "", st := st }
        = (.nil, c1) ∧
      (handleStartInclude env gen attrs path tagName varName st).2.funcBuf = c1.st.funcBuf ∧
      (handleStartInclude env gen attrs path tagName varName st).2.refs =
        if lastRefAttr attrs "" = "" then st.refs
        else mapSet st.refs (lastRefAttr attrs "") ⟨tagName, varName, c1.includeTypeName⟩ := by
  cases hr : attrsFunc (includeAttr env gen path varName) attrs
    { foundPathAttr := false, refAttrVal := "", includeTypeName := "", st := st } with
  | mk o c1 =>
    unfold handleStartInclude at hnil ⊢
    simp only [hr] at hnil ⊢
    by_cases ho : o = .nil
    · subst ho
      obtain ⟨a1, a2, _⟩ := includeAttrs_nil env gen path varName attrs _ c1 hr
      simp only at a1 a2
      refine ⟨c1, rfl, ?_⟩
      rw [if_pos rfl] at hnil ⊢
      by_cases hf : (!c1.foundPathAttr) = true
      · rw [if_pos hf] at hnil
        simp at hnil
      · rw [if_neg hf] at hnil ⊢
        by_cases hv : c1.refAttrVal = ""
        · have hv1 : ¬ c1.refAttrVal ≠ "" := by simpa using hv
          rw [if_neg hv1]
          rw [← a2, if_pos hv]
          exact ⟨rfl, a1⟩
        · have hv1 : c1.refAttrVal ≠ "" := hv
          rw [if_pos hv1] at hnil ⊢
          cases hget : mapGet c1.st.refs c1.refAttrVal with
          | some ex =>
            rw [hget] at hnil
            simp at hnil
          | none =>
            simp only
            rw [← a2, if_neg hv, a1]
            exact ⟨trivial, rfl⟩
    · rw [if_neg ho] at hnil
      exact absurd hnil ho

/-- An include directive that is processed without error has, for each of its `path`
attributes, compiled the file it resolves to and written a call of its constructor;
the ref value it enters in the ref map is that of its last `ref` attribute, with the
type name of the unit of its last `path` attribute. -/
theorem handleStartInclude_paths (env : Env) (gen : String → orderedSet → generator → Result)
    (attrs : List (String × String)) (path tagName varName : String) (st : unitState)
    (hnil : (handleStartInclude env gen attrs path tagName varName st).1 = .nil)
    (apre arest : List (String × String)) (v : String)
    (hattrs : attrs = apre ++ ("path", v) :: arest) :
    ∃ c, attrsFunc (includeAttr env gen path varName) apre
        { foundPathAttr := false, refAttrVal := "", includeTypeName := "", st := st }
        = (.nil, c) ∧
      (gen (includePath env c.st.g.opts.Root path v) c.st.history c.st.g).out = .nil ∧
      Line.construct varName (constructorFuncName env
          (componentTypeName (env.Base (includePath env c.st.g.opts.Root path v)))) ∈
        (handleStartInclude env gen attrs path tagName varName st).2.funcBuf ∧
      ((∀ kv, kv ∈ arest → kv.1 ≠ "path") →
        (handleStartInclude env gen attrs path tagName varName st).2.refs =
          if lastRefAttr attrs "" = "" then st.refs
          else mapSet st.refs (lastRefAttr attrs "") ⟨tagName, varName,
            componentTypeName (env.Base (includePath env c.st.g.opts.Root path v))⟩) := by
  obtain ⟨c1, hfull, hbuf, hrefs⟩ := handleStartInclude_nil env gen attrs path tagName varName
    st hnil
  have hfull1 : (attrsFunc (includeAttr env gen path varName) (apre ++ ("path", v) :: arest)
      { foundPathAttr := false, refAttrVal := "", includeTypeName := "", st := st }).1
      = .nil := by
    rw [← hattrs, hfull]
  have hpre := attrsFunc_prefix_nil _ apre _ _ hfull1
  have hpre2 : attrsFunc (includeAttr env gen path varName) apre
      { foundPathAttr := false, refAttrVal := "", includeTypeName := "", st := st } =
      (.nil, (attrsFunc (includeAttr env gen path varName) apre
        { foundPathAttr := false, refAttrVal := "", includeTypeName := "", st := st }).2) :=
    Prod.ext hpre rfl
  have hrest := attrsFunc_append (includeAttr env gen path varName) apre
    (("path", v) :: arest) _ _ hpre2
  rw [← hattrs, hfull] at hrest
  have hstep : (includeAttr env gen path varName "path" v
      (attrsFunc (includeAttr env gen path varName) apre
        { foundPathAttr := false, refAttrVal := "", includeTypeName := "", st := st }).2).1
      = .nil := by
    have := attrsFunc_prefix_nil (includeAttr env gen path varName) [("path", v)] arest
      (attrsFunc (includeAttr env gen path varName) apre
        { foundPathAttr := false, refAttrVal := "", includeTypeName := "", st := st }).2
      (by rw [List.singleton_append, ← hrest])
    simp only [attrsFunc] at this
    by_contra hc
    rw [if_neg hc] at this
    exact hc this
  obtain ⟨p1, p2, p3⟩ := includeAttr_path_nil env gen path varName v _ hstep
  have htail : attrsFunc (includeAttr env gen path varName) arest
      (includeAttr env gen path varName "path" v
        (attrsFunc (includeAttr env gen path varName) apre
          { foundPathAttr := false, refAttrVal := "", includeTypeName := "", st := st }).2).2
      = (.nil, c1) := by
    rw [hrest]
    simp only [attrsFunc, hstep, if_true]
  refine ⟨_, hpre2, p1, ?_, ?_⟩
  · rw [hbuf]
    have hp := includeAttrs_funcBuf env gen path varName arest
      (includeAttr env gen path varName "path" v
        (attrsFunc (includeAttr env gen path varName) apre
          { foundPathAttr := false, refAttrVal := "", includeTypeName := "", st := st }).2).2
    rw [htail] at hp
    exact hp.subset (by rw [p3]; simp)
  · intro hno
    rw [hrefs, includeAttrs_typeName env gen path varName arest _ c1 htail hno, p2]

/-- When `handleStartInclude` returns nil: the attributes are processed without
error, one of them is a `path` attribute, and the value of the last `ref` attribute,
if not empty, is not in the ref map yet.  How often a key occurs plays no part. -/
theorem handleStartInclude_nil_iff (env : Env)
    (gen : String → orderedSet → generator → Result)
    (attrs : List (String × String)) (path tagName varName : String) (st : unitState) :
    (handleStartInclude env gen attrs path tagName varName st).1 = .nil ↔
      (attrsFunc (includeAttr env gen path varName) attrs
        { foundPathAttr := false, refAttrVal := "", includeTypeName := "", st := st }).1
        = .nil ∧
      (∃ p, ("path", p) ∈ attrs) ∧
      (lastRefAttr attrs "" = "" ∨ mapGet st.refs (lastRefAttr attrs "") = none) := by
  cases hr : attrsFunc (includeAttr env gen path varName) attrs
    { foundPathAttr := false, refAttrVal := "", includeTypeName := "", st := st } with
  | mk o c1 =>
    unfold handleStartInclude
    simp only [hr]
    by_cases ho : o = .nil
    · subst ho
      obtain ⟨a1, a2, a3⟩ := includeAttrs_nil env gen path varName attrs _ c1 hr
      obtain ⟨_, b2⟩ := includeAttrs_keys env gen path varName attrs _ c1 hr
      simp only at a1 a2 a3 b2
      rw [if_pos rfl, ← a2, ← a1]
      by_cases hp : ∃ p, ("path", p) ∈ attrs
      · have hf : c1.foundPathAttr = true := a3 (Or.inr hp)
        simp only [hf, Bool.not_true, Bool.false_eq_true, if_false, true_and, hp]
        by_cases hv : c1.refAttrVal = ""
        · simp [hv]
        · have hv1 : c1.refAttrVal ≠ "" := hv
          rw [if_pos hv1]
          cases hget : mapGet c1.st.refs c1.refAttrVal with
          | some ex => simp [hv]
          | none => simp
      · have hf : c1.foundPathAttr = false := by
          cases hc : c1.foundPathAttr with
          | false => rfl
          | true =>
            rcases b2 hc with h | h
            · simp at h
            · exact absurd h hp
        simp [hf, hp]
    · rw [if_neg ho]
      simp [ho]

/-- **C7 (as amended).** `handleStartInclude` succeeds only if the attribute list
holds at least one attribute with key `path` and no attribute with a key other than
`path` and `ref`.  A list with another key fails, and with the invalid-attribute
error for that key when the attributes before it are processed without error.  A
list with no `path` attribute fails, and with the missing-path error when its
attributes are processed without error.  Repeated `path` or `ref` attributes are not
rejected: the call succeeds exactly when the attributes are processed without error,
one of them is a `path` attribute, and the value of the last `ref` attribute is empty
or not in the ref map yet.  When it succeeds, the file of every `path` attribute has
been compiled and a call of its constructor written, and the ref map has gained the
value of the last `ref` attribute, if not empty, with the type name of the unit of
the last `path` attribute, and nothing else. -/
theorem C7_include_attributes (env : Env) (gen : String → orderedSet → generator → Result)
    (attrs : List (String × String)) (path tagName varName : String) (st : unitState) :
    ((handleStartInclude env gen attrs path tagName varName st).1 = .nil →
      (∃ p, ("path", p) ∈ attrs) ∧ ∀ kv, kv ∈ attrs → kv.1 = "path" ∨ kv.1 = "ref") ∧
    (∀ apre k v arest, attrs = apre ++ (k, v) :: arest → k ≠ "path" → k ≠ "ref" →
      (handleStartInclude env gen attrs path tagName varName st).1 ≠ .nil ∧
      ((attrsFunc (includeAttr env gen path varName) apre
          { foundPathAttr := false, refAttrVal := "", includeTypeName := "", st := st }).1
          = .nil →
        (handleStartInclude env gen attrs path tagName varName st).1 =
          .error (.Error path (.invalidAttribute k)))) ∧
    ((∀ kv, kv ∈ attrs → kv.1 ≠ "path") →
      (handleStartInclude env gen attrs path tagName varName st).1 ≠ .nil ∧
      ((attrsFunc (includeAttr env gen path varName) attrs
          { foundPathAttr := false, refAttrVal := "", includeTypeName := "", st := st }).1
          = .nil →
        (handleStartInclude env gen attrs path tagName varName st).1 =
          .error (.Error path .missingPath))) ∧
    ((handleStartInclude env gen attrs path tagName varName st).1 = .nil ↔
      (attrsFunc (includeAttr env gen path varName) attrs
        { foundPathAttr := false, refAttrVal := "", includeTypeName := "", st := st }).1
        = .nil ∧
      (∃ p, ("path", p) ∈ attrs) ∧
      (lastRefAttr attrs "" = "" ∨ mapGet st.refs (lastRefAttr attrs "") = none)) ∧
    ((handleStartInclude env gen attrs path tagName varName st).1 = .nil →
      ∀ apre v arest, attrs = apre ++ ("path", v) :: arest →
        ∃ c, attrsFunc (includeAttr env gen path varName) apre
            { foundPathAttr := false, refAttrVal := "", includeTypeName := "", st := st }
            = (.nil, c) ∧
          (gen (includePath env c.st.g.opts.Root path v) c.st.history c.st.g).out = .nil ∧
          Line.construct varName (constructorFuncName env
              (componentTypeName (env.Base (includePath env c.st.g.opts.Root path v)))) ∈
            (handleStartInclude env gen attrs path tagName varName st).2.funcBuf ∧
          ((∀ kv, kv ∈ arest → kv.1 ≠ "path") →
            (handleStartInclude env gen attrs path tagName varName st).2.refs =
              if lastRefAttr attrs "" = "" then st.refs
              else mapSet st.refs (lastRefAttr attrs "") ⟨tagName, varName,
                componentTypeName
                  (env.Base (includePath env c.st.g.opts.Root path v))⟩)) := by
  -- what success means
  have hsucc : (handleStartInclude env gen attrs path tagName varName st).1 = .nil →
      (∃ p, ("path", p) ∈ attrs) ∧ ∀ kv, kv ∈ attrs → kv.1 = "path" ∨ kv.1 = "ref" := by
    intro hnil
    cases hr : attrsFunc (includeAttr env gen path varName) attrs
      { foundPathAttr := false, refAttrVal := "", includeTypeName := "", st := st } with
    | mk o c1 =>
      unfold handleStartInclude at hnil
      simp only [hr] at hnil
      by_cases ho : o = .nil
      · subst ho
        obtain ⟨a1, a2⟩ := includeAttrs_keys env gen path varName attrs _ c1 hr
        rw [if_pos rfl] at hnil
        by_cases hf : c1.foundPathAttr = true
        · rcases a2 hf with h | h
          · simp at h
          · exact ⟨h, a1⟩
        · have hf1 : (!c1.foundPathAttr) = true := by simpa using hf
          rw [if_pos hf1] at hnil
          simp at hnil
      · rw [if_neg ho] at hnil
        exact absurd hnil ho
  refine ⟨hsucc, ?_, ?_, handleStartInclude_nil_iff env gen attrs path tagName varName st,
    fun hnil apre v arest hattrs =>
      handleStartInclude_paths env gen attrs path tagName varName st hnil apre arest v hattrs⟩
  · intro apre k v arest hattrs hp hr
    refine ⟨?_, ?_⟩
    · intro hnil
      have := (hsucc hnil).2 (k, v) (by rw [hattrs]; simp)
      rcases this with h | h
      · exact hp h
      · exact hr h
    · intro hpre
      subst hattrs
      unfold handleStartInclude
      simp only
      rw [attrsFunc_append _ _ _ _ _ (Prod.ext hpre rfl)]
      simp [attrsFunc, includeAttr_invalid env gen path varName k v _ hp hr]
  · intro hno
    refine ⟨?_, ?_⟩
    · intro hnil
      obtain ⟨p, hp⟩ := (hsucc hnil).1
      exact hno _ hp rfl
    · intro hall
      cases hr : attrsFunc (includeAttr env gen path varName) attrs
        { foundPathAttr := false, refAttrVal := "", includeTypeName := "", st := st } with
      | mk o c1 =>
        rw [hr] at hall
        simp only at hall
        subst hall
        obtain ⟨_, a2⟩ := includeAttrs_keys env gen path varName attrs _ c1 hr
        have hf : c1.foundPathAttr = false := by
          cases hc : c1.foundPathAttr with
          | false => rfl
          | true =>
            rcases a2 hc with h | ⟨p, hp⟩
            · simp at h
            · exact absurd rfl (hno _ hp)
        unfold handleStartInclude
        simp [hr, hf]

theorem C7_include_attributes_witness :
    (handleStartInclude (Env.sample twoPathFiles) (generateOneFile (Env.sample twoPathFiles) 1)
        [("ref", "x"), ("id", "y"), ("path", "d.html")] "k.html" "include" "include0"
        (unitState.init (Env.sample twoPathFiles) "k.html" newOrderedSet
          (startGenerator ⟨"ui", "/"⟩))).1 ≠ .nil ∧
    ((attrsFunc (includeAttr (Env.sample twoPathFiles)
          (generateOneFile (Env.sample twoPathFiles) 1) "k.html" "include0") [("ref", "x")]
          { foundPathAttr := false, refAttrVal := "", includeTypeName := "",
            st := unitState.init (Env.sample twoPathFiles) "k.html" newOrderedSet
              (startGenerator ⟨"ui", "/"⟩) }).1 = .nil →
      (handleStartInclude (Env.sample twoPathFiles)
        (generateOneFile (Env.sample twoPathFiles) 1)
        [("ref", "x"), ("id", "y"), ("path", "d.html")] "k.html" "include" "include0"
        (unitState.init (Env.sample twoPathFiles) "k.html" newOrderedSet
          (startGenerator ⟨"ui", "/"⟩))).1 =
        .error (.Error "k.html" (.invalidAttribute "id"))) :=
  (C7_include_attributes (Env.sample twoPathFiles)
    (generateOneFile (Env.sample twoPathFiles) 1)
    [("ref", "x"), ("id", "y"), ("path", "d.html")] "k.html" "include" "include0"
    (unitState.init (Env.sample twoPathFiles) "k.html" newOrderedSet
      (startGenerator ⟨"ui", "/"⟩))).2.1 [("ref", "x")] "id" "y" [("path", "d.html")] rfl
    (by decide) (by decide)

/-- The claim as stated fails for a list with two `path` attributes and for one
with two `ref` attributes, which are not rejected: of the two `ref` values the second
is the one entered in the ref map.  And a list with another key, or
without `path`, fails with the error of an earlier attribute when there is one:
here the disallowed ref name. -/
theorem C7_counterexample :
    (handleStartInclude (Env.sample twoPathFiles) (generateOneFile (Env.sample twoPathFiles) 1)
        [("path", "d.html"), ("path", "d.html")] "k.html" "include" "include0"
        (unitState.init (Env.sample twoPathFiles) "k.html" newOrderedSet
          (startGenerator ⟨"ui", "/"⟩))).1 = .nil ∧
    (handleStartInclude (Env.sample twoPathFiles) (generateOneFile (Env.sample twoPathFiles) 1)
        [("path", "d.html"), ("ref", "x"), ("ref", "y")] "k.html" "include" "include0"
        (unitState.init (Env.sample twoPathFiles) "k.html" newOrderedSet
          (startGenerator ⟨"ui", "/"⟩))).1 = .nil ∧
    (handleStartInclude (Env.sample twoPathFiles) (generateOneFile (Env.sample twoPathFiles) 1)
        [("path", "d.html"), ("ref", "x"), ("ref", "y")] "k.html" "include" "include0"
        (unitState.init (Env.sample twoPathFiles) "k.html" newOrderedSet
          (startGenerator ⟨"ui", "/"⟩))).2.refs = [("y", ⟨"include", "include0", "d"⟩)] ∧
    (handleStartInclude (Env.sample twoPathFiles) (generateOneFile (Env.sample twoPathFiles) 1)
        [("ref", "func"), ("id", "y")] "k.html" "include" "include0"
        (unitState.init (Env.sample twoPathFiles) "k.html" newOrderedSet
          (startGenerator ⟨"ui", "/"⟩))).1 =
      .error (.Error "k.html" (.disallowedRefName "func" "Go keyword")) ∧
    (handleStartInclude (Env.sample twoPathFiles) (generateOneFile (Env.sample twoPathFiles) 1)
        [("ref", "func")] "k.html" "include" "include0"
        (unitState.init (Env.sample twoPathFiles) "k.html" newOrderedSet
          (startGenerator ⟨"ui", "/"⟩))).1 =
      .error (.Error "k.html" (.disallowedRefName "func" "Go keyword")) := by
  decide

/-! ## Properly nested plain elements -/

theorem stack.pop_push (st : stack) (v : tagAndVarName) : (st.push v).pop = some (v, st) := by
  simp [stack.push, stack.pop]

theorem stack.peek_push (st : stack) (v : tagAndVarName) : (st.push v).peek = some v := by
  simp [stack.push, stack.peek, stack.len]

theorem stack.len_push (st : stack) (v : tagAndVarName) : (st.push v).len ≠ 0 := by
  simp [stack.push, stack.len]

theorem stack.peek_eq_none (st : stack) : st.peek = none ↔ st.len = 0 := by
  unfold stack.peek stack.len
  split
  · rename_i h; simp [h]
  · rename_i h
    constructor
    · intro hn
      have : st.s = [] := by simpa using hn
      simp [this] at h
    · intro h1; exact absurd h1 h

theorem handleEndToken_eq (tagName varName : String) (st : unitState)
    (hplain : tagName ≠ "include") :
    handleEndToken tagName varName st =
      { st with funcBuf := st.funcBuf ++ appendLine st.names.parent varName,
                roots := st.roots ++ (if st.names.len = 0 then [varName] else []) } := by
  unfold handleEndToken stack.parent
  cases hp : st.names.peek with
  | none =>
    have := (stack.peek_eq_none st.names).1 hp
    simp [appendLine, this]
  | some parent =>
    have hl : st.names.len ≠ 0 := fun h => by
      rw [(stack.peek_eq_none st.names).2 h] at hp; simp at hp
    simp [appendLine, hplain, hl]

/-- A plain tag that is processed without error writes its CreateElement instruction
and one SetAttribute instruction per attribute other than `ref`, and leaves the
stack, the allocator and the roots alone. -/
theorem regularAttrs_lines (path tagName varName : String) :
    ∀ (attrs : List (String × String)) (st st1 : unitState),
      attrsFunc (regularAttr path tagName varName) attrs st = (.nil, st1) →
      st1.funcBuf = st.funcBuf ++ attrLines varName attrs ∧ st1.names = st.names ∧
      st1.namer = st.namer ∧ st1.roots = st.roots ∧ st1.g = st.g ∧
      st1.history = st.history := by
  intro attrs
  induction attrs with
  | nil =>
    intro st st1 hr
    simp only [attrsFunc, Prod.mk.injEq, true_and] at hr
    subst hr
    simp [attrLines]
  | cons kv rest ih =>
    intro st st1 hr
    obtain ⟨k, v⟩ := kv
    simp only [attrsFunc] at hr
    split at hr
    swap
    · rename_i hne
      rw [hr] at hne
      exact absurd rfl hne
    rename_i hnil
    obtain ⟨a1, a2, a3, a4, a5, a6⟩ := ih _ st1 hr
    by_cases hk : equalsRef k = true
    · have hstep : (regularAttr path tagName varName k v st).2.funcBuf = st.funcBuf ∧
          (regularAttr path tagName varName k v st).2.names = st.names ∧
          (regularAttr path tagName varName k v st).2.namer = st.namer ∧
          (regularAttr path tagName varName k v st).2.roots = st.roots ∧
          (regularAttr path tagName varName k v st).2.g = st.g ∧
          (regularAttr path tagName varName k v st).2.history = st.history := by
        unfold regularAttr
        rw [if_pos hk]
        split
        · simp
        · split <;> simp
      rw [a1, a2, a3, a4, a5, a6]
      simp [hstep.1, hstep.2.1, hstep.2.2.1, hstep.2.2.2, attrLines, hk]
    · have hstep : regularAttr path tagName varName k v st =
          (.nil, { st with funcBuf := st.funcBuf ++ [.setAttribute varName k v] }) := by
        unfold regularAttr
        rw [if_neg hk]
      rw [a1, a2, a3, a4, a5, a6, hstep]
      simp [attrLines, hk]

theorem handleStartRegular_lines (attrs : List (String × String))
    (path tagName varName : String) (st : unitState)
    (hnil : (handleStartRegular attrs path tagName varName st).1 = .nil) :
    (handleStartRegular attrs path tagName varName st).2.funcBuf =
      st.funcBuf ++ Line.createElement varName tagName :: attrLines varName attrs ∧
    (handleStartRegular attrs path tagName varName st).2.names = st.names ∧
    (handleStartRegular attrs path tagName varName st).2.namer = st.namer ∧
    (handleStartRegular attrs path tagName varName st).2.roots = st.roots ∧
    (handleStartRegular attrs path tagName varName st).2.g = st.g ∧
    (handleStartRegular attrs path tagName varName st).2.history = st.history := by
  unfold handleStartRegular at hnil ⊢
  obtain ⟨a1, a2, a3, a4, a5, a6⟩ := regularAttrs_lines path tagName varName attrs _ _
    (Prod.ext hnil rfl)
  exact ⟨by rw [a1]; simp, a2, a3, a4, a5, a6⟩

/-- Attributes other than `ref` are always processed without error. -/
theorem regularAttrs_noRef (path tagName varName : String) :
    ∀ (attrs : List (String × String)) (st : unitState),
      attrs.all (fun kv => !equalsRef kv.1) = true →
      (attrsFunc (regularAttr path tagName varName) attrs st).1 = .nil := by
  intro attrs
  induction attrs with
  | nil => intro st _; rfl
  | cons kv rest ih =>
    intro st hno
    obtain ⟨k, v⟩ := kv
    simp only [List.all_cons, Bool.and_eq_true, Bool.not_eq_true'] at hno
    have hstep : regularAttr path tagName varName k v st =
        (.nil, { st with funcBuf := st.funcBuf ++ [.setAttribute varName k v] }) := by
      unfold regularAttr
      rw [if_neg (by rw [hno.1]; simp)]
    simp only [attrsFunc, hstep, if_true]
    exact ih _ hno.2

theorem handleStartRegular_noRef (attrs : List (String × String))
    (path tagName varName : String) (st : unitState)
    (hno : attrs.all (fun kv => !equalsRef kv.1) = true) :
    (handleStartRegular attrs path tagName varName st).1 = .nil :=
  regularAttrs_noRef path tagName varName attrs _ hno

/-- What the loop does on the token stream of a forest of plain elements. -/
theorem tokenizeView_forest (env : Env) (gen : String → orderedSet → generator → Result)
    (path : String) :
    ∀ (f : Forest) (st : unitState), f.plain = true →
      (st.names.len = 0 → f.noTopStyle = true) →
      ((tokenizeView env gen path f.tokens st).1 = .eof →
        (tokenizeView env gen path f.tokens st).2.funcBuf =
          st.funcBuf ++ f.lines st.names.parent st.namer ∧
        (tokenizeView env gen path f.tokens st).2.roots =
          st.roots ++ (if st.names.len = 0 then f.topNames st.namer else []) ∧
        (tokenizeView env gen path f.tokens st).2.names = st.names ∧
        (tokenizeView env gen path f.tokens st).2.namer = f.namerAfter st.namer ∧
        (tokenizeView env gen path f.tokens st).2.g = st.g ∧
        (tokenizeView env gen path f.tokens st).2.history = st.history) ∧
      ((tokenizeView env gen path f.tokens st).1 = .eof ∨
        ∃ c, (tokenizeView env gen path f.tokens st).1 = .returned (.error (.Error path c))) ∧
      (f.noRef = true → (tokenizeView env gen path f.tokens st).1 = .eof) := by
  intro f
  induction f with
  | nil =>
    intro st _ _
    simp [Forest.tokens, tokenizeView, Forest.lines, Forest.topNames, Forest.namerAfter]
  | pair tagName attrs children rest ihc ihr =>
    intro st hplain htop
    simp only [Forest.plain, Bool.and_eq_true, decide_eq_true_eq] at hplain
    obtain ⟨⟨hinc, hpc⟩, hpr⟩ := hplain
    have hns : ¬ (tagName = "style" ∧ st.names.len = 0) := by
      rintro ⟨h1, h2⟩
      have := htop h2
      simp [Forest.noTopStyle, h1] at this
    have htopr : st.names.len = 0 → rest.noTopStyle = true := by
      intro h0
      have := htop h0
      simp only [Forest.noTopStyle, Bool.and_eq_true] at this
      exact this.2
    -- the start tag
    cases hH : handleStartRegular attrs path tagName (st.namer.next tagName).1
        { st with namer := (st.namer.next tagName).2,
                  names := st.names.push ⟨tagName, (st.namer.next tagName).1⟩ } with
    | mk o s1 =>
      have hstep : tokenStep env gen path (.StartTagToken tagName attrs) st =
          if o = .nil then .next s1 else .stop o s1 := by
        simp only [tokenStep, if_neg hns, handleStartToken, if_neg hinc, hH]
      by_cases ho : o = .nil
      swap
      · -- the start tag fails
        have hloop : tokenizeView env gen path
            (Forest.pair tagName attrs children rest).tokens st = (.returned o, s1) := by
          simp only [Forest.tokens, tokenizeView, hstep, if_neg ho]
        rw [hloop]
        refine ⟨by simp, Or.inr ?_, ?_⟩
        · have := handleStartRegular_error attrs path tagName (st.namer.next tagName).1
            { st with namer := (st.namer.next tagName).2,
                      names := st.names.push ⟨tagName, (st.namer.next tagName).1⟩ }
          rw [hH] at this
          rcases this with h | ⟨c, h⟩
          · exact absurd h ho
          · exact ⟨c, by simp only at h; rw [h]⟩
        · intro hno
          simp only [Forest.noRef, Bool.and_eq_true] at hno
          have := handleStartRegular_noRef attrs path tagName (st.namer.next tagName).1
            { st with namer := (st.namer.next tagName).2,
                      names := st.names.push ⟨tagName, (st.namer.next tagName).1⟩ } hno.1.1
          rw [hH] at this
          exact absurd this ho
      · subst ho
        obtain ⟨a1, a2, a3, a4, a5, a6⟩ := handleStartRegular_lines attrs path tagName
          (st.namer.next tagName).1
          { st with namer := (st.namer.next tagName).2,
                    names := st.names.push ⟨tagName, (st.namer.next tagName).1⟩ }
          (by rw [hH])
        rw [hH] at a1 a2 a3 a4 a5 a6
        simp only at a1 a2 a3 a4 a5 a6
        have hlen1 : s1.names.len ≠ 0 := by rw [a2]; exact stack.len_push _ _
        have hpar1 : s1.names.parent = some (st.namer.next tagName).1 := by
          rw [a2]; simp [stack.parent, stack.peek_push]
        have hloop0 : tokenizeView env gen path
            (Forest.pair tagName attrs children rest).tokens st =
            tokenizeView env gen path
              (children.tokens ++ Token.EndTagToken tagName :: rest.tokens) s1 := by
          simp only [Forest.tokens, tokenizeView, hstep, if_true]
        obtain ⟨c1, c2, c3⟩ := ihc s1 hpc (fun h0 => absurd h0 hlen1)
        -- the children
        cases hK : tokenizeView env gen path children.tokens s1 with
        | mk ex s2 =>
          rw [hK] at c1 c2 c3
          simp only at c1 c2 c3
          cases ex with
          | insideStyle zz =>
            rcases c2 with h | ⟨c, h⟩ <;> simp at h
          | returned oc =>
            have hloop : tokenizeView env gen path
                (Forest.pair tagName attrs children rest).tokens st = (.returned oc, s2) := by
              rw [hloop0]
              exact tokenizeView_append_returned env gen path _ _ _ _ _ hK
            rw [hloop]
            refine ⟨by simp, Or.inr ?_, ?_⟩
            · rcases c2 with h | ⟨c, h⟩
              · simp at h
              · exact ⟨c, h⟩
            · intro hno
              simp only [Forest.noRef, Bool.and_eq_true] at hno
              have := c3 hno.1.2
              simp at this
          | eof =>
            obtain ⟨k1, k2, k3, k4, k5, k6⟩ := c1 rfl
            -- the end tag
            have hpop : s2.names.pop = some (⟨tagName, (st.namer.next tagName).1⟩, st.names) := by
              rw [k3, a2]; exact stack.pop_push _ _
            have hend : tokenStep env gen path (.EndTagToken tagName) s2 =
                .next (handleEndToken tagName (st.namer.next tagName).1
                  { s2 with names := st.names }) := by
              simp only [tokenStep, hpop]
            have hloop1 : tokenizeView env gen path
                (Forest.pair tagName attrs children rest).tokens st =
                tokenizeView env gen path rest.tokens
                  (handleEndToken tagName (st.namer.next tagName).1
                    { s2 with names := st.names }) := by
              rw [hloop0, tokenizeView_append env gen path _ _ _ _ hK]
              simp only [tokenizeView, hend]
            rw [handleEndToken_eq _ _ _ hinc] at hloop1
            simp only at hloop1
            obtain ⟨r1, r2, r3⟩ := ihr
              { s2 with names := st.names,
                        funcBuf := s2.funcBuf ++ appendLine st.names.parent
                          (st.namer.next tagName).1,
                        roots := s2.roots ++
                          (if st.names.len = 0 then [(st.namer.next tagName).1] else []) }
              hpr htopr
            rw [hloop1]
            refine ⟨?_, r2, ?_⟩
            · intro he
              obtain ⟨q1, q2, q3, q4, q5, q6⟩ := r1 he
              simp only at q1 q2 q3 q4 q5 q6
              refine ⟨?_, ?_, q3, ?_, ?_, ?_⟩
              · rw [q1, k1, a1, hpar1, k4, a3]
                simp [Forest.lines]
              · rw [q2, k2, a4, k4, a3]
                simp only [if_neg hlen1, List.append_nil]
                by_cases h0 : st.names.len = 0
                · simp [h0, Forest.topNames]
                · simp [h0]
              · rw [q4, k4, a3]; rfl
              · rw [q5, k5, a5]
              · rw [q6, k6, a6]
            · intro hno
              simp only [Forest.noRef, Bool.and_eq_true] at hno
              exact r3 hno.2
  | selfClosing tagName attrs rest ihr =>
    intro st hplain htop
    simp only [Forest.plain, Bool.and_eq_true, decide_eq_true_eq] at hplain
    obtain ⟨hinc, hpr⟩ := hplain
    have htopr : st.names.len = 0 → rest.noTopStyle = true := by
      intro h0
      have := htop h0
      simpa [Forest.noTopStyle] using this
    cases hH : handleStartRegular attrs path tagName (st.namer.next tagName).1
        { st with namer := (st.namer.next tagName).2 } with
    | mk o s1 =>
      have hstep : tokenStep env gen path (.SelfClosingTagToken tagName attrs) st =
          if o = .nil then .next (handleEndToken tagName (st.namer.next tagName).1 s1)
          else .stop o s1 := by
        simp only [tokenStep, handleStartToken, if_neg hinc, hH]
      by_cases ho : o = .nil
      swap
      · have hloop : tokenizeView env gen path
            (Forest.selfClosing tagName attrs rest).tokens st = (.returned o, s1) := by
          simp only [Forest.tokens, tokenizeView, hstep, if_neg ho]
        rw [hloop]
        refine ⟨by simp, Or.inr ?_, ?_⟩
        · have := handleStartRegular_error attrs path tagName (st.namer.next tagName).1
            { st with namer := (st.namer.next tagName).2 }
          rw [hH] at this
          rcases this with h | ⟨c, h⟩
          · exact absurd h ho
          · exact ⟨c, by simp only at h; rw [h]⟩
        · intro hno
          simp only [Forest.noRef, Bool.and_eq_true] at hno
          have := handleStartRegular_noRef attrs path tagName (st.namer.next tagName).1
            { st with namer := (st.namer.next tagName).2 } hno.1
          rw [hH] at this
          exact absurd this ho
      · subst ho
        obtain ⟨a1, a2, a3, a4, a5, a6⟩ := handleStartRegular_lines attrs path tagName
          (st.namer.next tagName).1 { st with namer := (st.namer.next tagName).2 }
          (by rw [hH])
        rw [hH] at a1 a2 a3 a4 a5 a6
        simp only at a1 a2 a3 a4 a5 a6
        have hloop1 : tokenizeView env gen path
            (Forest.selfClosing tagName attrs rest).tokens st =
            tokenizeView env gen path rest.tokens
              (handleEndToken tagName (st.namer.next tagName).1 s1) := by
          simp only [Forest.tokens, tokenizeView, hstep, if_true]
        rw [handleEndToken_eq _ _ _ hinc] at hloop1
        obtain ⟨r1, r2, r3⟩ := ihr
          { s1 with funcBuf := s1.funcBuf ++ appendLine s1.names.parent
                      (st.namer.next tagName).1,
                    roots := s1.roots ++
                      (if s1.names.len = 0 then [(st.namer.next tagName).1] else []) }
          hpr (by rw [a2]; exact htopr)
        rw [hloop1]
        refine ⟨?_, r2, ?_⟩
        · intro he
          obtain ⟨q1, q2, q3, q4, q5, q6⟩ := r1 he
          simp only at q1 q2 q3 q4 q5 q6
          refine ⟨?_, ?_, by rw [q3, a2], ?_, by rw [q5, a5], by rw [q6, a6]⟩
          · rw [q1, a1, a2, a3]
            simp [Forest.lines]
          · rw [q2, a4, a2, a3]
            by_cases h0 : st.names.len = 0
            · simp [h0, Forest.topNames]
            · simp [h0]
          · rw [q4, a3]; rfl
        · intro hno
          simp only [Forest.noRef, Bool.and_eq_true] at hno
          exact r3 hno.2

theorem Forest.length_topNames (f : Forest) : ∀ nm, (f.topNames nm).length = f.top := by
  induction f with
  | nil => intro nm; rfl
  | pair tagName attrs children rest _ ihr =>
    intro nm; simp [Forest.topNames, Forest.top, ihr]; omega
  | selfClosing tagName attrs rest ihr =>
    intro nm; simp [Forest.topNames, Forest.top, ihr]; omega

theorem countP_attrLines (varName : String) (attrs : List (String × String)) :
    (attrLines varName attrs).countP Line.isAppendChild = 0 := by
  simp [attrLines, List.countP_eq_zero, Line.isAppendChild]

/-- Every element under a parent gets one AppendChild instruction. -/
theorem Forest.countP_lines_some (f : Forest) :
    ∀ (p : String) (nm : varNames),
      (f.lines (some p) nm).countP Line.isAppendChild = f.size := by
  induction f with
  | nil => intro p nm; rfl
  | pair tagName attrs children rest ihc ihr =>
    intro p nm
    simp only [Forest.lines, List.countP_cons, List.countP_append, countP_attrLines, ihc, ihr,
      appendLine, Forest.size, Line.isAppendChild]
    simp
    omega
  | selfClosing tagName attrs rest ihr =>
    intro p nm
    simp only [Forest.lines, List.countP_cons, List.countP_append, countP_attrLines, ihr,
      appendLine, Forest.size, Line.isAppendChild]
    simp

/-- Every element gets one AppendChild instruction, except those without parent. -/
theorem Forest.countP_lines_none (f : Forest) :
    ∀ (nm : varNames),
      (f.lines none nm).countP Line.isAppendChild + f.top = f.size := by
  induction f with
  | nil => intro nm; rfl
  | pair tagName attrs children rest _ ihr =>
    intro nm
    have := ihr (children.namerAfter (nm.next tagName).2)
    simp only [Forest.lines, List.countP_cons, List.countP_append, countP_attrLines,
      Forest.countP_lines_some, appendLine, Forest.size, Forest.top, Line.isAppendChild]
    simp
    omega
  | selfClosing tagName attrs rest ihr =>
    intro nm
    have := ihr (nm.next tagName).2
    simp only [Forest.lines, List.countP_cons, List.countP_append, countP_attrLines,
      appendLine, Forest.size, Forest.top, Line.isAppendChild]
    simp
    omega

/-- **C8.** On the token stream of properly nested plain elements with no top-level
style start tag, taken at nesting depth zero, the loop either ends at the end of
the stream or stops at an `Error` of the unit for a `ref` attribute; it ends at the
end of the stream when no element has a `ref` attribute.  When it ends there, the
roots it has added are the variable names of the elements without ancestor, in the
order of their closing tags, one per such element, and the code it has written is
that of the forest: every element with an ancestor has exactly one AppendChild
instruction, under its parent, and those without ancestor have none.  A unit that
consists of such a stream is written to the view buffer with these roots. -/
theorem C8_roots_and_children (env : Env) (gen : String → orderedSet → generator → Result)
    (path : String) (f : Forest) (st : unitState)
    (hplain : f.plain = true) (htop : f.noTopStyle = true) (hdepth : st.names.len = 0) :
    ((tokenizeView env gen path f.tokens st).1 = .eof →
      (tokenizeView env gen path f.tokens st).2.roots = st.roots ++ f.topNames st.namer ∧
      (tokenizeView env gen path f.tokens st).2.funcBuf = st.funcBuf ++ f.lines none st.namer) ∧
    (f.topNames st.namer).length = f.top ∧
    (f.lines none st.namer).countP Line.isAppendChild + f.top = f.size ∧
    ((tokenizeView env gen path f.tokens st).1 = .eof ∨
      ∃ c, (tokenizeView env gen path f.tokens st).1 = .returned (.error (.Error path c))) ∧
    (f.noRef = true → (tokenizeView env gen path f.tokens st).1 = .eof) ∧
    (∀ (h : orderedSet) (g : generator), h.has path = false → f.noRef = true →
      (generateComponent env gen f.tokens path h g).out = .nil ∧
      ∃ sF : unitState,
        (generateComponent env gen f.tokens path h g).g.viewsBuf =
          g.viewsBuf ++ unitLines env path (componentTypeName (env.Base path)) sF ∧
        sF.roots = f.topNames newVarNames ∧
        sF.funcBuf = Line.funcOpen (constructorFuncName env (componentTypeName (env.Base path)))
          (componentTypeName (env.Base path)) :: f.lines none newVarNames) := by
  obtain ⟨a1, a2, a3⟩ := tokenizeView_forest env gen path f st hplain (fun _ => htop)
  have hpar : st.names.parent = none := by
    simp [stack.parent, (stack.peek_eq_none st.names).2 hdepth]
  refine ⟨?_, f.length_topNames _, f.countP_lines_none _, a2, a3, ?_⟩
  · intro he
    obtain ⟨b1, b2, _⟩ := a1 he
    rw [hpar] at b1
    rw [if_pos hdepth] at b2
    exact ⟨b2, b1⟩
  · intro h g hhas hno
    obtain ⟨i1, _, i3⟩ := tokenizeView_forest env gen path f (unitState.init env path h g)
      hplain (fun _ => htop)
    have he := i3 hno
    obtain ⟨j1, j2, _, _, j5, _⟩ := i1 he
    have hnil : (generateComponent env gen f.tokens path h g).out = .nil := by
      simp only [generateComponent, hhas, he, Bool.false_eq_true, if_false]
    obtain ⟨_, _, c3, _⟩ := generateComponent_g env gen f.tokens path h g hhas
    refine ⟨hnil, (tokenizeView env gen path f.tokens (unitState.init env path h g)).2,
      ?_, ?_, ?_⟩
    · rw [c3 hnil, j5]; rfl
    · rw [j2]; simp [unitState.init, stack.len]
    · rw [j1]; simp [unitState.init, stack.parent, stack.peek, stack.len]

theorem C8_roots_and_children_witness :
    specificElement.topNames newVarNames = ["div0"] ∧
    specificElement.lines none newVarNames =
      [.createElement "div0" "div", .createElement "audio0" "audio",
       .appendChild "div0" "audio0"] ∧
    (((tokenizeView (Env.sample []) (generateOneFile (Env.sample []) 0)
          "testdata/standalone/specificElement.html" specificElement.tokens
          (unitState.init (Env.sample []) "testdata/standalone/specificElement.html"
            newOrderedSet (startGenerator ⟨"ui", "/"⟩))).1 = .eof →
      (tokenizeView (Env.sample []) (generateOneFile (Env.sample []) 0)
          "testdata/standalone/specificElement.html" specificElement.tokens
          (unitState.init (Env.sample []) "testdata/standalone/specificElement.html"
            newOrderedSet (startGenerator ⟨"ui", "/"⟩))).2.roots =
        (unitState.init (Env.sample []) "testdata/standalone/specificElement.html"
            newOrderedSet (startGenerator ⟨"ui", "/"⟩)).roots ++
          specificElement.topNames (unitState.init (Env.sample [])
            "testdata/standalone/specificElement.html"
            newOrderedSet (startGenerator ⟨"ui", "/"⟩)).namer ∧
      (tokenizeView (Env.sample []) (generateOneFile (Env.sample []) 0)
          "testdata/standalone/specificElement.html" specificElement.tokens
          (unitState.init (Env.sample []) "testdata/standalone/specificElement.html"
            newOrderedSet (startGenerator ⟨"ui", "/"⟩))).2.funcBuf =
        (unitState.init (Env.sample []) "testdata/standalone/specificElement.html"
            newOrderedSet (startGenerator ⟨"ui", "/"⟩)).funcBuf ++
          specificElement.lines none (unitState.init (Env.sample [])
            "testdata/standalone/specificElement.html"
            newOrderedSet (startGenerator ⟨"ui", "/"⟩)).namer)) ∧
    (tokenizeView (Env.sample []) (generateOneFile (Env.sample []) 0)
      "testdata/standalone/specificElement.html" specificElement.tokens
      (unitState.init (Env.sample []) "testdata/standalone/specificElement.html"
        newOrderedSet (startGenerator ⟨"ui", "/"⟩))).1 = .eof :=
  ⟨by decide, by decide,
   (C8_roots_and_children (Env.sample []) (generateOneFile (Env.sample []) 0)
      "testdata/standalone/specificElement.html" specificElement
      (unitState.init (Env.sample []) "testdata/standalone/specificElement.html"
        newOrderedSet (startGenerator ⟨"ui", "/"⟩))
      (by decide) (by decide) (by decide)).1,
   (C8_roots_and_children (Env.sample []) (generateOneFile (Env.sample []) 0)
      "testdata/standalone/specificElement.html" specificElement
      (unitState.init (Env.sample []) "testdata/standalone/specificElement.html"
        newOrderedSet (startGenerator ⟨"ui", "/"⟩))
      (by decide) (by decide) (by decide)).2.2.2.2.1 (by decide)⟩

/-! ## A single element -/

theorem range_nil (env : Env) (path : String) :
    env.rangeTypeDefinition path [] = [] ∧ env.rangeReturn path [] = [] :=
  ⟨List.Perm.eq_nil (env.rangeTypeDefinition_perm path []),
   List.Perm.eq_nil (env.rangeReturn_perm path [])⟩

theorem next_zero (tagName : String) : (newVarNames.next tagName).1 = tagName ++ "0" := by
  simp [varNames.next, newVarNames, mapGet]
  rfl

/-- **C9 (as amended).** For every tag name other than `include` and `style`,
compiling a unit whose token stream is the single self-closing tag of that name
without attributes succeeds; so does, when the tag name is also not `plaintext`,
compiling the unit whose token stream is the start tag of that name followed by its
end tag, which is what the tokenizer gives for `<t></t>` (for `plaintext` it gives
no end tag: what follows the start tag is text).  In both cases the unit has
exactly one root, the element, and no ref entry: the type written has the `roots`
field as its only field. -/
theorem C9_single_element (env : Env) (gen : String → orderedSet → generator → Result)
    (tagName path : String) (h : orderedSet) (g : generator)
    (hhas : h.has path = false) (hinc : tagName ≠ "include") (hstyle : tagName ≠ "style") :
    ((generateComponent env gen [.SelfClosingTagToken tagName []] path h g).out = .nil ∧
      (generateComponent env gen [.SelfClosingTagToken tagName []] path h g).g =
        { g with viewsBuf := g.viewsBuf ++ singleElementLines env path tagName }) ∧
    (tagName ≠ "plaintext" →
      (generateComponent env gen [.StartTagToken tagName [], .EndTagToken tagName] path h g).out
        = .nil ∧
      (generateComponent env gen [.StartTagToken tagName [], .EndTagToken tagName] path h g).g =
        { g with viewsBuf := g.viewsBuf ++ singleElementLines env path tagName }) := by
  have hr := range_nil env path
  have hn := next_zero tagName
  refine ⟨?_, fun _ => ?_⟩
  · simp [generateComponent, hhas, tokenizeView, tokenStep, handleStartToken, hinc,
      handleStartRegular, attrsFunc, handleEndToken, unitState.init, stack.peek, stack.len,
      unitLines, writeTypeDefinition, writeReturn, hr.1, hr.2, hn, singleElementLines]
  · simp [generateComponent, hhas, tokenizeView, tokenStep, handleStartToken, hinc, hstyle,
      handleStartRegular, attrsFunc, handleEndToken, unitState.init, stack.peek, stack.len,
      stack.push, stack.pop, unitLines, writeTypeDefinition, writeReturn, hr.1, hr.2, hn,
      singleElementLines]

theorem C9_single_element_witness :
    ((generateComponent (Env.sample []) (generateOneFile (Env.sample []) 0)
        [.SelfClosingTagToken "br" []] "l.html" newOrderedSet (startGenerator ⟨"ui", "/"⟩)).out
        = .nil ∧
      (generateComponent (Env.sample []) (generateOneFile (Env.sample []) 0)
        [.SelfClosingTagToken "br" []] "l.html" newOrderedSet (startGenerator ⟨"ui", "/"⟩)).g =
        { startGenerator ⟨"ui", "/"⟩ with
          viewsBuf := (startGenerator ⟨"ui", "/"⟩).viewsBuf ++
            singleElementLines (Env.sample []) "l.html" "br" }) ∧
    ("br" ≠ "plaintext" →
      (generateComponent (Env.sample []) (generateOneFile (Env.sample []) 0)
        [.StartTagToken "br" [], .EndTagToken "br"] "l.html" newOrderedSet
        (startGenerator ⟨"ui", "/"⟩)).out = .nil ∧
      (generateComponent (Env.sample []) (generateOneFile (Env.sample []) 0)
        [.StartTagToken "br" [], .EndTagToken "br"] "l.html" newOrderedSet
        (startGenerator ⟨"ui", "/"⟩)).g =
        { startGenerator ⟨"ui", "/"⟩ with
          viewsBuf := (startGenerator ⟨"ui", "/"⟩).viewsBuf ++
            singleElementLines (Env.sample []) "l.html" "br" }) :=
  C9_single_element (Env.sample []) (generateOneFile (Env.sample []) 0) "br" "l.html"
    newOrderedSet (startGenerator ⟨"ui", "/"⟩) (by decide) (by decide) (by decide)

/-- The claim as stated fails for the tag names `style`, `include` and `plaintext`:
`<style></style>` has no style text, an include directive needs a path, and for
`<plaintext></plaintext>` the tokenizer gives the start tag and then the text
`</plaintext>`, so that the element is never closed: the unit compiles with a
SetTextContent instruction and without a root. -/
theorem C9_counterexample :
    (generateComponent (Env.sample []) (generateOneFile (Env.sample []) 0)
      [.StartTagToken "style" [], .EndTagToken "style"] "l.html" newOrderedSet
      (startGenerator ⟨"ui", "/"⟩)).out = .error (.Error "l.html" .noStyleText) ∧
    (generateComponent (Env.sample []) (generateOneFile (Env.sample []) 0)
      [.StartTagToken "include" [], .EndTagToken "include"] "l.html" newOrderedSet
      (startGenerator ⟨"ui", "/"⟩)).out = .error (.Error "l.html" .missingPath) ∧
    (generateComponent (Env.sample []) (generateOneFile (Env.sample []) 0)
      [.SelfClosingTagToken "include" []] "l.html" newOrderedSet
      (startGenerator ⟨"ui", "/"⟩)).out = .error (.Error "l.html" .missingPath) ∧
    ((generateComponent (Env.sample []) (generateOneFile (Env.sample []) 0)
        [.StartTagToken "plaintext" [], .TextToken "</plaintext>"] "l.html" newOrderedSet
        (startGenerator ⟨"ui", "/"⟩)).out = .nil ∧
      (generateComponent (Env.sample []) (generateOneFile (Env.sample []) 0)
        [.StartTagToken "plaintext" [], .TextToken "</plaintext>"] "l.html" newOrderedSet
        (startGenerator ⟨"ui", "/"⟩)).g.viewsBuf =
        [.header "ui", .sourceComment "l.html", .typeOpen "l", .rootsField, .typeClose,
         .funcOpen "newL" "l", .createElement "plaintext0" "plaintext",
         .constString "stringliteral0" "</plaintext>",
         .setTextContent "plaintext0" "stringliteral0",
         .returnOpen "l", .rootsInit [], .returnClose, .funcClose]) := by
  decide

/-! ## A top-level style block -/

theorem tokenStep_style (env : Env) (gen : String → orderedSet → generator → Result)
    (path : String) (attrs : List (String × String)) (st : unitState)
    (hdepth : st.names.len = 0) :
    tokenStep env gen path (.StartTagToken "style" attrs) st =
      .enterStyle { st with
        namer := (st.namer.next "style").2,
        names := st.names.push ⟨"style", (st.namer.next "style").1⟩ } := by
  simp [tokenStep, hdepth]

/-- **C10 (as amended).** When the token loop of a unit reaches a `style` start tag
with no open ancestor, the loop ends there and the element contributes nothing to
the constructor: the code, the roots and the ref map that go into the view buffer
are those the loop had when it reached the tag.  The compilation succeeds exactly
when the token that follows the style start tag is a text token, and then the
stylesheet buffer grows, from what it held when the tag was reached, by exactly
`/* source: <path> */`, a newline, the whitespace-trimmed text of that token, and
two newlines. -/
theorem C10_style_block (env : Env) (gen : String → orderedSet → generator → Result)
    (z : List Token) (path : String) (h : orderedSet) (g : generator)
    (pre rest : List Token) (attrs : List (String × String)) (st : unitState)
    (hhas : h.has path = false)
    (hz : z = pre ++ Token.StartTagToken "style" attrs :: rest)
    (hpre : tokenizeView env gen path pre (unitState.init env path h g) = (.eof, st))
    (hdepth : st.names.len = 0) :
    (∃ sF : unitState, sF.funcBuf = st.funcBuf ∧ sF.roots = st.roots ∧ sF.refs = st.refs ∧
      (generateComponent env gen z path h g).g.viewsBuf =
        st.g.viewsBuf ++ unitLines env path (componentTypeName (env.Base path)) sF) ∧
    (∀ text rest1, rest = Token.TextToken text :: rest1 →
      (generateComponent env gen z path h g).out = .nil ∧
      (generateComponent env gen z path h g).g.cssBuf = st.g.cssBuf ++ styleBlock path text ∧
      styleBlock path text = "/* source: " ++ path ++ " */\n" ++ TrimSpace text ++ "\n\n") ∧
    ((generateComponent env gen z path h g).out = .nil →
      ∃ text rest1, rest = Token.TextToken text :: rest1) := by
  have hloop : tokenizeView env gen path z (unitState.init env path h g) =
      (.insideStyle rest, { st with
        namer := (st.namer.next "style").2,
        names := st.names.push ⟨"style", (st.namer.next "style").1⟩ }) := by
    rw [hz, tokenizeView_append env gen path pre _ _ st hpre]
    simp only [tokenizeView, tokenStep_style env gen path attrs st hdepth]
  refine ⟨⟨{ st with
        namer := (st.namer.next "style").2,
        names := st.names.push ⟨"style", (st.namer.next "style").1⟩ }, rfl, rfl, rfl, ?_⟩,
    ?_, ?_⟩
  · cases rest with
    | nil => simp [generateComponent, hhas, hloop]
    | cons tok rest1 =>
      cases tok <;> simp [generateComponent, hhas, hloop]
  · intro text rest1 hr
    subst hr
    simp [generateComponent, hhas, hloop]
    rfl
  · intro hnil
    cases rest with
    | nil => simp [generateComponent, hhas, hloop] at hnil
    | cons tok rest1 =>
      cases tok <;> simp [generateComponent, hhas, hloop] at hnil
      exact ⟨_, _, rfl⟩

theorem C10_style_block_witness :
    (generateComponent (Env.sample []) (generateOneFile (Env.sample []) 0)
      [.StartTagToken "p" [], .EndTagToken "p", .StartTagToken "style" [],
       .TextToken "\n  p { color: red }\n", .EndTagToken "style"]
      "m.html" newOrderedSet (startGenerator ⟨"ui", "/"⟩)).out = .nil ∧
    (generateComponent (Env.sample []) (generateOneFile (Env.sample []) 0)
      [.StartTagToken "p" [], .EndTagToken "p", .StartTagToken "style" [],
       .TextToken "\n  p { color: red }\n", .EndTagToken "style"]
      "m.html" newOrderedSet (startGenerator ⟨"ui", "/"⟩)).g.cssBuf =
      (tokenizeView (Env.sample []) (generateOneFile (Env.sample []) 0) "m.html"
        [.StartTagToken "p" [], .EndTagToken "p"]
        (unitState.init (Env.sample []) "m.html" newOrderedSet
          (startGenerator ⟨"ui", "/"⟩))).2.g.cssBuf ++
        styleBlock "m.html" "\n  p { color: red }\n" ∧
    styleBlock "m.html" "\n  p { color: red }\n" =
      "/* source: " ++ "m.html" ++ " */\n" ++ TrimSpace "\n  p { color: red }\n" ++ "\n\n" :=
  (C10_style_block (Env.sample []) (generateOneFile (Env.sample []) 0)
      [.StartTagToken "p" [], .EndTagToken "p", .StartTagToken "style" [],
       .TextToken "\n  p { color: red }\n", .EndTagToken "style"]
      "m.html" newOrderedSet (startGenerator ⟨"ui", "/"⟩)
      [.StartTagToken "p" [], .EndTagToken "p"]
      [.TextToken "\n  p { color: red }\n", .EndTagToken "style"] [] _
      (by decide) rfl rfl (by decide)).2.1 "\n  p { color: red }\n" [.EndTagToken "style"] rfl

/-- The claim as stated fails for a style element that follows another top-level
style block: the loop has stopped, `<style>a{}</style><style>b{}</style>` compiles
and only the first block is in the stylesheet.  It also fails for a self-closing
style tag with no open ancestor, which is processed as an ordinary element, with a
CreateElement instruction and a root, and leaves the stylesheet buffer as it was. -/
theorem C10_counterexample :
    ((generateComponent (Env.sample []) (generateOneFile (Env.sample []) 0)
        [.StartTagToken "style" [], .TextToken "a{}", .EndTagToken "style",
         .StartTagToken "style" [], .TextToken "b{}", .EndTagToken "style"]
        "m.html" newOrderedSet (startGenerator ⟨"ui", "/"⟩)).out = .nil ∧
      (generateComponent (Env.sample []) (generateOneFile (Env.sample []) 0)
        [.StartTagToken "style" [], .TextToken "a{}", .EndTagToken "style",
         .StartTagToken "style" [], .TextToken "b{}", .EndTagToken "style"]
        "m.html" newOrderedSet (startGenerator ⟨"ui", "/"⟩)).g.cssBuf =
        (startGenerator ⟨"ui", "/"⟩).cssBuf ++ "/* source: m.html */\na{}\n\n") ∧
    ((generateComponent (Env.sample []) (generateOneFile (Env.sample []) 0)
        [.SelfClosingTagToken "style" [], .TextToken "p { color: red }"] "m.html"
        newOrderedSet (startGenerator ⟨"ui", "/"⟩)).out = .nil ∧
      (generateComponent (Env.sample []) (generateOneFile (Env.sample []) 0)
        [.SelfClosingTagToken "style" [], .TextToken "p { color: red }"] "m.html"
        newOrderedSet (startGenerator ⟨"ui", "/"⟩)).g.viewsBuf =
        [.header "ui", .sourceComment "m.html", .typeOpen "m", .rootsField, .typeClose,
         .funcOpen "newM" "m", .createElement "style0" "style", .returnOpen "m",
         .rootsInit ["style0"], .returnClose, .funcClose] ∧
      (generateComponent (Env.sample []) (generateOneFile (Env.sample []) 0)
        [.SelfClosingTagToken "style" [], .TextToken "p { color: red }"] "m.html"
        newOrderedSet (startGenerator ⟨"ui", "/"⟩)).g.cssBuf =
        (startGenerator ⟨"ui", "/"⟩).cssBuf) := by
  decide

/-! ## Missing style text, nested style elements, tokens after the style text -/

theorem handleStartRegular_g (attrs : List (String × String))
    (path tagName varName : String) (st : unitState) :
    (handleStartRegular attrs path tagName varName st).2.g = st.g :=
  handleStartRegular_inv path (fun _ g1 _ => g1 = st.g) (fun _ _ _ h => h) attrs tagName
    varName st rfl

theorem tokenStep_g_of_not_include (env : Env)
    (gen : String → orderedSet → generator → Result) (path : String) (tok : Token)
    (st : unitState) (hinc : tok.isInclude = false) :
    (tokenStep env gen path tok st).st.g = st.g := by
  cases tok with
  | ErrorToken err => rfl
  | TextToken text =>
    simp only [tokenStep]
    split
    · rfl
    · split <;> rfl
  | StartTagToken tagName attrs =>
    have hne : tagName ≠ "include" := by simpa [Token.isInclude] using hinc
    simp only [tokenStep, handleStartToken, if_neg hne]
    split
    · rfl
    · split <;> simp only [Step.st] <;> rw [handleStartRegular_g]
  | EndTagToken tagName =>
    simp only [tokenStep]
    split
    · rfl
    · simp only [Step.st]
      rw [(handleEndToken_g _ _ _).1]
  | SelfClosingTagToken tagName attrs =>
    have hne : tagName ≠ "include" := by simpa [Token.isInclude] using hinc
    simp only [tokenStep, handleStartToken, if_neg hne]
    split
    · simp only [Step.st]
      rw [(handleEndToken_g _ _ _).1, handleStartRegular_g]
    · simp only [Step.st]
      rw [handleStartRegular_g]
  | CommentToken text => rfl
  | DoctypeToken text => rfl

theorem tokenizeView_g_of_no_include (env : Env)
    (gen : String → orderedSet → generator → Result) (path : String) :
    ∀ (z : List Token) (st : unitState), (∀ tok ∈ z, tok.isInclude = false) →
      (tokenizeView env gen path z st).2.g = st.g := by
  intro z
  induction z with
  | nil => intro st _; rfl
  | cons tok z ih =>
    intro st hz
    have h1 := tokenStep_g_of_not_include env gen path tok st (hz tok (List.mem_cons_self _ _))
    simp only [tokenizeView]
    split
    · rename_i st1 heq
      rw [heq] at h1
      rw [ih st1 (fun t ht => hz t (List.mem_cons_of_mem _ ht))]
      exact h1
    · rename_i st1 heq
      rw [heq] at h1
      exact h1
    · rename_i out st1 heq
      rw [heq] at h1
      exact h1

/-- **C11.** When the token loop of a unit reaches a `style` start tag with no open
ancestor, the compilation returns the error `cannot find <style> text`, as an `Error`
with the path of the unit, exactly when the token that follows the style start tag is
not a text token (the end of the input included); otherwise it returns nil.  When it
fails, the stylesheet buffer is unchanged: it is what it was when the loop reached
the style start tag, and that is what it was when the compilation of the unit began
if no include directive comes before the tag. -/
theorem C11_style_text_missing (env : Env) (gen : String → orderedSet → generator → Result)
    (z : List Token) (path : String) (h : orderedSet) (g : generator)
    (pre rest : List Token) (attrs : List (String × String)) (st : unitState)
    (hhas : h.has path = false)
    (hz : z = pre ++ Token.StartTagToken "style" attrs :: rest)
    (hpre : tokenizeView env gen path pre (unitState.init env path h g) = (.eof, st))
    (hdepth : st.names.len = 0) :
    ((generateComponent env gen z path h g).out = .error (.Error path .noStyleText) ↔
      ¬ ∃ text rest1, rest = Token.TextToken text :: rest1) ∧
    Cause.message env.quote .noStyleText = "cannot find <style> text" ∧
    ((∃ text rest1, rest = Token.TextToken text :: rest1) →
      (generateComponent env gen z path h g).out = .nil) ∧
    ((generateComponent env gen z path h g).out ≠ .nil →
      (generateComponent env gen z path h g).g.cssBuf = st.g.cssBuf ∧
      ((∀ tok ∈ pre, tok.isInclude = false) →
        (generateComponent env gen z path h g).g.cssBuf = g.cssBuf)) := by
  have hloop : tokenizeView env gen path z (unitState.init env path h g) =
      (.insideStyle rest, { st with
        namer := (st.namer.next "style").2,
        names := st.names.push ⟨"style", (st.namer.next "style").1⟩ }) := by
    rw [hz, tokenizeView_append env gen path pre _ _ st hpre]
    simp only [tokenizeView, tokenStep_style env gen path attrs st hdepth]
  have hg : (∀ tok ∈ pre, tok.isInclude = false) → st.g = g := by
    intro hno
    have := tokenizeView_g_of_no_include env gen path pre (unitState.init env path h g) hno
    rw [hpre] at this
    exact this
  refine ⟨?_, rfl, ?_, ?_⟩
  · cases rest with
    | nil => simp [generateComponent, hhas, hloop]
    | cons tok rest1 =>
      cases tok <;> simp [generateComponent, hhas, hloop]
  · rintro ⟨text, rest1, hr⟩
    subst hr
    simp [generateComponent, hhas, hloop]
  · intro hne
    have hcss : (generateComponent env gen z path h g).g.cssBuf = st.g.cssBuf := by
      cases rest with
      | nil => simp [generateComponent, hhas, hloop]
      | cons tok rest1 =>
        cases tok <;> simp [generateComponent, hhas, hloop] at hne ⊢
    exact ⟨hcss, fun hno => by rw [hcss, hg hno]⟩

theorem C11_style_text_missing_witness :
    (generateComponent (Env.sample []) (generateOneFile (Env.sample []) 0)
      [.StartTagToken "p" [], .EndTagToken "p", .StartTagToken "style" [],
       .EndTagToken "style"]
      "m.html" newOrderedSet (startGenerator ⟨"ui", "/"⟩)).out
      = .error (.Error "m.html" .noStyleText) ∧
    (generateComponent (Env.sample []) (generateOneFile (Env.sample []) 0)
      [.StartTagToken "p" [], .EndTagToken "p", .StartTagToken "style" [],
       .EndTagToken "style"]
      "m.html" newOrderedSet (startGenerator ⟨"ui", "/"⟩)).g.cssBuf
      = (startGenerator ⟨"ui", "/"⟩).cssBuf :=
  have key := C11_style_text_missing (Env.sample []) (generateOneFile (Env.sample []) 0)
    [.StartTagToken "p" [], .EndTagToken "p", .StartTagToken "style" [], .EndTagToken "style"]
    "m.html" newOrderedSet (startGenerator ⟨"ui", "/"⟩)
    [.StartTagToken "p" [], .EndTagToken "p"] [.EndTagToken "style"] [] _
    (by decide) rfl rfl (by decide)
  ⟨key.1.2 (by simp), (key.2.2.2 (by decide)).2 (by decide)⟩

/-- **C12.** At a `style` start tag met while the stack is not empty the loop does
not enter style capture.  Its step is the step of a plain start tag, the same for
every tag name other than `include`: the tag is pushed on the stack and
`handleStartRegular` writes the CreateElement instruction, a SetAttribute
instruction per attribute other than `ref`, and enters the ref.  Unless that returns
an error, the loop goes on with the tokens that follow.  The step leaves the
generator, and so the stylesheet buffer, as it was. -/
theorem C12_nested_style (env : Env) (gen : String → orderedSet → generator → Result)
    (path : String) (attrs : List (String × String)) (z : List Token) (st : unitState)
    (hdepth : st.names.len ≠ 0) :
    (∀ s, tokenStep env gen path (.StartTagToken "style" attrs) st ≠ .enterStyle s) ∧
    (∀ tagName, tagName ≠ "include" →
      tokenStep env gen path (.StartTagToken tagName attrs) st =
        plainStartStep path tagName attrs st) ∧
    (∀ st1, plainStartStep path "style" attrs st = .next st1 →
      tokenizeView env gen path (.StartTagToken "style" attrs :: z) st =
        tokenizeView env gen path z st1 ∧
      st1.funcBuf = st.funcBuf ++
        Line.createElement (st.namer.next "style").1 "style" ::
          attrLines (st.namer.next "style").1 attrs ∧
      st1.names = st.names.push ⟨"style", (st.namer.next "style").1⟩ ∧
      st1.roots = st.roots) ∧
    (tokenStep env gen path (.StartTagToken "style" attrs) st).st.g = st.g := by
  have hplain : ∀ tagName, tagName ≠ "include" →
      tokenStep env gen path (.StartTagToken tagName attrs) st =
        plainStartStep path tagName attrs st := by
    intro tagName hne
    have hns : ¬ (tagName = "style" ∧ st.names.len = 0) := fun hc => hdepth hc.2
    simp only [tokenStep, if_neg hns, handleStartToken, if_neg hne, plainStartStep,
      Token.entry]
  have hstyle := hplain "style" (by decide)
  refine ⟨?_, hplain, ?_, ?_⟩
  · intro s hs
    rw [hstyle] at hs
    unfold plainStartStep at hs
    split at hs <;> exact Step.noConfusion hs
  · intro st1 hst1
    have hnil : (handleStartRegular attrs path "style" (st.namer.next "style").1
        ((Token.StartTagToken "style" attrs).entry st)).1 = .nil := by
      unfold plainStartStep at hst1
      by_contra hc
      rw [if_neg hc] at hst1
      exact Step.noConfusion hst1
    have hst1eq : st1 = (handleStartRegular attrs path "style" (st.namer.next "style").1
        ((Token.StartTagToken "style" attrs).entry st)).2 := by
      unfold plainStartStep at hst1
      rw [if_pos hnil] at hst1
      exact (Step.next.inj hst1).symm
    obtain ⟨a1, a2, _, a4, _, _⟩ := handleStartRegular_lines attrs path "style"
      (st.namer.next "style").1 ((Token.StartTagToken "style" attrs).entry st) hnil
    refine ⟨?_, ?_, ?_, ?_⟩
    · simp only [tokenizeView, hstyle, hst1]
    · rw [hst1eq, a1]; rfl
    · rw [hst1eq, a2]; rfl
    · rw [hst1eq, a4]; rfl
  · rw [hstyle]
    unfold plainStartStep
    split <;> simp only [Step.st] <;> rw [handleStartRegular_g] <;> rfl

theorem C12_nested_style_witness :
    insideDiv.names.len ≠ 0 ∧
    tokenizeView (Env.sample []) (generateOneFile (Env.sample []) 0) "m.html"
      [.StartTagToken "style" [("media", "print")], .TextToken "p \x7b\x7d",
       .EndTagToken "style", .EndTagToken "div"] insideDiv =
      tokenizeView (Env.sample []) (generateOneFile (Env.sample []) 0) "m.html"
        [.TextToken "p \x7b\x7d", .EndTagToken "style", .EndTagToken "div"]
        { insideDiv with
          funcBuf := insideDiv.funcBuf ++
            [.createElement "style0" "style", .setAttribute "style0" "media" "print"],
          namer := (insideDiv.namer.next "style").2,
          names := insideDiv.names.push ⟨"style", "style0"⟩ } :=
  ⟨by decide,
   ((C12_nested_style (Env.sample []) (generateOneFile (Env.sample []) 0) "m.html"
      [("media", "print")]
      [.TextToken "p \x7b\x7d", .EndTagToken "style", .EndTagToken "div"] insideDiv
      (by decide)).2.2.1 _ (by decide)).1⟩

/-- **C19.** When the token loop of a unit reaches a `style` start tag with no open
ancestor and the next token is a text token, the tokens after that text token are
never read: the locals of the unit when the loop is left (the constructor body, the
ref map, the root list) and the whole result of the compilation (the returned error,
the view buffer with the unit's type definition and constructor, the stylesheet
buffer, the memoization set, the recursion history) are the same whatever those
tokens are.  The compilation returns nil, and what it adds to the stylesheet is the
block of the text token. -/
theorem C19_after_style_text (env : Env) (gen : String → orderedSet → generator → Result)
    (path : String) (h : orderedSet) (g : generator)
    (pre : List Token) (attrs : List (String × String)) (t : String) (st : unitState)
    (hhas : h.has path = false)
    (hpre : tokenizeView env gen path pre (unitState.init env path h g) = (.eof, st))
    (hdepth : st.names.len = 0) (rest : List Token) :
    (tokenizeView env gen path
        (pre ++ Token.StartTagToken "style" attrs :: Token.TextToken t :: rest)
        (unitState.init env path h g)).2 =
      (tokenizeView env gen path
        (pre ++ [Token.StartTagToken "style" attrs, Token.TextToken t])
        (unitState.init env path h g)).2 ∧
    generateComponent env gen
        (pre ++ Token.StartTagToken "style" attrs :: Token.TextToken t :: rest) path h g =
      generateComponent env gen
        (pre ++ [Token.StartTagToken "style" attrs, Token.TextToken t]) path h g ∧
    (generateComponent env gen
        (pre ++ Token.StartTagToken "style" attrs :: Token.TextToken t :: rest) path h g).out
      = .nil ∧
    (generateComponent env gen
        (pre ++ Token.StartTagToken "style" attrs :: Token.TextToken t :: rest) path h g).g.cssBuf
      = st.g.cssBuf ++ styleBlock path t := by
  have hloop : ∀ r, tokenizeView env gen path
      (pre ++ Token.StartTagToken "style" attrs :: Token.TextToken t :: r)
      (unitState.init env path h g) =
      (.insideStyle (Token.TextToken t :: r), { st with
        namer := (st.namer.next "style").2,
        names := st.names.push ⟨"style", (st.namer.next "style").1⟩ }) := by
    intro r
    rw [tokenizeView_append env gen path pre _ _ st hpre]
    simp only [tokenizeView, tokenStep_style env gen path attrs st hdepth]
  have h1 := hloop rest
  have h2 := hloop []
  refine ⟨by rw [h1, h2], ?_, ?_, ?_⟩
  · simp only [generateComponent, hhas, h1, h2]
  · simp [generateComponent, hhas, h1]
  · simp [generateComponent, hhas, h1]

theorem C19_after_style_text_witness :
    generateComponent (Env.sample []) (generateOneFile (Env.sample []) 0)
        ([.StartTagToken "p" [], .EndTagToken "p"] ++
          .StartTagToken "style" [] :: .TextToken "p \x7b\x7d" ::
            [.EndTagToken "style", .StartTagToken "div" [("ref", "func")],
             .SelfClosingTagToken "include" [], .EndTagToken "a", .EndTagToken "b",
             .StartTagToken "style" [], .ErrorToken "unexpected"])
        "m.html" newOrderedSet (startGenerator ⟨"ui", "/"⟩) =
      generateComponent (Env.sample []) (generateOneFile (Env.sample []) 0)
        ([.StartTagToken "p" [], .EndTagToken "p"] ++
          [.StartTagToken "style" [], .TextToken "p \x7b\x7d"])
        "m.html" newOrderedSet (startGenerator ⟨"ui", "/"⟩) :=
  (C19_after_style_text (Env.sample []) (generateOneFile (Env.sample []) 0) "m.html"
    newOrderedSet (startGenerator ⟨"ui", "/"⟩) [.StartTagToken "p" [], .EndTagToken "p"] []
    "p \x7b\x7d" _ (by decide) rfl (by decide) _).2.1

/-! ## Text content -/

theorem TrimFunc_data (b : String) (f : Char → Bool) :
    (TrimFunc b f).data = (b.data.dropWhile f).rdropWhile f := rfl

theorem formatTextContent_data (b : String) :
    (formatTextContent b).data =
      ((b.data.filter (fun c => c != '\n')).dropWhile isSpaceExceptNBSP).rdropWhile
        isSpaceExceptNBSP := rfl

theorem trim_idempotent (f : Char → Bool) (l : List Char) :
    ((((l.dropWhile f).rdropWhile f).dropWhile f).rdropWhile f) =
      (l.dropWhile f).rdropWhile f := by
  have hpre : (l.dropWhile f).rdropWhile f <+: l.dropWhile f := List.rdropWhile_prefix f _
  have hdrop : ((l.dropWhile f).rdropWhile f).dropWhile f = (l.dropWhile f).rdropWhile f := by
    cases ht : (l.dropWhile f).rdropWhile f with
    | nil => rfl
    | cons x xs =>
      rw [ht] at hpre
      obtain ⟨r, hr⟩ := hpre
      have hnot := List.head?_dropWhile_not f l
      rw [← hr] at hnot
      simp only [List.cons_append, List.head?_cons] at hnot
      rw [List.dropWhile_cons_of_neg (by rw [hnot]; simp)]
  rw [hdrop, List.rdropWhile_idempotent]

theorem prefix_rdropWhile (f : Char → Bool) (pre : List Char) (hne : pre ≠ [])
    (hpre : ∀ c ∈ pre, f c = false) :
    ∀ r, pre <+: (pre ++ r).rdropWhile f := by
  intro r
  induction r using List.reverseRecOn with
  | nil =>
    rw [List.append_nil, List.rdropWhile_eq_self_iff.2]
    intro _
    rw [hpre _ (List.getLast_mem hne)]
    simp
  | append_singleton r x ih =>
    by_cases hx : f x = true
    · rw [← List.append_assoc, List.rdropWhile_concat_pos _ _ _ hx]
      exact ih
    · rw [← List.append_assoc, List.rdropWhile_concat_neg _ _ _ hx, List.append_assoc]
      exact List.prefix_append _ _

theorem suffix_dropWhile (f : Char → Bool) (suf : List Char) (hne : suf ≠ [])
    (hsuf : ∀ c ∈ suf, f c = false) :
    ∀ r, suf <:+ (r ++ suf).dropWhile f := by
  intro r
  induction r with
  | nil =>
    cases suf with
    | nil => exact absurd rfl hne
    | cons x xs =>
      rw [List.nil_append, List.dropWhile_cons_of_neg (by rw [hsuf x (List.mem_cons_self _ _)]; simp)]
  | cons x r ih =>
    by_cases hx : f x = true
    · rw [List.cons_append, List.dropWhile_cons_of_pos hx]
      exact ih
    · rw [List.cons_append, List.dropWhile_cons_of_neg hx]
      exact ⟨x :: r, rfl⟩

theorem filter_newline_of_nbsp (l : List Char) (hl : ∀ c ∈ l, c = NBSP) :
    l.filter (fun c => c != '\n') = l := by
  rw [List.filter_eq_self]
  intro c hc
  rw [hl c hc]
  decide

/-- **C13.** A text made only of newlines and of white-space code points other than
U+00A0 is formatted to the empty text, and the loop passes over a text token with
such a text without emitting an instruction or allocating a name: its state is
unchanged.  For every text: the formatted text has no newline; a run of U+00A0 at
the beginning of the text is at the beginning of the formatted text, and a run of
U+00A0 at the end of the text is at the end of the formatted text; and formatting a
formatted text changes nothing. -/
theorem C13_format_text (b : String) :
    ((∀ c ∈ b.data, c = '\n' ∨ (IsSpace c = true ∧ c ≠ NBSP)) →
      formatTextContent b = "" ∧
      ∀ (env : Env) (gen : String → orderedSet → generator → Result) (path : String)
        (st : unitState), tokenStep env gen path (.TextToken b) st = .next st) ∧
    '\n' ∉ (formatTextContent b).data ∧
    (∀ pre, (∀ c ∈ pre, c = NBSP) → pre <+: b.data → pre <+: (formatTextContent b).data) ∧
    (∀ suf, (∀ c ∈ suf, c = NBSP) → suf <:+ b.data → suf <:+ (formatTextContent b).data) ∧
    formatTextContent (formatTextContent b) = formatTextContent b := by
  have hnb : isSpaceExceptNBSP NBSP = false := by decide
  refine ⟨?_, ?_, ?_, ?_, ?_⟩
  · intro hall
    have hempty : formatTextContent b = "" := by
      have hdrop : (b.data.filter (fun c => c != '\n')).dropWhile isSpaceExceptNBSP = [] := by
        rw [List.dropWhile_eq_nil_iff]
        intro c hc
        have hcb := (List.mem_filter.1 hc).1
        rcases hall c hcb with h1 | ⟨h1, h2⟩
        · subst h1; decide
        · unfold isSpaceExceptNBSP
          have : c.toNat ≠ 0xA0 := by
            intro hn
            apply h2
            apply Char.ext
            apply UInt32.ext
            simpa [Char.toNat, NBSP] using hn
          rw [if_neg this, h1]
      apply String.ext
      rw [formatTextContent_data, hdrop]
      rfl
    refine ⟨hempty, ?_⟩
    intro env gen path st
    simp [tokenStep, hempty]
  · intro hmem
    rw [formatTextContent_data] at hmem
    have h1 := (List.rdropWhile_prefix isSpaceExceptNBSP _).subset hmem
    have h2 := (List.dropWhile_suffix isSpaceExceptNBSP).subset h1
    have h3 := (List.mem_filter.1 h2).2
    simp at h3
  · intro pre hpre hb
    by_cases hne : pre = []
    · subst hne; exact List.nil_prefix
    obtain ⟨r, hr⟩ := hb
    have hf : ∀ c ∈ pre, isSpaceExceptNBSP c = false := fun c hc => by rw [hpre c hc, hnb]
    rw [formatTextContent_data, ← hr, List.filter_append, filter_newline_of_nbsp pre hpre]
    have hd : (pre ++ r.filter (fun c => c != '\n')).dropWhile isSpaceExceptNBSP =
        pre ++ r.filter (fun c => c != '\n') := by
      cases pre with
      | nil => exact absurd rfl hne
      | cons x xs =>
        rw [List.cons_append,
          List.dropWhile_cons_of_neg (by rw [hf x (List.mem_cons_self _ _)]; simp)]
    rw [hd]
    exact prefix_rdropWhile _ pre hne hf _
  · intro suf hsuf hb
    by_cases hne : suf = []
    · subst hne; exact List.nil_suffix
    obtain ⟨r, hr⟩ := hb
    have hf : ∀ c ∈ suf, isSpaceExceptNBSP c = false := fun c hc => by rw [hsuf c hc, hnb]
    rw [formatTextContent_data, ← hr, List.filter_append, filter_newline_of_nbsp suf hsuf]
    obtain ⟨r1, hr1⟩ := suffix_dropWhile isSpaceExceptNBSP suf hne hf
      (r.filter (fun c => c != '\n'))
    rw [← hr1, List.rdropWhile_eq_self_iff.2]
    · exact ⟨r1, rfl⟩
    · intro hl
      rw [List.getLast_append_of_ne_nil hne, hf _ (List.getLast_mem hne)]
      simp
  · apply String.ext
    rw [formatTextContent_data (formatTextContent b), formatTextContent_data b]
    have hfil : (((b.data.filter (fun c => c != '\n')).dropWhile isSpaceExceptNBSP).rdropWhile
        isSpaceExceptNBSP).filter (fun c => c != '\n') =
        ((b.data.filter (fun c => c != '\n')).dropWhile isSpaceExceptNBSP).rdropWhile
          isSpaceExceptNBSP := by
      rw [List.filter_eq_self]
      intro c hc
      have h1 := (List.rdropWhile_prefix isSpaceExceptNBSP _).subset hc
      have h2 := (List.dropWhile_suffix isSpaceExceptNBSP).subset h1
      exact (List.mem_filter.1 h2).2
    rw [hfil, trim_idempotent]

theorem C13_format_text_witness :
    (∀ c ∈ "\n \t\r\n  ".data, c = '\n' ∨ (IsSpace c = true ∧ c ≠ NBSP)) ∧
    formatTextContent "\n \t\r\n  " = "" ∧
    tokenStep (Env.sample []) (generateOneFile (Env.sample []) 0) "m.html"
      (.TextToken "\n \t\r\n  ") insideDiv = .next insideDiv :=
  ⟨by decide, ((C13_format_text "\n \t\r\n  ").1 (by decide)).1,
   ((C13_format_text "\n \t\r\n  ").1 (by decide)).2 _ _ _ _⟩

/-- The text of `ref.html` and a text with non-breaking spaces, formatted. -/
theorem formatTextContent_examples :
    formatTextContent "\n  README\n" = "README" ∧
    formatTextContent (String.mk [NBSP, ' ', 'a', '\n', 'b', ' ', NBSP, ' ']) =
      String.mk [NBSP, ' ', 'a', 'b', ' ', NBSP] := by
  decide

/-! ## Type and constructor names -/

theorem lastIndex_none (c : Char) : ∀ l : List Char, c ∉ l → lastIndex c l = none := by
  intro l
  induction l with
  | nil => intro _; rfl
  | cons x xs ih =>
    intro h
    simp only [List.mem_cons, not_or] at h
    simp only [lastIndex, ih h.2]
    rw [if_neg (fun hx => h.1 hx.symm)]

theorem lastIndex_append (c : Char) (l2 : List Char) (h2 : c ∉ l2) :
    ∀ l1 : List Char, lastIndex c (l1 ++ c :: l2) = some l1.length := by
  intro l1
  induction l1 with
  | nil => simp [lastIndex, lastIndex_none c l2 h2]
  | cons x xs ih => simp [lastIndex, ih]

/-- **C15.** The type name of a file base name is the base name cut before its last
`.`, and the base name itself when it has no `.`.  The constructor name of a type
name is `New` followed by the type name when the first code point of the type name
is an upper-case letter, and otherwise `new` followed by the type name with its first
code point replaced by its upper-case form (`new` alone for the empty type name).
With the paths of the golden files: `ref.html` gives the type `ref` and the
constructor `newRef`, `specificElement.html` gives `specificElement` and
`newSpecificElement`. -/
theorem C15_type_and_constructor_names (env : Env) :
    (∀ pre suf : String, '.' ∉ suf.data → componentTypeName (pre ++ "." ++ suf) = pre) ∧
    (∀ f : String, '.' ∉ f.data → componentTypeName f = f) ∧
    (∀ (t : String) c rest, t.data = c :: rest → env.IsUpper c = true →
      constructorFuncName env t = "New" ++ t) ∧
    (∀ (t : String) c rest, t.data = c :: rest → env.IsUpper c = false →
      constructorFuncName env t = "new" ++ String.mk (env.ToUpper c :: rest)) ∧
    (env.IsUpper (Char.ofNat 0xFFFD) = false → constructorFuncName env "" = "new") ∧
    (componentTypeName ((Env.sample []).Base "testdata/standalone/ref.html") = "ref" ∧
      constructorFuncName (Env.sample []) "ref" = "newRef" ∧
      componentTypeName ((Env.sample []).Base "testdata/standalone/specificElement.html")
        = "specificElement" ∧
      constructorFuncName (Env.sample []) "specificElement" = "newSpecificElement") := by
  refine ⟨?_, ?_, ?_, ?_, ?_, by decide⟩
  · intro pre suf hsuf
    unfold componentTypeName
    have hd : (pre ++ "." ++ suf).data = pre.data ++ '.' :: suf.data := by
      simp [String.data_append]
    rw [hd, lastIndex_append '.' suf.data hsuf pre.data]
    simp
  · intro f hf
    unfold componentTypeName
    rw [lastIndex_none '.' f.data hf]
  · intro t c rest ht hup
    simp [constructorFuncName, isExportedName, ht, hup]
  · intro t c rest ht hup
    simp [constructorFuncName, isExportedName, toUppperFirstRune, ht, hup]
  · intro hup
    have : ("" : String).data = [] := rfl
    simp [constructorFuncName, isExportedName, toUppperFirstRune, this, hup]

theorem C15_type_and_constructor_names_witness :
    '.' ∉ "html".data ∧ componentTypeName ("a.b" ++ "." ++ "html") = "a.b" ∧
    "Main".data = 'M' :: "ain".data ∧ (Env.sample []).IsUpper 'M' = true ∧
    constructorFuncName (Env.sample []) "Main" = "New" ++ "Main" :=
  ⟨by decide, (C15_type_and_constructor_names (Env.sample [])).1 "a.b" "html" (by decide),
   rfl, rfl,
   (C15_type_and_constructor_names (Env.sample [])).2.2.1 "Main" 'M' "ain".data rfl rfl⟩

/-! ## Variable names -/

theorem digitChar_spec (k : Nat) (hk : k < 10) :
    (Nat.digitChar k).isDigit = true ∧ (Nat.digitChar k).toNat - 48 = k := by
  interval_cases k <;> exact ⟨by decide, by decide⟩

theorem toDigitsCore_spec : ∀ (fuel n : Nat) (ds : List Char), n < fuel →
    ∃ l, Nat.toDigitsCore 10 fuel n ds = l ++ ds ∧ l ≠ [] ∧
      (∀ c ∈ l, c.isDigit = true) ∧ ∀ acc, decimalValue acc l = acc * 10 ^ l.length + n := by
  intro fuel
  induction fuel with
  | zero => intro n ds h; omega
  | succ fuel ih =>
    intro n ds hn
    have hd := digitChar_spec (n % 10) (Nat.mod_lt _ (by decide))
    by_cases h0 : n / 10 = 0
    · refine ⟨[Nat.digitChar (n % 10)], ?_, by simp, ?_, ?_⟩
      · simp [Nat.toDigitsCore, h0]
      · intro c hc
        simp only [List.mem_singleton] at hc
        rw [hc]; exact hd.1
      · intro acc
        simp only [decimalValue, List.foldl, hd.2, List.length_singleton, pow_one]
        omega
    · obtain ⟨l, h1, _, h3, h4⟩ := ih (n / 10) (Nat.digitChar (n % 10) :: ds) (by omega)
      refine ⟨l ++ [Nat.digitChar (n % 10)], ?_, by simp, ?_, ?_⟩
      · simp [Nat.toDigitsCore, h0, h1]
      · intro c hc
        rcases List.mem_append.1 hc with hc | hc
        · exact h3 c hc
        · simp only [List.mem_singleton] at hc
          rw [hc]; exact hd.1
      · intro acc
        have := h4 acc
        simp only [decimalValue] at this
        simp only [decimalValue, List.foldl_append, this, List.foldl, hd.2, List.length_append,
          List.length_singleton, pow_succ]
        have := Nat.div_add_mod n 10
        ring_nf
        ring_nf at this
        omega

theorem toString_spec (n : Nat) :
    (toString n).data ≠ [] ∧ (∀ c ∈ (toString n).data, c.isDigit = true) ∧
    decimalValue 0 (toString n).data = n := by
  obtain ⟨l, h1, h2, h3, h4⟩ := toDigitsCore_spec (n + 1) n [] (Nat.lt_succ_self n)
  have hd : (toString n).data = l := by
    show (Nat.repr n).data = l
    simp [Nat.repr, Nat.toDigits, h1, List.asString]
  rw [hd]
  exact ⟨h2, h3, by simpa using h4 0⟩

theorem toString_injective (n m : Nat) (h : toString n = toString m) : n = m := by
  rw [← (toString_spec n).2.2, ← (toString_spec m).2.2, h]

/-- Two names of the form kind and counter are equal only for the same kind and
counter, or for two kinds of which one is the other followed by decimal digits. -/
theorem name_eq (k1 k2 : String) (n1 n2 : Nat) (h : k1 ++ toString n1 = k2 ++ toString n2) :
    (k1 = k2 ∧ n1 = n2) ∨
    ∃ digits : List Char, digits ≠ [] ∧ (∀ d ∈ digits, d.isDigit = true) ∧
      (k1.data = k2.data ++ digits ∨ k2.data = k1.data ++ digits) := by
  have hd : k1.data ++ (toString n1).data = k2.data ++ (toString n2).data := by
    rw [← String.data_append, ← String.data_append, h]
  have key : ∀ (a c b d : List Char) (s1 s2 : String) (m1 m2 : Nat),
      s1.data = a → s2.data = c → (toString m1).data = b → (toString m2).data = d →
      (∃ a', c = a ++ a' ∧ b = a' ++ d) →
      (s1 = s2 ∧ m1 = m2) ∨ ∃ digits : List Char, digits ≠ [] ∧
        (∀ x ∈ digits, x.isDigit = true) ∧ s2.data = s1.data ++ digits := by
    intro a c b d s1 s2 m1 m2 ha hc hb hdd ⟨a', h1, h2⟩
    by_cases he : a' = []
    · subst he
      simp only [List.append_nil, List.nil_append] at h1 h2
      left
      refine ⟨String.ext (by rw [ha, hc, h1]), toString_injective _ _ (String.ext ?_)⟩
      rw [hb, hdd, h2]
    · right
      refine ⟨a', he, ?_, by rw [hc, ha, h1]⟩
      intro x hx
      apply (toString_spec m1).2.1
      rw [hb, h2]
      exact List.mem_append_left _ hx
  rcases List.append_eq_append_iff.1 hd with h1 | h1
  · rcases key _ _ _ _ k1 k2 n1 n2 rfl rfl rfl rfl h1 with h2 | ⟨digits, h2, h3, h4⟩
    · exact Or.inl h2
    · exact Or.inr ⟨digits, h2, h3, Or.inr h4⟩
  · rcases key _ _ _ _ k2 k1 n2 n1 rfl rfl rfl rfl h1 with h2 | ⟨digits, h2, h3, h4⟩
    · exact Or.inl ⟨h2.1.symm, h2.2.symm⟩
    · exact Or.inr ⟨digits, h2, h3, Or.inl h4⟩

theorem varNames.nextAll_length : ∀ (kinds : List String) (v : varNames),
    (v.nextAll kinds).length = kinds.length := by
  intro kinds
  induction kinds with
  | nil => intro v; rfl
  | cons k ks ih => intro v; simp [varNames.nextAll, ih]

/-- The call that follows the calls for `pre` returns its kind and the counter the
allocator had for that kind, advanced by the earlier calls of that kind. -/
theorem varNames.nextAll_get : ∀ (pre : List String) (v : varNames) (kind : String)
    (post : List String),
    (v.nextAll (pre ++ kind :: post))[pre.length]? =
      some (kind ++ toString (v.count kind + pre.count kind)) := by
  intro pre
  induction pre with
  | nil => intro v kind post; simp [varNames.nextAll, varNames.next_name]
  | cons k ks ih =>
    intro v kind post
    have h1 : ((v.nextAll ((k :: ks) ++ kind :: post)))[(k :: ks).length]? =
        ((v.next k).2.nextAll (ks ++ kind :: post))[ks.length]? := by
      simp [varNames.nextAll]
    rw [h1, ih, varNames.next_count, List.count_cons]
    by_cases e : kind = k
    · subst e
      simp only [if_true, beq_self_eq_true]
      congr 3
      omega
    · have e2 : (k == kind) = false := by simpa using fun h => e h.symm
      simp only [if_neg e, e2]
      simp

theorem varNames.count_new (kind : String) : newVarNames.count kind = 0 := rfl

theorem varNames.mem_nextAll : ∀ (kinds : List String) (v : varNames) (x : String),
    x ∈ v.nextAll kinds → ∃ k ∈ kinds, ∃ m, v.count k ≤ m ∧ x = k ++ toString m := by
  intro kinds
  induction kinds with
  | nil => intro v x hx; simp [varNames.nextAll] at hx
  | cons k ks ih =>
    intro v x hx
    simp only [varNames.nextAll, List.mem_cons] at hx
    rcases hx with hx | hx
    · exact ⟨k, List.mem_cons_self _ _, v.count k, le_refl _, by rw [hx, varNames.next_name]⟩
    · obtain ⟨k1, hk1, m, hm, hxm⟩ := ih _ x hx
      exact ⟨k1, List.mem_cons_of_mem _ hk1, m,
        le_trans (varNames.count_le_next v k k1) hm, hxm⟩

theorem ends_in_digit (a b : String) (digits : List Char) (hne : digits ≠ [])
    (hd : ∀ d ∈ digits, d.isDigit = true) (h : a.data = b.data ++ digits) :
    ∃ c, a.data.getLast? = some c ∧ c.isDigit = true := by
  refine ⟨digits.getLast hne, ?_, hd _ (List.getLast_mem hne)⟩
  rw [h, List.getLast?_append_of_ne_nil _ hne, List.getLast?_eq_getLast _ hne]

theorem varNames.nextAll_nodup : ∀ (kinds : List String),
    (∀ k ∈ kinds, ∀ c, k.data.getLast? = some c → c.isDigit = false) →
    ∀ v : varNames, (v.nextAll kinds).Nodup := by
  intro kinds
  induction kinds with
  | nil => intro _ v; simp [varNames.nextAll]
  | cons k ks ih =>
    intro hk v
    simp only [varNames.nextAll, List.nodup_cons]
    refine ⟨?_, ih (fun k1 h1 => hk k1 (List.mem_cons_of_mem _ h1)) _⟩
    intro hmem
    obtain ⟨k1, hk1, m, hm, hxm⟩ := varNames.mem_nextAll ks _ _ hmem
    rw [varNames.next_name] at hxm
    rcases name_eq _ _ _ _ hxm with ⟨e1, e2⟩ | ⟨digits, hne, hd, e | e⟩
    · subst e1
      rw [varNames.next_count, if_pos rfl] at hm
      omega
    · obtain ⟨c, hc1, hc2⟩ := ends_in_digit _ _ digits hne hd e
      have := hk k (List.mem_cons_self _ _) c hc1
      rw [hc2] at this
      exact Bool.noConfusion this
    · obtain ⟨c, hc1, hc2⟩ := ends_in_digit _ _ digits hne hd e
      have := hk k1 (List.mem_cons_of_mem _ hk1) c hc1
      rw [hc2] at this
      exact Bool.noConfusion this

/-- **C14 (as amended).** In a sequence of calls of `next` on a fresh allocator, the
call that follows `n` calls for its kind returns the kind followed by the decimal
numeral of `n`.  Two distinct calls of the sequence return the same name only when
they are of different kinds of which one is the other followed by decimal digits: so
calls of the same kind return different names, and all names are different when no
kind ends in a decimal digit. -/
theorem C14_variable_names (kinds : List String) :
    (∀ pre kind post, kinds = pre ++ kind :: post →
      (newVarNames.nextAll kinds)[pre.length]? = some (kind ++ toString (pre.count kind))) ∧
    (∀ pre k1 mid k2 post, kinds = pre ++ k1 :: (mid ++ k2 :: post) →
      (newVarNames.nextAll kinds)[pre.length]? =
        (newVarNames.nextAll kinds)[pre.length + 1 + mid.length]? →
      k1 ≠ k2 ∧ ∃ digits : List Char, digits ≠ [] ∧ (∀ d ∈ digits, d.isDigit = true) ∧
        (k1.data = k2.data ++ digits ∨ k2.data = k1.data ++ digits)) ∧
    ((∀ k ∈ kinds, ∀ c, k.data.getLast? = some c → c.isDigit = false) →
      (newVarNames.nextAll kinds).Nodup) := by
  refine ⟨?_, ?_, fun hk => varNames.nextAll_nodup kinds hk _⟩
  · intro pre kind post hkinds
    rw [hkinds, varNames.nextAll_get, varNames.count_new, Nat.zero_add]
  · intro pre k1 mid k2 post hkinds heq
    have h1 := varNames.nextAll_get pre newVarNames k1 (mid ++ k2 :: post)
    have h2 := varNames.nextAll_get (pre ++ k1 :: mid) newVarNames k2 post
    have hl : (pre ++ k1 :: mid).length = pre.length + 1 + mid.length := by
      simp; omega
    rw [hl, List.append_assoc, List.cons_append] at h2
    rw [hkinds, h1, h2, varNames.count_new, varNames.count_new, Nat.zero_add, Nat.zero_add]
      at heq
    rcases name_eq _ _ _ _ (Option.some.inj heq) with ⟨e1, e2⟩ | ⟨digits, hne, hd, e⟩
    · subst e1
      simp at e2
    · refine ⟨?_, digits, hne, hd, e⟩
      intro e1
      subst e1
      rcases e with e | e <;>
      · have := congrArg List.length e
        simp at this
        exact hne this

theorem C14_variable_names_witness :
    ["div", "p", "div", "stringliteral", "p", "div"] = ["div", "p"] ++ "div" ::
      ["stringliteral", "p", "div"] ∧
    (newVarNames.nextAll ["div", "p", "div", "stringliteral", "p", "div"])[2]? =
      some ("div" ++ toString 1) ∧
    (newVarNames.nextAll ["div", "p", "div", "stringliteral", "p", "div"]).Nodup :=
  ⟨rfl,
   (C14_variable_names ["div", "p", "div", "stringliteral", "p", "div"]).1
     ["div", "p"] "div" ["stringliteral", "p", "div"] rfl,
   (C14_variable_names ["div", "p", "div", "stringliteral", "p", "div"]).2.2 (by decide)⟩

/-- The claim as stated fails for two kinds of which one is the other followed by
digits: the first call for `h1` and the eleventh call for `h` both return `h10`.
The unit `<h1></h1>` followed by eleven times `<h></h>` compiles, and its constructor
declares the variable `h10` twice. -/
theorem C14_counterexample :
    ((newVarNames.nextAll ("h1" :: List.replicate 11 "h"))[0]? = some "h10" ∧
      (newVarNames.nextAll ("h1" :: List.replicate 11 "h"))[11]? = some "h10" ∧
      ¬ (newVarNames.nextAll ("h1" :: List.replicate 11 "h")).Nodup) ∧
    ((generateComponent (Env.sample []) (generateOneFile (Env.sample []) 0) headingTokens
        "n.html" newOrderedSet (startGenerator ⟨"ui", "/"⟩)).out = .nil ∧
      Line.createElement "h10" "h1" ∈
        (generateComponent (Env.sample []) (generateOneFile (Env.sample []) 0) headingTokens
          "n.html" newOrderedSet (startGenerator ⟨"ui", "/"⟩)).g.viewsBuf ∧
      Line.createElement "h10" "h" ∈
        (generateComponent (Env.sample []) (generateOneFile (Env.sample []) 0) headingTokens
          "n.html" newOrderedSet (startGenerator ⟨"ui", "/"⟩)).g.viewsBuf) := by
  decide

/-! ## Fields and initializers of the ref entries -/

theorem mapGet_eq_none_iff {α : Type} (m : List (String × α)) (k : String) :
    mapGet m k = none ↔ k ∉ m.map Prod.fst := by
  induction m with
  | nil => simp [mapGet]
  | cons kv rest ih =>
    obtain ⟨k1, v1⟩ := kv
    by_cases e : k1 = k
    · subst e; simp [mapGet]
    · simp only [mapGet, if_neg e, ih, List.map_cons, List.mem_cons, not_or]
      exact ⟨fun h => ⟨fun h1 => e h1.symm, h⟩, fun h => h.2⟩

theorem mapSet_fresh {α : Type} (m : List (String × α)) (k : String) (v : α)
    (h : mapGet m k = none) : mapSet m k v = m ++ [(k, v)] := by
  induction m with
  | nil => rfl
  | cons kv rest ih =>
    obtain ⟨k1, v1⟩ := kv
    by_cases e : k1 = k
    · subst e; simp [mapGet] at h
    · simp only [mapGet, if_neg e] at h
      simp [mapSet, e, ih h]

theorem RefsOK.set {env : Env} {refs : Refs} (hok : RefsOK env refs) (k : String)
    (e : tagAndVarAndTypeName) (hnone : mapGet refs k = none) (he : RefOrigin env e) :
    RefsOK env (mapSet refs k e) := by
  rw [mapSet_fresh refs k e hnone]
  refine ⟨?_, ?_⟩
  · rw [List.map_append, List.nodup_append]
    refine ⟨hok.1, by simp, ?_⟩
    intro x hx hx1
    simp only [List.map_cons, List.map_nil, List.mem_singleton] at hx1
    subst hx1
    exact (mapGet_eq_none_iff refs x).1 hnone hx
  · intro kv hkv
    rcases List.mem_append.1 hkv with h1 | h1
    · exact hok.2 kv h1
    · simp only [List.mem_singleton] at h1
      subst h1
      exact he

theorem regularAttr_refsOK (env : Env) (path tagName varName k v : String) (st : unitState)
    (hplain : tagName ≠ "include") (hok : RefsOK env st.refs) :
    RefsOK env (regularAttr path tagName varName k v st).2.refs := by
  unfold regularAttr
  split
  · split
    · exact hok
    · split
      · exact hok
      · rename_i hnone
        exact hok.set v _ hnone (Or.inr ⟨hplain, rfl⟩)
  · exact hok

theorem handleStartRegular_refsOK (env : Env) (attrs : List (String × String))
    (path tagName varName : String) (st : unitState)
    (hplain : tagName ≠ "include") (hok : RefsOK env st.refs) :
    RefsOK env (handleStartRegular attrs path tagName varName st).2.refs := by
  unfold handleStartRegular
  exact attrsFunc_inv (regularAttr path tagName varName) (fun _ c => RefsOK env c.refs)
    (fun k v c hc => regularAttr_refsOK env path tagName varName k v c hplain hc) attrs _ hok

theorem handleStartInclude_refsOK (env : Env)
    (gen : String → orderedSet → generator → Result) (attrs : List (String × String))
    (path varName : String) (st : unitState) (hok : RefsOK env st.refs) :
    RefsOK env (handleStartInclude env gen attrs path "include" varName st).2.refs := by
  have key := attrsFunc_inv (includeAttr env gen path varName)
    (fun o c => RefsOK env c.st.refs ∧
      (o = .nil → c.foundPathAttr = true →
        ∃ p, c.includeTypeName = componentTypeName (env.Base p)))
    (by
      intro k v c hc
      unfold includeAttr
      simp only
      split
      · exact ⟨hc.1, fun h => Outcome.noConfusion h⟩
      · split
        · split
          · exact ⟨hc.1, fun h => Outcome.noConfusion h⟩
          · exact ⟨hc.1, fun _ => hc.2 rfl⟩
        · split
          · exact ⟨hc.1, fun _ _ => ⟨_, rfl⟩⟩
          · rename_i hne
            exact ⟨hc.1, fun h => absurd h hne⟩) attrs
    { foundPathAttr := false, refAttrVal := "", includeTypeName := "", st := st }
    ⟨hok, fun _ h => Bool.noConfusion h⟩
  unfold handleStartInclude
  simp only
  split
  · rename_i hn
    split
    · exact key.1
    · rename_i hfound
      split
      · split
        · exact key.1
        · rename_i hnone
          simp only [Bool.not_eq_true, Bool.not_eq_false] at hfound
          exact key.1.set _ _ hnone (Or.inl ⟨rfl, key.2 hn (by simpa using hfound)⟩)
      · exact key.1
  · exact key.1

theorem handleEndToken_refs (tagName varName : String) (st : unitState) :
    (handleEndToken tagName varName st).refs = st.refs := by
  unfold handleEndToken
  split
  · rfl
  · split <;> rfl

theorem tokenStep_refsOK (env : Env) (gen : String → orderedSet → generator → Result)
    (path : String) (tok : Token) (st : unitState) (hok : RefsOK env st.refs) :
    RefsOK env (tokenStep env gen path tok st).st.refs := by
  have hstart : ∀ attrs tagName varName (s : unitState), RefsOK env s.refs →
      RefsOK env (handleStartToken env gen attrs path tagName varName s).2.refs := by
    intro attrs tagName varName s hs
    unfold handleStartToken
    split
    · rename_i hinc
      subst hinc
      exact handleStartInclude_refsOK env gen attrs path varName s hs
    · rename_i hinc
      exact handleStartRegular_refsOK env attrs path tagName varName s hinc hs
  cases tok with
  | ErrorToken err => exact hok
  | TextToken text =>
    simp only [tokenStep]
    split
    · exact hok
    · split <;> exact hok
  | StartTagToken tagName attrs =>
    simp only [tokenStep]
    split
    · exact hok
    · split <;> exact hstart _ _ _ _ hok
  | EndTagToken tagName =>
    simp only [tokenStep]
    split
    · exact hok
    · simp only [Step.st]
      rw [handleEndToken_refs]
      exact hok
  | SelfClosingTagToken tagName attrs =>
    simp only [tokenStep]
    split
    · simp only [Step.st]
      rw [handleEndToken_refs]
      exact hstart _ _ _ _ hok
    · exact hstart _ _ _ _ hok
  | CommentToken text => exact hok
  | DoctypeToken text => exact hok

theorem tokenizeView_refsOK (env : Env) (gen : String → orderedSet → generator → Result)
    (path : String) : ∀ (z : List Token) (st : unitState), RefsOK env st.refs →
    RefsOK env (tokenizeView env gen path z st).2.refs := by
  intro z
  induction z with
  | nil => intro st h0; exact h0
  | cons tok z ih =>
    intro st h0
    have h1 := tokenStep_refsOK env gen path tok st h0
    simp only [tokenizeView]
    split
    · rename_i st1 heq
      rw [heq] at h1
      exact ih st1 h1
    · rename_i st1 heq
      rw [heq] at h1
      exact h1
    · rename_i out st1 heq
      rw [heq] at h1
      exact h1

theorem writeTypeDefinition_eq (env : Env) (path typeName : String) (refs : Refs) :
    writeTypeDefinition env path typeName refs =
      [.sourceComment path, .typeOpen typeName] ++
        refs.map (fun kv => Line.field kv.1 (Ref.fieldType env kv.2)) ++
        [.rootsField, .typeClose] := by
  unfold writeTypeDefinition
  congr 2
  apply List.map_congr_left
  intro kv _
  unfold Ref.fieldType
  by_cases h : kv.2.TypeName = ""
  · simp only [h, ne_eq, not_true_eq_false, if_false, if_true]
    cases env.webapiNames kv.2.TagName <;> rfl
  · simp only [h, ne_eq, not_false_eq_true, if_true, if_false]

theorem writeReturn_eq (env : Env) (typeName : String) (refs : Refs) (roots : List String) :
    writeReturn env typeName refs roots =
      [.returnOpen typeName] ++ refs.map (fun kv => Ref.initializer env kv.1 kv.2) ++
        [.rootsInit roots, .returnClose] := by
  unfold writeReturn
  congr 2
  apply List.map_congr_left
  intro kv _
  unfold Ref.initializer
  cases env.webapiNames kv.2.TagName <;> rfl

/-- **C16.** For every ref map, and whatever the order in which `range` visits it,
`writeTypeDefinition` writes the source comment and the opening of the type, then
one field line per ref entry and no other, then the field `roots []*dom.Element` and
the closing brace.  The field of an entry is named by the ref name; its type is `*`
and the nested unit's type name for an entry that carries one, else `*` and the
binding type that `webapiNames` reports for the tag name, else `*dom.Element`.
`writeReturn` writes one initializer per ref entry and no other, between the opening
of the literal and the roots; the variable is wrapped in the conversion function
exactly when `webapiNames` reports one for the tag name.  In the ref map of a unit
every name occurs once, an entry of a plain tag carries no type name, and an entry
of an include directive carries the type name of the included unit.  The unit
`<a ref="readme">README</a>` gets the field `readme *html.HTMLAnchorElement` and the
initializer `readme: html.HTMLAnchorElementFromJS(a0),`. -/
theorem C16_fields_and_initializers (env : Env) (path typeName : String) (refs : Refs)
    (roots : List String) :
    (∃ fields,
      writeTypeDefinition env path typeName (env.rangeTypeDefinition path refs) =
        [.sourceComment path, .typeOpen typeName] ++ fields ++ [.rootsField, .typeClose] ∧
      fields.Perm (refs.map (fun kv => Line.field kv.1 (Ref.fieldType env kv.2)))) ∧
    (∃ inits,
      writeReturn env typeName (env.rangeReturn path refs) roots =
        [.returnOpen typeName] ++ inits ++ [.rootsInit roots, .returnClose] ∧
      inits.Perm (refs.map (fun kv => Ref.initializer env kv.1 kv.2))) ∧
    (∀ (gen : String → orderedSet → generator → Result) (z : List Token) (h : orderedSet)
        (g : generator),
      RefsOK env (tokenizeView env gen path z (unitState.init env path h g)).2.refs) ∧
    ((generateComponent (Env.sample []) (generateOneFile (Env.sample []) 0) refTokens
        "testdata/standalone/ref.html" newOrderedSet (startGenerator ⟨"ui", "/"⟩)).g.viewsBuf =
      [.header "ui", .sourceComment "testdata/standalone/ref.html", .typeOpen "ref",
       .field "readme" "*html.HTMLAnchorElement", .rootsField, .typeClose,
       .funcOpen "newRef" "ref", .createElement "a0" "a",
       .constString "stringliteral0" "README", .setTextContent "a0" "stringliteral0",
       .returnOpen "ref", .fieldInitFromJS "readme" "html.HTMLAnchorElementFromJS" "a0",
       .rootsInit ["a0"], .returnClose, .funcClose] ∧
      Line.render (Env.sample []).quote (.field "readme" "*html.HTMLAnchorElement") =
        "readme *html.HTMLAnchorElement\n" ∧
      Line.render (Env.sample []).quote
        (.fieldInitFromJS "readme" "html.HTMLAnchorElementFromJS" "a0") =
        "readme: html.HTMLAnchorElementFromJS(a0),\n") := by
  refine ⟨⟨_, writeTypeDefinition_eq env path typeName _,
      (env.rangeTypeDefinition_perm path refs).map _⟩,
    ⟨_, writeReturn_eq env typeName _ roots, (env.rangeReturn_perm path refs).map _⟩,
    ?_, by decide⟩
  · intro gen z h g
    exact tokenizeView_refsOK env gen path z _ ⟨List.nodup_nil, fun _ hkv => by cases hkv⟩

/-! ## The iteration order of the ref map -/

theorem perm_eq_of_length_le_one {α : Type} {l1 l2 : List α} (h : l1.Perm l2)
    (hl : l2.length ≤ 1) : l1 = l2 := by
  match l2, hl with
  | [], _ => exact List.Perm.eq_nil h
  | [a], _ => exact List.perm_singleton.1 h

/-- **C18 (as amended).** For two orders in which `range` may visit the ref map of a
unit, `writeTypeDefinition` writes the same lines before and after the fields, and
field lines that are the same up to their order; `writeReturn` writes the same lines
before and after the initializers, and initializers that are the same up to their
order.  For a ref map with at most one entry the lines written are the same. -/
theorem C18_iteration_order (env : Env) (path typeName : String) (refs order1 order2 : Refs)
    (roots : List String) (h1 : order1.Perm refs) (h2 : order2.Perm refs) :
    (∃ fields1 fields2,
      writeTypeDefinition env path typeName order1 =
        [.sourceComment path, .typeOpen typeName] ++ fields1 ++ [.rootsField, .typeClose] ∧
      writeTypeDefinition env path typeName order2 =
        [.sourceComment path, .typeOpen typeName] ++ fields2 ++ [.rootsField, .typeClose] ∧
      fields1.Perm fields2) ∧
    (∃ inits1 inits2,
      writeReturn env typeName order1 roots =
        [.returnOpen typeName] ++ inits1 ++ [.rootsInit roots, .returnClose] ∧
      writeReturn env typeName order2 roots =
        [.returnOpen typeName] ++ inits2 ++ [.rootsInit roots, .returnClose] ∧
      inits1.Perm inits2) ∧
    (refs.length ≤ 1 →
      writeTypeDefinition env path typeName order1 =
        writeTypeDefinition env path typeName order2 ∧
      writeReturn env typeName order1 roots = writeReturn env typeName order2 roots) := by
  have h12 : order1.Perm order2 := h1.trans h2.symm
  refine ⟨⟨_, _, writeTypeDefinition_eq env path typeName order1,
      writeTypeDefinition_eq env path typeName order2, h12.map _⟩,
    ⟨_, _, writeReturn_eq env typeName order1 roots, writeReturn_eq env typeName order2 roots,
      h12.map _⟩, ?_⟩
  intro hl
  rw [perm_eq_of_length_le_one h1 hl, perm_eq_of_length_le_one h2 hl]
  exact ⟨rfl, rfl⟩

theorem C18_iteration_order_witness :
    (writeTypeDefinition (Env.sample []) "ref.html" "ref" [("readme", ⟨"a", "a0", ""⟩)] =
        writeTypeDefinition (Env.sample []) "ref.html" "ref"
          ([("readme", ⟨"a", "a0", ""⟩)] : Refs).reverse ∧
      writeReturn (Env.sample []) "ref" [("readme", ⟨"a", "a0", ""⟩)] ["a0"] =
        writeReturn (Env.sample []) "ref" ([("readme", ⟨"a", "a0", ""⟩)] : Refs).reverse
          ["a0"]) :=
  (C18_iteration_order (Env.sample []) "ref.html" "ref" [("readme", ⟨"a", "a0", ""⟩)]
    [("readme", ⟨"a", "a0", ""⟩)] ([("readme", ⟨"a", "a0", ""⟩)] : Refs).reverse ["a0"]
    (List.Perm.refl _) (List.reverse_perm _)).2.2 (by decide)

set_option maxRecDepth 100000 in
/-- The claim as stated fails for a unit with two refs: the unit
`<a ref="x"></a><p ref="y"></p>`, compiled with the ref map visited in the order of
insertion and compiled with it visited in the opposite order, gives two different
texts. -/
theorem C18_counterexample :
    renderLines (Env.sample []).quote
        (writeTypeDefinition (Env.sample []) "t.html" "t"
          [("x", ⟨"a", "a0", ""⟩), ("y", ⟨"p", "p0", ""⟩)]) =
      "// source: t.html\ntype t struct \x7b\nx *html.HTMLAnchorElement\ny *dom.Element\n" ++
        "roots []*dom.Element\n\x7d\n\n" ∧
    renderLines (Env.sample []).quote
        (writeTypeDefinition (Env.sample []) "t.html" "t"
          [("y", ⟨"p", "p0", ""⟩), ("x", ⟨"a", "a0", ""⟩)]) =
      "// source: t.html\ntype t struct \x7b\ny *dom.Element\nx *html.HTMLAnchorElement\n" ++
        "roots []*dom.Element\n\x7d\n\n" ∧
    renderLines (Env.sample []).quote
        (writeReturn (Env.sample []) "t" [("x", ⟨"a", "a0", ""⟩), ("y", ⟨"p", "p0", ""⟩)]
          ["a0", "p0"]) ≠
      renderLines (Env.sample []).quote
        (writeReturn (Env.sample []) "t" [("y", ⟨"p", "p0", ""⟩), ("x", ⟨"a", "a0", ""⟩)]
          ["a0", "p0"]) ∧
    (Generate (Env.sample twoRefFiles) ["t.html"] ⟨"ui", "/"⟩).err = .nil ∧
    (Generate (Env.sampleReversed twoRefFiles) ["t.html"] ⟨"ui", "/"⟩).err = .nil ∧
    (Generate (Env.sample twoRefFiles) ["t.html"] ⟨"ui", "/"⟩).viewsOut ≠
      (Generate (Env.sampleReversed twoRefFiles) ["t.html"] ⟨"ui", "/"⟩).viewsOut := by
  decide

/-! ## The errors that are returned -/

theorem generateComponent_errorKind (env : Env)
    (gen : String → orderedSet → generator → Result)
    (hgen : ∀ p h g, ErrorKind env (gen p h g).out)
    (z : List Token) (path : String) (h : orderedSet) (g : generator) :
    ErrorKind env (generateComponent env gen z path h g).out := by
  have hk : ∀ p c, ErrorKind env (.error (.Error p c)) :=
    fun p c e he => Or.inl ⟨p, c, (Outcome.error.inj he).symm⟩
  have hloop := tokenizeView_inv env gen path (fun o _ _ => ErrorKind env o)
    (fun p g h _ => hgen p h g) (fun c _ _ _ => hk path c)
    (fun _ _ _ e he => Outcome.noConfusion he) z (unitState.init env path h g)
    (fun e he => Outcome.noConfusion he)
  unfold generateComponent
  split
  · exact hk _ _
  · simp only
    split
    · rename_i out heq
      rw [heq] at hloop
      exact hloop
    · exact fun e he => Outcome.noConfusion he
    · exact fun e he => Outcome.noConfusion he
    · exact hk _ _

theorem generateOneFile_errorKind (env : Env) :
    ∀ (fuel : Nat) (path : String) (h : orderedSet) (g : generator),
      ErrorKind env (generateOneFile env fuel path h g).out := by
  intro fuel
  induction fuel with
  | zero => intro path h g e he; exact Outcome.noConfusion he
  | succ fuel ih =>
    intro path h g
    simp only [generateOneFile]
    split
    · exact fun e he => Outcome.noConfusion he
    · split
      · rename_i hopen
        intro e he
        exact Or.inr ⟨path, (Outcome.error.inj he).symm, hopen⟩
      · rename_i z hopen
        have := generateComponent_errorKind env (generateOneFile env fuel) ih z path h g
        split
        · rename_i hnil
          simp only [hnil]
          exact fun e he => Outcome.noConfusion he
        · exact this

theorem runFiles_errorKind (env : Env) (fuel : Nat) :
    ∀ (input : List String) (g : generator), ErrorKind env (runFiles env fuel input g).1 := by
  intro input
  induction input with
  | nil => intro g e he; exact Outcome.noConfusion he
  | cons p rest ih =>
    intro g
    simp only [runFiles]
    split
    · exact ih _
    · exact generateOneFile_errorKind env fuel p _ g

theorem Generate_errorKind (env : Env) (inputFiles : List String) (opts : Options) :
    ErrorKind env (Generate env inputFiles opts).err := by
  unfold Generate generator.run
  simp only
  split
  · split
    · exact fun e he => Outcome.noConfusion he
    · exact fun e he => Outcome.noConfusion he
  · exact runFiles_errorKind env _ _ _

theorem Generate_fail_nil (env : Env) (inputFiles : List String) (opts : Options) :
    (Generate env inputFiles opts).err = .nil ∨
    ((Generate env inputFiles opts).viewsOut = none ∧
      (Generate env inputFiles opts).cssOut = none) := by
  unfold Generate generator.run
  simp only
  split
  · split
    · exact Or.inl rfl
    · exact Or.inr ⟨rfl, rfl⟩
  · exact Or.inr ⟨rfl, rfl⟩

/-- **C17 (the code at the failing input).** When an entry file or an included file
cannot be opened, `Generate` returns the error of `os.Open` as it is, not an `Error`
of the package; an error of the tokenizer, by contrast, is returned as an `Error`
with the path of the unit.  Every error that `Generate` returns is an `Error` or such
an `os.Open` error, and a call that does not return nil returns no output buffer. -/
theorem C17_open_error_unwrapped :
    Generate (Env.sample []) ["missing.html"] ⟨"ui", "/"⟩ =
      ⟨none, none, .error (.PathError "open" "missing.html")⟩ ∧
    Generate (Env.sample missingIncludeFiles) ["a.html"] ⟨"ui", "/"⟩ =
      ⟨none, none, .error (.PathError "open" "missing.html")⟩ ∧
    Generate (Env.sample [("b.html", [.ErrorToken "unexpected EOF"])]) ["b.html"] ⟨"ui", "/"⟩ =
      ⟨none, none, .error (.Error "b.html" (.tokenize "unexpected EOF"))⟩ ∧
    (∀ (env : Env) (inputFiles : List String) (opts : Options),
      ErrorKind env (Generate env inputFiles opts).err ∧
      ((Generate env inputFiles opts).err = .nil ∨
        ((Generate env inputFiles opts).viewsOut = none ∧
          (Generate env inputFiles opts).cssOut = none))) :=
  ⟨by decide, by decide, by decide,
   fun env inputFiles opts =>
     ⟨Generate_errorKind env inputFiles opts, Generate_fail_nil env inputFiles opts⟩⟩

/-! ## An end tag on the empty stack -/

theorem tokenStep_end_panicked (env : Env) (gen : String → orderedSet → generator → Result)
    (path tagName : String) (st : unitState) :
    (tokenStep env gen path (.EndTagToken tagName) st).out = .panicked ↔ st.names.s = [] := by
  simp only [tokenStep, stack.pop]
  cases hs : st.names.s.getLast? with
  | none =>
    simp only [Step.out, true_iff]
    exact List.getLast?_eq_none_iff.1 hs
  | some v =>
    simp only [Step.out]
    constructor
    · intro h; exact Outcome.noConfusion h
    · intro h; rw [h] at hs; simp at hs

/-- **C20 (the code at the failing input).** At an end tag the loop calls `stack.pop`
without a test, and the step panics exactly when the stack is empty: `stack.pop`
then indexes an empty slice.  The compilation of `</div>`, and of `<p></p></p>`,
panics, and so does `Generate` on a file with that content. -/
theorem C20_pop_on_empty_stack :
    stack.pop ⟨[]⟩ = none ∧
    (∀ (env : Env) (gen : String → orderedSet → generator → Result) (path tagName : String)
        (st : unitState),
      (tokenStep env gen path (.EndTagToken tagName) st).out = .panicked ↔ st.names.s = []) ∧
    (generateComponent (Env.sample []) (generateOneFile (Env.sample []) 0)
      [.EndTagToken "div"] "u.html" newOrderedSet (startGenerator ⟨"ui", "/"⟩)).out
      = .panicked ∧
    (generateComponent (Env.sample []) (generateOneFile (Env.sample []) 0)
      [.StartTagToken "p" [], .EndTagToken "p", .EndTagToken "p"] "u.html" newOrderedSet
      (startGenerator ⟨"ui", "/"⟩)).out = .panicked ∧
    (Generate (Env.sample [("u.html", [.EndTagToken "div"])]) ["u.html"] ⟨"ui", "/"⟩).err
      = .panicked :=
  ⟨by decide, tokenStep_end_panicked, by decide, by decide, by decide⟩

/-! ## The block of a unit -/

theorem BodyOK.append {env : Env} {path : String} {buf : List Line} (hb : BodyOK env path buf)
    (extra : List Line) (he : ∀ l ∈ extra, l.isInstruction = true) :
    BodyOK env path (buf ++ extra) := by
  obtain ⟨body, h1, h2⟩ := hb
  refine ⟨body ++ extra, by rw [h1]; rfl, ?_⟩
  intro l hl
  rcases List.mem_append.1 hl with h | h
  · exact h2 l h
  · exact he l h

theorem handleStartRegular_body (env : Env) (p : String) (attrs : List (String × String))
    (path tagName varName : String) (st : unitState) (hok : BodyOK env p st.funcBuf) :
    BodyOK env p (handleStartRegular attrs path tagName varName st).2.funcBuf := by
  unfold handleStartRegular
  refine attrsFunc_inv (regularAttr path tagName varName) (fun _ c => BodyOK env p c.funcBuf)
    ?_ attrs _ (hok.append _ (by simp [Line.isInstruction]))
  intro k v c hc
  unfold regularAttr
  split
  · split
    · exact hc
    · split
      · exact hc
      · exact hc
  · exact hc.append _ (by simp [Line.isInstruction])

theorem handleStartInclude_body (env : Env) (p : String)
    (gen : String → orderedSet → generator → Result) (attrs : List (String × String))
    (path tagName varName : String) (st : unitState) (hok : BodyOK env p st.funcBuf) :
    BodyOK env p (handleStartInclude env gen attrs path tagName varName st).2.funcBuf := by
  have key := attrsFunc_inv (includeAttr env gen path varName)
    (fun _ c => BodyOK env p c.st.funcBuf)
    (by
      intro k v c hc
      unfold includeAttr
      simp only
      split
      · exact hc
      · split
        · split
          · exact hc
          · exact hc
        · split
          · exact hc.append _ (by simp [Line.isInstruction])
          · exact hc) attrs
    { foundPathAttr := false, refAttrVal := "", includeTypeName := "", st := st } hok
  unfold handleStartInclude
  simp only
  split
  · split
    · exact key
    · split
      · split
        · exact key
        · exact key
      · exact key
  · exact key

theorem handleEndToken_body (env : Env) (p : String) (tagName varName : String)
    (st : unitState) (hok : BodyOK env p st.funcBuf) :
    BodyOK env p (handleEndToken tagName varName st).funcBuf := by
  unfold handleEndToken
  split
  · exact hok
  · split
    · exact hok.append _ (by simp [Line.isInstruction])
    · exact hok.append _ (by simp [Line.isInstruction])

theorem tokenStep_body (env : Env) (p : String)
    (gen : String → orderedSet → generator → Result)
    (path : String) (tok : Token) (st : unitState) (hok : BodyOK env p st.funcBuf) :
    BodyOK env p (tokenStep env gen path tok st).st.funcBuf := by
  have hstart : ∀ attrs tagName varName (s : unitState), BodyOK env p s.funcBuf →
      BodyOK env p (handleStartToken env gen attrs path tagName varName s).2.funcBuf := by
    intro attrs tagName varName s hs
    unfold handleStartToken
    split
    · exact handleStartInclude_body env p gen attrs path tagName varName s hs
    · exact handleStartRegular_body env p attrs path tagName varName s hs
  cases tok with
  | ErrorToken err => exact hok
  | TextToken text =>
    simp only [tokenStep]
    split
    · exact hok
    · split
      · exact hok
      · exact hok.append _ (by simp [Line.isInstruction])
  | StartTagToken tagName attrs =>
    simp only [tokenStep]
    split
    · exact hok
    · split <;> exact hstart _ _ _ _ hok
  | EndTagToken tagName =>
    simp only [tokenStep]
    split
    · exact hok
    · exact handleEndToken_body env p _ _ _ hok
  | SelfClosingTagToken tagName attrs =>
    simp only [tokenStep]
    split
    · exact handleEndToken_body env p _ _ _ (hstart _ _ _ _ hok)
    · exact hstart _ _ _ _ hok
  | CommentToken text => exact hok
  | DoctypeToken text => exact hok

theorem tokenizeView_body (env : Env) (p : String)
    (gen : String → orderedSet → generator → Result)
    (path : String) : ∀ (z : List Token) (st : unitState), BodyOK env p st.funcBuf →
    BodyOK env p (tokenizeView env gen path z st).2.funcBuf := by
  intro z
  induction z with
  | nil => intro st h0; exact h0
  | cons tok z ih =>
    intro st h0
    have h1 := tokenStep_body env p gen path tok st h0
    simp only [tokenizeView]
    split
    · rename_i st1 heq
      rw [heq] at h1
      exact ih st1 h1
    · rename_i st1 heq
      rw [heq] at h1
      exact h1
    · rename_i out st1 heq
      rw [heq] at h1
      exact h1

/-- The lines of a unit block: the source comment, the type definition with one field
per ref entry, the opening of the constructor, instructions, and the return with one
initializer per ref entry. -/
theorem UnitBlock.shape {env : Env} {p : String} {lines : List Line}
    (hb : UnitBlock env p lines) :
    ∃ (refs1 refs2 : Refs) (body : List Line) (roots : List String),
      (∀ l ∈ body, l.isInstruction = true) ∧
      lines =
        [Line.sourceComment p, Line.typeOpen (componentTypeName (env.Base p))] ++
        refs1.map (fun kv => Line.field kv.1 (Ref.fieldType env kv.2)) ++
        [Line.rootsField, Line.typeClose,
         Line.funcOpen (constructorFuncName env (componentTypeName (env.Base p)))
           (componentTypeName (env.Base p))] ++
        body ++ [Line.returnOpen (componentTypeName (env.Base p))] ++
        refs2.map (fun kv => Ref.initializer env kv.1 kv.2) ++
        [Line.rootsInit roots, Line.returnClose, Line.funcClose] := by
  obtain ⟨n, z, h, g, _, hl⟩ := hb
  obtain ⟨body, hbody, hinstr⟩ := tokenizeView_body env p (generateOneFile env n) p z
    (unitState.init env p h g) ⟨[], rfl, by simp⟩
  refine ⟨env.rangeTypeDefinition p
      (tokenizeView env (generateOneFile env n) p z (unitState.init env p h g)).2.refs,
    env.rangeReturn p
      (tokenizeView env (generateOneFile env n) p z (unitState.init env p h g)).2.refs,
    body, (tokenizeView env (generateOneFile env n) p z (unitState.init env p h g)).2.roots,
    hinstr, ?_⟩
  rw [hl, unitLines, writeTypeDefinition_eq, writeReturn_eq, hbody]
  simp

/-- A unit block holds the source comment of its unit once, and no other. -/
theorem UnitBlock.count_sourceComment {env : Env} {p : String} {lines : List Line}
    (hb : UnitBlock env p lines) (q : String) :
    lines.count (Line.sourceComment q) = if p = q then 1 else 0 := by
  obtain ⟨refs1, refs2, body, roots, hinstr, hl⟩ := hb.shape
  have h1 : (refs1.map (fun kv => Line.field kv.1 (Ref.fieldType env kv.2))).count
      (Line.sourceComment q) = 0 := by
    rw [List.count_eq_zero]
    intro hm
    obtain ⟨kv, _, hkv⟩ := List.mem_map.1 hm
    exact Line.noConfusion hkv
  have h2 : body.count (Line.sourceComment q) = 0 := by
    rw [List.count_eq_zero]
    intro hm
    have := hinstr _ hm
    simp [Line.isInstruction] at this
  have h3 : (refs2.map (fun kv => Ref.initializer env kv.1 kv.2)).count
      (Line.sourceComment q) = 0 := by
    rw [List.count_eq_zero]
    intro hm
    obtain ⟨kv, _, hkv⟩ := List.mem_map.1 hm
    unfold Ref.initializer at hkv
    split at hkv <;> exact Line.noConfusion hkv
  rw [hl]
  simp only [List.count_append, h1, h2, h3, List.count_cons, List.count_nil]
  by_cases e : p = q
  · subst e; simp
  · simp [e]

theorem count_sourceComment_blocks (env : Env) (q : String) :
    ∀ blocks : List (String × List Line), (∀ b, b ∈ blocks → UnitBlock env b.1 b.2) →
      (blocks.map Prod.snd).flatten.count (Line.sourceComment q) =
        (blocks.map Prod.fst).count q := by
  intro blocks
  induction blocks with
  | nil => intro _; rfl
  | cons b rest ih =>
    intro hb
    have h1 := (hb b (List.mem_cons_self _ _)).count_sourceComment q
    have h2 := ih (fun x hx => hb x (List.mem_cons_of_mem _ hx))
    simp only [List.map_cons, List.flatten_cons, List.count_append, h1, h2, List.count_cons]
    by_cases e : b.1 = q
    · simp [e]; omega
    · simp [e]

/-- A unit block opens one type definition and one constructor. -/
theorem UnitBlock.countP_open {env : Env} {p : String} {lines : List Line}
    (hb : UnitBlock env p lines) :
    lines.countP Line.isTypeOpen = 1 ∧ lines.countP Line.isFuncOpen = 1 := by
  obtain ⟨refs1, refs2, body, roots, hinstr, hl⟩ := hb.shape
  have h1 : ∀ f : Line → Bool, (∀ k t, f (Line.field k t) = false) →
      (refs1.map (fun kv => Line.field kv.1 (Ref.fieldType env kv.2))).countP f = 0 := by
    intro f hf
    rw [List.countP_eq_zero]
    intro l hm
    obtain ⟨kv, _, hkv⟩ := List.mem_map.1 hm
    rw [← hkv, hf]
    simp
  have h2 : ∀ f : Line → Bool, (∀ l, l.isInstruction = true → f l = false) →
      body.countP f = 0 := by
    intro f hf
    rw [List.countP_eq_zero]
    intro l hm
    rw [hf l (hinstr l hm)]
    simp
  have h3 : ∀ f : Line → Bool, (∀ k x v, f (Line.fieldInitFromJS k x v) = false) →
      (∀ k v, f (Line.fieldInit k v) = false) →
      (refs2.map (fun kv => Ref.initializer env kv.1 kv.2)).countP f = 0 := by
    intro f hf1 hf2
    rw [List.countP_eq_zero]
    intro l hm
    obtain ⟨kv, _, hkv⟩ := List.mem_map.1 hm
    rw [← hkv]
    unfold Ref.initializer
    split
    · rw [hf1]; simp
    · rw [hf2]; simp
  have i1 : ∀ l : Line, l.isInstruction = true → l.isTypeOpen = false := by
    intro l hl
    cases l <;> first | rfl | exact absurd hl (by simp [Line.isInstruction])
  have i2 : ∀ l : Line, l.isInstruction = true → l.isFuncOpen = false := by
    intro l hl
    cases l <;> first | rfl | exact absurd hl (by simp [Line.isInstruction])
  rw [hl]
  refine ⟨?_, ?_⟩
  · simp only [List.countP_append, h1 Line.isTypeOpen (fun _ _ => rfl), h2 Line.isTypeOpen i1,
      h3 Line.isTypeOpen (fun _ _ _ => rfl) (fun _ _ => rfl)]
    simp [List.countP_cons, Line.isTypeOpen]
  · simp only [List.countP_append, h1 Line.isFuncOpen (fun _ _ => rfl), h2 Line.isFuncOpen i2,
      h3 Line.isFuncOpen (fun _ _ _ => rfl) (fun _ _ => rfl)]
    simp [List.countP_cons, Line.isFuncOpen]

theorem countP_open_blocks (env : Env) :
    ∀ blocks : List (String × List Line), (∀ b, b ∈ blocks → UnitBlock env b.1 b.2) →
      (blocks.map Prod.snd).flatten.countP Line.isTypeOpen = blocks.length ∧
      (blocks.map Prod.snd).flatten.countP Line.isFuncOpen = blocks.length := by
  intro blocks
  induction blocks with
  | nil => intro _; exact ⟨rfl, rfl⟩
  | cons b rest ih =>
    intro hb
    have h1 := (hb b (List.mem_cons_self _ _)).countP_open
    have h2 := ih (fun x hx => hb x (List.mem_cons_of_mem _ hx))
    simp only [List.map_cons, List.flatten_cons, List.countP_append, h1.1, h1.2, h2.1, h2.2,
      List.length_cons]
    omega

/-- **C4 (as amended).** When the token loop of a unit reaches two include
directives whose `path` attributes resolve to the same file `q`, and the unit
compiles, then the view buffer is the header followed by one block per compiled
unit, each the type definition and the constructor that the token loop of that unit
produced, with the block of the unit itself last.  The unit `q` is among the
blocks, no unit has two blocks, the view buffer opens as many type definitions and
as many constructors as there are blocks, and the source comment of `q`, which
introduces its type definition, occurs exactly once in the whole view buffer.  The constructor body of
the unit itself holds for each of the two directives a call of the constructor named
after the base name of `q`, bound to the variable allocated at that directive:
`include` followed by the counter of the allocator there, which is larger at the
second directive. -/
theorem C4_include_twice (env : Env) (opts : Options) (n : Nat) (path q : String)
    (h : orderedSet) (g : generator) (pre mid rest : List Token) (t1 t2 : Token)
    (a1 a2 : List (String × String)) (v1 v2 : String) (s1 s2 : unitState)
    (hg : Compiled env (startGenerator opts) g) (hwf : h.WF) (hmemo : path ∉ g.generated)
    (hopen : env.open? path = some (pre ++ t1 :: (mid ++ t2 :: rest)))
    (ht1 : t1 = .StartTagToken "include" a1 ∨ t1 = .SelfClosingTagToken "include" a1)
    (ht2 : t2 = .StartTagToken "include" a2 ∨ t2 = .SelfClosingTagToken "include" a2)
    (hv1 : ("path", v1) ∈ a1) (hv2 : ("path", v2) ∈ a2)
    (hq1 : includePath env g.opts.Root path v1 = q)
    (hq2 : includePath env g.opts.Root path v2 = q)
    (hr1 : tokenizeView env (generateOneFile env n) path pre
      (unitState.init env path h g) = (.eof, s1))
    (hr2 : tokenizeView env (generateOneFile env n) path (pre ++ t1 :: mid)
      (unitState.init env path h g) = (.eof, s2))
    (hok : (generateOneFile env (n + 1) path h g).out = .nil) :
    (∃ blocks : List (String × List Line),
      (generateOneFile env (n + 1) path h g).g.viewsBuf =
        [Line.header opts.Package] ++ (blocks.map Prod.snd).flatten ++
          unitLines env path (componentTypeName (env.Base path))
            (tokenizeView env (generateOneFile env n) path (pre ++ t1 :: (mid ++ t2 :: rest))
              (unitState.init env path h g)).2 ∧
      (∀ b, b ∈ blocks → UnitBlock env b.1 b.2) ∧
      (blocks.map Prod.fst).Nodup ∧ path ∉ blocks.map Prod.fst ∧ q ∈ blocks.map Prod.fst ∧
      (generateOneFile env (n + 1) path h g).g.viewsBuf.countP Line.isTypeOpen =
        blocks.length + 1 ∧
      (generateOneFile env (n + 1) path h g).g.viewsBuf.countP Line.isFuncOpen =
        blocks.length + 1) ∧
    (generateOneFile env (n + 1) path h g).g.viewsBuf.count (Line.sourceComment q) = 1 ∧
    Line.construct ("include" ++ toString (s1.namer.count "include"))
        (constructorFuncName env (componentTypeName (env.Base q))) ∈
      (tokenizeView env (generateOneFile env n) path (pre ++ t1 :: (mid ++ t2 :: rest))
        (unitState.init env path h g)).2.funcBuf ∧
    Line.construct ("include" ++ toString (s2.namer.count "include"))
        (constructorFuncName env (componentTypeName (env.Base q))) ∈
      (tokenizeView env (generateOneFile env n) path (pre ++ t1 :: (mid ++ t2 :: rest))
        (unitState.init env path h g)).2.funcBuf ∧
    s1.namer.count "include" < s2.namer.count "include" := by
  obtain ⟨n1, hn, hhas, hloop, hgrow, _, hviews⟩ :=
    (generateOneFile_grows env (n + 1) path h g hwf).2 hok hmemo _ hopen
  have hn : n1 = n := by omega
  subst hn
  have hgen := generateOneFile_ok env n1 (h.add path) (hwf.add path)
  have hinit : (unitState.init env path h g).history = h.add path := rfl
  have hstart : Grows env (h.add path) g (unitState.init env path h g).g .nil :=
    Grows.start env _ g
  -- the first directive
  obtain ⟨c1, m1, sa, hstep1, hcnt1⟩ := include_site_final env (generateOneFile env n1) path
    (h.add path) hgen g t1 a1 v1 ht1 hv1 pre (mid ++ t2 :: rest) _ s1 hinit hstart hr1 hloop
  -- the second directive
  have hz2 : (pre ++ t1 :: mid) ++ t2 :: rest = pre ++ t1 :: (mid ++ t2 :: rest) := by simp
  obtain ⟨c2, _, _, _, _⟩ := include_site_final env (generateOneFile env n1) path
    (h.add path) hgen g t2 a2 v2 ht2 hv2 (pre ++ t1 :: mid) rest _ s2 hinit hstart hr2
    (by rw [hz2]; exact hloop)
  rw [hz2] at c2
  rw [hq1] at c1 m1
  rw [hq2] at c2
  -- the counters
  have hlt : s1.namer.count "include" < s2.namer.count "include" := by
    have e := tokenizeView_append env (generateOneFile env n1) path pre (t1 :: mid) _ s1 hr1
    rw [hr2] at e
    simp only [tokenizeView, hstep1] at e
    have hext := tokenizeView_extends env (generateOneFile env n1) path mid sa
    rw [← e] at hext
    have hle : sa.namer.count "include" ≤ s2.namer.count "include" := hext.namer "include"
    omega
  -- the blocks
  obtain ⟨blocks0, b1, b2, b3, b4⟩ := hg
  obtain ⟨blocks1, d1, d2, d3, d4⟩ := hgrow.compiled rfl
  have hpath : (h.add path).has path = true :=
    (orderedSet.has_add h path path).2 (Or.inr rfl)
  have hgenerated : (tokenizeView env (generateOneFile env n1) path
      (pre ++ t1 :: (mid ++ t2 :: rest)) (unitState.init env path h g)).2.g.generated =
      (blocks0 ++ blocks1).map Prod.fst := by
    rw [d1, b1]; simp [startGenerator]
  have hblocks : ∀ b, b ∈ blocks0 ++ blocks1 → UnitBlock env b.1 b.2 := by
    intro b hb
    rcases List.mem_append.1 hb with hb | hb
    · exact b3 b hb
    · exact d3 b hb
  have hnodup : ((blocks0 ++ blocks1).map Prod.fst).Nodup := by
    rw [← hgenerated]
    exact d4 (b4 (by simp [startGenerator]))
  have hnot : path ∉ (blocks0 ++ blocks1).map Prod.fst := by
    rw [← hgenerated]
    exact fun hx => hmemo (hgrow.memo.2 path hpath hx)
  have hq : q ∈ (blocks0 ++ blocks1).map Prod.fst := by
    rw [← hgenerated]
    exact m1
  have hbuf : (generateOneFile env (n1 + 1) path h g).g.viewsBuf =
      [Line.header opts.Package] ++ ((blocks0 ++ blocks1).map Prod.snd).flatten ++
        unitLines env path (componentTypeName (env.Base path))
          (tokenizeView env (generateOneFile env n1) path (pre ++ t1 :: (mid ++ t2 :: rest))
            (unitState.init env path h g)).2 := by
    rw [hviews, d2, b2]; simp [startGenerator]
  have hself : UnitBlock env path (unitLines env path (componentTypeName (env.Base path))
      (tokenizeView env (generateOneFile env n1) path (pre ++ t1 :: (mid ++ t2 :: rest))
        (unitState.init env path h g)).2) := ⟨n1, _, h, g, hopen, rfl⟩
  have hcnt := countP_open_blocks env _ hblocks
  refine ⟨⟨blocks0 ++ blocks1, hbuf, hblocks, hnodup, hnot, hq, ?_, ?_⟩, ?_, c1, c2, hlt⟩
  · rw [hbuf, List.countP_append, List.countP_append, hcnt.1, hself.countP_open.1]
    simp [List.countP_cons, Line.isTypeOpen]
  · rw [hbuf, List.countP_append, List.countP_append, hcnt.2, hself.countP_open.2]
    simp [List.countP_cons, Line.isFuncOpen]
  have hne : path ≠ q := fun e => hnot (e ▸ hq)
  rw [hbuf, List.count_append, List.count_append, count_sourceComment_blocks env q _ hblocks,
    hself.count_sourceComment q, if_neg hne, List.count_eq_one_of_mem hnodup hq]
  simp

theorem C4_include_twice_witness :
    (generateOneFile (Env.sample memoFiles) (1 + 1) "c.html" newOrderedSet
        (startGenerator ⟨"ui", "/"⟩)).g.viewsBuf.count (Line.sourceComment "d.html") = 1 ∧
    Line.construct ("include" ++ toString
        ((tokenizeView (Env.sample memoFiles) (generateOneFile (Env.sample memoFiles) 1)
          "c.html" [.StartTagToken "div" []]
          (unitState.init (Env.sample memoFiles) "c.html" newOrderedSet
            (startGenerator ⟨"ui", "/"⟩))).2.namer.count "include"))
        (constructorFuncName (Env.sample memoFiles)
          (componentTypeName ((Env.sample memoFiles).Base "d.html"))) ∈
      (tokenizeView (Env.sample memoFiles) (generateOneFile (Env.sample memoFiles) 1) "c.html"
        ([.StartTagToken "div" []] ++
          Token.SelfClosingTagToken "include" [("path", "d.html")] ::
            ([] ++ Token.SelfClosingTagToken "include" [("path", "d.html"), ("ref", "second")] ::
              [.EndTagToken "div"]))
        (unitState.init (Env.sample memoFiles) "c.html" newOrderedSet
          (startGenerator ⟨"ui", "/"⟩))).2.funcBuf ∧
    Line.construct ("include" ++ toString
        ((tokenizeView (Env.sample memoFiles) (generateOneFile (Env.sample memoFiles) 1)
          "c.html" ([.StartTagToken "div" []] ++
            Token.SelfClosingTagToken "include" [("path", "d.html")] :: [])
          (unitState.init (Env.sample memoFiles) "c.html" newOrderedSet
            (startGenerator ⟨"ui", "/"⟩))).2.namer.count "include"))
        (constructorFuncName (Env.sample memoFiles)
          (componentTypeName ((Env.sample memoFiles).Base "d.html"))) ∈
      (tokenizeView (Env.sample memoFiles) (generateOneFile (Env.sample memoFiles) 1) "c.html"
        ([.StartTagToken "div" []] ++
          Token.SelfClosingTagToken "include" [("path", "d.html")] ::
            ([] ++ Token.SelfClosingTagToken "include" [("path", "d.html"), ("ref", "second")] ::
              [.EndTagToken "div"]))
        (unitState.init (Env.sample memoFiles) "c.html" newOrderedSet
          (startGenerator ⟨"ui", "/"⟩))).2.funcBuf ∧
    (tokenizeView (Env.sample memoFiles) (generateOneFile (Env.sample memoFiles) 1)
        "c.html" [.StartTagToken "div" []]
        (unitState.init (Env.sample memoFiles) "c.html" newOrderedSet
          (startGenerator ⟨"ui", "/"⟩))).2.namer.count "include" <
      (tokenizeView (Env.sample memoFiles) (generateOneFile (Env.sample memoFiles) 1)
        "c.html" ([.StartTagToken "div" []] ++
          Token.SelfClosingTagToken "include" [("path", "d.html")] :: [])
        (unitState.init (Env.sample memoFiles) "c.html" newOrderedSet
          (startGenerator ⟨"ui", "/"⟩))).2.namer.count "include" :=
  (C4_include_twice (Env.sample memoFiles) ⟨"ui", "/"⟩ 1 "c.html" "d.html" newOrderedSet
    (startGenerator ⟨"ui", "/"⟩) [.StartTagToken "div" []] [] [.EndTagToken "div"]
    (.SelfClosingTagToken "include" [("path", "d.html")])
    (.SelfClosingTagToken "include" [("path", "d.html"), ("ref", "second")])
    [("path", "d.html")] [("path", "d.html"), ("ref", "second")] "d.html" "d.html"
    _ _
    (Compiled.compiled_refl _ _) orderedSet.WF_new (by decide) rfl (Or.inr rfl) (Or.inr rfl)
    (by decide) (by decide) (by decide) (by decide) rfl rfl (by decide)).2

/-- The view buffer after `c.html`, which includes `d.html` twice, is compiled. -/
theorem memoFiles_viewsBuf :
    (generateOneFile (Env.sample memoFiles) 2 "c.html" newOrderedSet
      (startGenerator ⟨"ui", "/"⟩)).g.viewsBuf =
      [.header "ui",
       .sourceComment "d.html", .typeOpen "d", .rootsField, .typeClose,
       .funcOpen "newD" "d", .createElement "p0" "p", .constString "stringliteral0" "hello",
       .setTextContent "p0" "stringliteral0", .returnOpen "d", .rootsInit ["p0"],
       .returnClose, .funcClose,
       .sourceComment "c.html", .typeOpen "c", .field "second" "*d", .rootsField, .typeClose,
       .funcOpen "newC" "c", .createElement "div0" "div", .construct "include0" "newD",
       .forRoots "include0", .appendChildRoot "div0", .forClose,
       .construct "include1" "newD", .forRoots "include1", .appendChildRoot "div0", .forClose,
       .returnOpen "c", .fieldInit "second" "include1", .rootsInit ["div0"],
       .returnClose, .funcClose] := by
  decide

end Nausicaa
